import Mathlib

/-!
Box suppression kernels of `torch_ipex/csrc/cpu/nms.cpp`.

A shallow embedding of `nms_cpu_kernel`, `remove_empty` and
`batch_score_nms_kernel`.

Modelling conventions.

* A floating-point scalar (`scalar_t`, `float`) is an exact rational; rounding is
  not modelled.  The one IEEE behaviour that is kept is division by a zero
  divisor (`fdiv`): `0/0` is NaN, `x/0` is an infinity, and a NaN compares
  false with everything.
* A tensor of `N` boxes is a `List Box`; a one-dimensional tensor is a list, and
  `t[i]` is `List.getD`.  `batch_dets` is the list of the images' box lists and
  `batch_scores[b][n][c]` the score of box `n` of image `b` for class `c`; the size
  `batch_scores.size(2)` of the class axis is passed along as `nscore`.
* `at::Tensor::sort` is library code.  The kernels are parameterised by the index
  part of its result, `argsort descending xs`; `SortSpec` states what is assumed of
  it (a permutation of the positions that orders the keys), so that no particular
  tie-breaking is fixed.  `argsortStable` is one concrete instance.
* The OpenMP loops are run sequentially in index order.  Each iteration writes
  only its own slot, so the sequential order is one of the admitted schedules.
* The assertions at the head of `nms_cpu_kernel` (CPU tensors of one element type)
  hold by the types of the model.  A call that throws is `none`.
-/

namespace torch_ipex

/-- One row of a `dets` tensor: `(x1, y1, x2, y2)`. -/
structure Box where
  x1 : ℚ
  y1 : ℚ
  x2 : ℚ
  y2 : ℚ
  deriving DecidableEq

instance : Inhabited Box := ⟨⟨0, 0, 0, 0⟩⟩

/-- Result of a floating-point division, over exact rationals. -/
inductive FVal where
  | fin (q : ℚ)
  | pinf
  | ninf
  | nan
  deriving DecidableEq

/-- The division `n / d` of the kernel: exact when `d ≠ 0`; with a zero divisor
(taken as `+0`, the zero that a sum or difference rounds to) it is NaN for `n = 0`
and an infinity with the sign of `n` otherwise. -/
def fdiv (n d : ℚ) : FVal :=
  if d = 0 then
    if n = 0 then FVal.nan else if 0 < n then FVal.pinf else FVal.ninf
  else FVal.fin (n / d)

/-- The comparison `v >= t` against a finite threshold `t`; false for NaN. -/
def FVal.ge (v : FVal) (t : ℚ) : Bool :=
  match v with
  | FVal.fin q => decide (t ≤ q)
  | FVal.pinf => true
  | FVal.ninf => false
  | FVal.nan => false

/-- One entry of `areas_t = (x2_t - x1_t + bias) * (y2_t - y1_t + bias)`. -/
def area (bias : ℚ) (b : Box) : ℚ :=
  (b.x2 - b.x1 + bias) * (b.y2 - b.y1 + bias)

/-- The value `inter = w * h` of the inner loop body for the boxes `a`, `b`. -/
def inter (bias : ℚ) (a b : Box) : ℚ :=
  let xx1 := max a.x1 b.x1
  let yy1 := max a.y1 b.y1
  let xx2 := min a.x2 b.x2
  let yy2 := min a.y2 b.y2
  let w := max 0 (xx2 - xx1 + bias)
  let h := max 0 (yy2 - yy1 + bias)
  w * h

/-- The divisor `iarea + areas[j] - inter` of the inner loop body. -/
def divisor (bias : ℚ) (a b : Box) : ℚ :=
  area bias a + area bias b - inter bias a b

/-- The value `ovr` of the inner loop body, for the boxes `a = dets[i]`,
`b = dets[j]`. -/
def overlap (bias : ℚ) (a b : Box) : FVal :=
  fdiv (inter bias a b) (divisor bias a b)

/-- Body of the inner loop (lines 65-78) for the pair `i`, `j = order[_j]`. -/
def innerBody (dets : List Box) (areas : List ℚ) (threshold bias : ℚ)
    (i j : Nat) (suppressed : List Bool) : List Bool :=
  if suppressed.getD j false then suppressed
  else
    let bi := dets.getD i default
    let bj := dets.getD j default
    let iarea := areas.getD i 0
    let xx1 := max bi.x1 bj.x1
    let yy1 := max bi.y1 bj.y1
    let xx2 := min bi.x2 bj.x2
    let yy2 := min bi.y2 bj.y2
    let w := max 0 (xx2 - xx1 + bias)
    let h := max 0 (yy2 - yy1 + bias)
    let inter := w * h
    let ovr := fdiv inter (iarea + areas.getD j 0 - inter)
    if ovr.ge threshold then suppressed.set j true else suppressed

/-- The inner loop `for (_j = _i + 1; _j < ndets; _j++)`. -/
def innerLoop (dets : List Box) (areas : List ℚ) (order : List Nat)
    (threshold bias : ℚ) (ndets _i : Nat) (suppressed : List Bool) : List Bool :=
  (List.range' (_i + 1) (ndets - (_i + 1))).foldl
    (fun s _j => innerBody dets areas threshold bias (order.getD _i 0) (order.getD _j 0) s)
    suppressed

/-- Body of the outer loop (lines 48-79). -/
def outerBody (dets : List Box) (areas : List ℚ) (order : List Nat)
    (threshold bias : ℚ) (ndets : Nat) (suppressed : List Bool) (_i : Nat) : List Bool :=
  if suppressed.getD (order.getD _i 0) false then suppressed
  else innerLoop dets areas order threshold bias ndets _i suppressed

/-- The sweep `for (_i = 0; _i < ndets; _i++)` started from `at::zeros({ndets})`. -/
def sweep (dets : List Box) (areas : List ℚ) (order : List Nat)
    (threshold bias : ℚ) (ndets : Nat) : List Bool :=
  (List.range ndets).foldl (outerBody dets areas order threshold bias ndets)
    (List.replicate ndets false)

/-- The kernel `nms_cpu_kernel(dets, scores, threshold, bias)`; the result is
`at::nonzero(suppressed_t == 0)`, the unsuppressed indices in increasing order. -/
def nms_cpu_kernel (argsort : Bool → List ℚ → List Nat) (dets : List Box)
    (scores : List ℚ) (threshold : ℚ) (bias : ℚ) : List Nat :=
  if dets.length = 0 then []
  else
    let areas := dets.map (area bias)
    let order := argsort true scores
    let ndets := dets.length
    let suppressed := sweep dets areas order threshold bias ndets
    (List.range ndets).filter (fun i => suppressed.getD i false == false)

/-- Insertion of the position `i` into a list of positions ordered by `le`. -/
def insertPos (le : Nat → Nat → Bool) (i : Nat) : List Nat → List Nat
  | [] => [i]
  | j :: js => if le i j then i :: j :: js else j :: insertPos le i js

/-- A stable argsort: the positions of `xs`, ordered by key, ties by position. -/
def argsortStable (descending : Bool) (xs : List ℚ) : List Nat :=
  (List.range xs.length).foldr
    (insertPos (fun i j =>
      if descending then decide (xs.getD j 0 ≤ xs.getD i 0)
      else decide (xs.getD i 0 ≤ xs.getD j 0))) []

/-- What the kernels require of the index result of `sort`. -/
def SortSpec (argsort : Bool → List ℚ → List Nat) : Prop :=
  ∀ (descending : Bool) (xs : List ℚ),
    (argsort descending xs).Perm (List.range xs.length) ∧
    (argsort descending xs).Pairwise (fun i j =>
      if descending then xs.getD j 0 ≤ xs.getD i 0 else xs.getD i 0 ≤ xs.getD j 0)

/-- The call `at::index_select(t, 0, index)`: the rows of `t` at the positions `index`.
An index out of range, which the library rejects, reads `default`; the kernels pass
indices in range whenever `batch_dets` has a box for every row of `batch_scores`. -/
def index_select {α : Type} [Inhabited α] (t : List α) (index : List Nat) : List α :=
  index.map (fun i => t.getD i default)

/-- The call `t.slice(0, start, stop)` for `0 ≤ start`, `0 ≤ stop`: the rows from
`start` up to `stop`, both clamped to the size of `t`. -/
def slice {α : Type} (t : List α) (start stop : Int) : List α :=
  (t.take stop.toNat).drop start.toNat

/-- The function `remove_empty(candidate, start, end)`: the defined tensors among
`candidate[start], ..., candidate[end - 1]`, in order. -/
def remove_empty {α : Type} (candidate : List (Option α)) (start stop : Nat) : List α :=
  (List.range' start (stop - start)).filterMap (fun i => candidate.getD i none)

/-- The call `at::cat(tensors, 0)`.  The library rejects an empty vector of tensors
(there is no tensor argument to dispatch on: "expected a non-empty list of
Tensors"); that failure is `none`. -/
def cat {α : Type} (tensors : List (List α)) : Option (List α) :=
  match tensors with
  | [] => none
  | _ :: _ => some tensors.flatten

/-- Body of the first loop of `batch_score_nms_kernel` (lines 119-153) for the slot
`index`.  The result is `none` when the iteration throws, `some none` when it leaves
the slot undefined (`continue`), and otherwise holds the values stored in
`bboxes_out[index]`, `scores_out[index]`, `labels_out[index]`.
`nscore` is `batch_scores.size(2)`.

The two `squeeze(0)` of lines 128-129 drop the box axis when it has size one; with
one box per image `scores` is then one-dimensional and `scores.slice(1, i, i+1)`
addresses an axis that does not exist, which throws. -/
def stage1 (argsort : Bool → List ℚ → List Nat) (batch_dets : List (List Box))
    (batch_scores : List (List (List ℚ))) (nscore : Nat) (threshold : ℚ)
    (max_output : Int) (index : Nat) : Option (Option (List Box × List ℚ × List Nat)) :=
  let bs := index / nscore
  let i := index % nscore
  if i = 0 then some none
  else
    let dets := batch_dets.getD bs []
    let scores := batch_scores.getD bs []
    if scores.length = 1 then none
    else
      let score := scores.map (fun row => row.getD i 0)
      let mask_index :=
        (List.range score.length).filter (fun n => decide ((1 : ℚ) / 20 < score.getD n 0))
      let bboxes := index_select dets mask_index
      let score := index_select score mask_index
      if score.length = 0 then some none
      else
        let score_idx_sorted := argsort false score
        let score_idx_sorted :=
          slice score_idx_sorted (max ((score.length : Int) - max_output) 0) score.length
        let keep := nms_cpu_kernel argsort (index_select bboxes score_idx_sorted)
          (index_select score score_idx_sorted) threshold 0
        let candidates := index_select score_idx_sorted keep
        some (some (index_select bboxes candidates, index_select score candidates,
          List.replicate candidates.length i))

/-- Body of the second loop of `batch_score_nms_kernel` (lines 165-179) for the
image `bs`, given the three slot vectors; `none` when `at::cat` fails. -/
def stage2 (argsort : Bool → List ℚ → List Nat) (nscore : Nat) (max_output : Int)
    (bboxes_out : List (Option (List Box))) (scores_out : List (Option (List ℚ)))
    (labels_out : List (Option (List Nat))) (bs : Nat) :
    Option (List Box × List Nat × List ℚ) :=
  let valid_bboxes_out := remove_empty bboxes_out (bs * nscore) ((bs + 1) * nscore)
  let valid_scores_out := remove_empty scores_out (bs * nscore) ((bs + 1) * nscore)
  let valid_labels_out := remove_empty labels_out (bs * nscore) ((bs + 1) * nscore)
  match cat valid_bboxes_out, cat valid_labels_out, cat valid_scores_out with
  | some bboxes_out_, some labels_out_, some scores_out_ =>
    let max_ids := argsort false scores_out_
    let max_ids := slice max_ids (max ((max_ids.length : Int) - max_output) 0) max_ids.length
    some (index_select bboxes_out_ max_ids, index_select labels_out_ max_ids,
      index_select scores_out_ max_ids)
  | _, _, _ => none

/-- A loop whose body `f` may throw, run for the given indices in order: the results
of the iterations, or `none` as soon as one iteration throws. -/
def forIndices {α : Type} (f : Nat → Option α) : List Nat → Option (List α)
  | [] => some []
  | k :: rest =>
    match f k with
    | none => none
    | some r =>
      match forIndices f rest with
      | none => none
      | some rs => some (r :: rs)

/-- The kernel `batch_score_nms_kernel(batch_dets, batch_scores, threshold,
max_output)`; `nscore` is `batch_scores.size(2)`.  The result is the vector of
`(boxes, labels, scores)` triples, or `none` when the call throws. -/
def batch_score_nms_kernel (argsort : Bool → List ℚ → List Nat)
    (batch_dets : List (List Box)) (batch_scores : List (List (List ℚ))) (nscore : Nat)
    (threshold : ℚ) (max_output : Int) : Option (List (List Box × List Nat × List ℚ)) :=
  let nbatch := batch_scores.length
  let nbatch_x_nscore := nbatch * nscore
  match forIndices (stage1 argsort batch_dets batch_scores nscore threshold max_output)
      (List.range nbatch_x_nscore) with
  | none => none
  | some slots =>
    let bboxes_out := slots.map (Option.map (fun s => s.1))
    let scores_out := slots.map (Option.map (fun s => s.2.1))
    let labels_out := slots.map (Option.map (fun s => s.2.2))
    forIndices (stage2 argsort nscore max_output bboxes_out scores_out labels_out)
      (List.range nbatch)

/-- The flags of `t` extend those of `s`: same size, and every raised flag stays raised. -/
def FlagsExtend (s t : List Bool) : Prop :=
  t.length = s.length ∧ ∀ k, s.getD k false = true → t.getD k false = true

/-- The test `ovr >= threshold` of the inner loop body, for the boxes `i`, `j` of `dets`. -/
def hits (dets : List Box) (threshold bias : ℚ) (i j : Nat) : Bool :=
  (overlap bias (dets.getD i default) (dets.getD j default)).ge threshold

/-- A well-formed box: `x1 <= x2` and `y1 <= y2`. -/
@[reducible] def Box.WellFormed (b : Box) : Prop := b.x1 ≤ b.x2 ∧ b.y1 ≤ b.y2

/-- The index list `max_ids` of the second loop, for the concatenated scores. -/
def topIds (argsort : Bool → List ℚ → List Nat) (max_output : Int) (scores : List ℚ) :
    List Nat :=
  slice (argsort false scores)
    (max (((argsort false scores).length : Int) - max_output) 0) (argsort false scores).length

/-- The flags after the first `t` iterations of the sweep. -/
def sweepPrefix (dets : List Box) (areas : List ℚ) (order : List Nat)
    (threshold bias : ℚ) (ndets t : Nat) : List Bool :=
  (List.range t).foldl (outerBody dets areas order threshold bias ndets)
    (List.replicate ndets false)

/-- The entry point `nms_cpu(dets, scores, threshold)`: the dispatch over the
floating element types calls the kernel with its default `bias = 1`.  There is no
check of `threshold`. -/
def nms_cpu (argsort : Bool → List ℚ → List Nat) (dets : List Box) (scores : List ℚ)
    (threshold : ℚ) : List Nat :=
  nms_cpu_kernel argsort dets scores threshold 1

/-- The entry point `batch_score_nms_cpu(dets, scores, threshold, max_output)`: the
dispatch over the floating element types calls the kernel.  There is no check of
`threshold` or `max_output`. -/
def batch_score_nms_cpu (argsort : Bool → List ℚ → List Nat) (dets : List (List Box))
    (scores : List (List (List ℚ))) (nscore : Nat) (threshold : ℚ) (max_output : Int) :
    Option (List (List Box × List Nat × List ℚ)) :=
  batch_score_nms_kernel argsort dets scores nscore threshold max_output

/-- A dense tensor: its sizes and its elements in row-major (logical) order.  The
memory format (channels-last or not) does not change the logical values and is not
modelled. -/
structure Tensor where
  sizes : List Nat
  data : List ℚ
  deriving DecidableEq

/-- The shape `output_dim` that `ConcatBnRelu` computes for its output (lines 42-50):
a zero vector of `a[0].ndimension()` entries, in which entry `1` accumulates
`a[i].size(1)` over the inputs and every other entry `i` is set to `a[0].size(i)`.
The result is `none` when the computation throws: `a[0]` of an empty list, or
`size(1)` of a tensor with fewer than two axes. -/
def output_dim (a : List Tensor) : Option (List Nat) :=
  match a with
  | [] => none
  | a0 :: _ =>
    if a.all (fun t => decide (2 ≤ t.sizes.length)) then
      let output_dim := List.replicate a0.sizes.length 0
      let output_dim := a.foldl
        (fun d t => d.set 1 (d.getD 1 0 + t.sizes.getD 1 0)) output_dim
      let output_dim := (List.range a0.sizes.length).foldl
        (fun d i => if i ≠ 1 then d.set i (a0.sizes.getD i 0) else d) output_dim
      some output_dim
    else none

/-- The call `at::cat(tensors, dim)` on tensors that agree on every axis but `dim`:
for each index of the axes before `dim`, the blocks of the inputs one after the
other.  The library rejects an empty list, which is `none`. -/
def cat_dim (tensors : List Tensor) (dim : Nat) : Option Tensor :=
  match tensors with
  | [] => none
  | t0 :: _ =>
    let outer := (t0.sizes.take dim).prod
    some {
      sizes := t0.sizes.set dim ((tensors.map (fun t => t.sizes.getD dim 0)).sum)
      data := (List.range outer).flatMap (fun o =>
        tensors.flatMap (fun t =>
          (t.data.drop (o * (t.sizes.drop dim).prod)).take (t.sizes.drop dim).prod)) }

/-- The call `at::batch_norm(input, weight, bias, running_mean, running_var, training,
momentum, eps, cudnn_enabled)` in inference mode (`training = false`, where
`momentum` and `cudnn_enabled` do not change the values): every element `x` of
channel `c` becomes `(x - mean[c]) / sqrt(var[c] + eps) * weight[c] + bias[c]`, an
undefined `weight` counting as `1` and an undefined `bias` as `0`.  The running
statistics must be defined; otherwise the library throws, which is `none`.  The
square root is the parameter `sqrt`. -/
def batch_norm (sqrt : ℚ → ℚ) (input : Tensor) (weight bias running_mean running_var :
    Option (List ℚ)) (eps : ℚ) : Option Tensor :=
  match running_mean, running_var with
  | some mean, some var =>
    let inner := (input.sizes.drop 2).prod
    let channels := input.sizes.getD 1 0
    some {
      sizes := input.sizes
      data := input.data.enum.map (fun (p : Nat × ℚ) =>
        let c := (p.1 / inner) % channels
        let w := match weight with | some w => w.getD c 0 | none => 1
        let b := match bias with | some b => b.getD c 0 | none => 0
        (p.2 - mean.getD c 0) / sqrt (var.getD c 0 + eps) * w + b) }
  | _, _ => none

/-- The call `at::relu(t)`: `max(x, 0)` elementwise. -/
def relu (t : Tensor) : Tensor :=
  { sizes := t.sizes, data := t.data.map (fun x => max x 0) }

/-- Modelled from the spec: the kernel `ConcatBnReluKernelImpl_ChannelsLast` of
`csrc/cpu/vec512/concat_bn_relu.h` is not among the sources.  It receives the inputs,
`bn_weight`, `bn_beta` and the output buffer, and by the spec computes the
concatenation along the channel axis, the per-channel affine transform with the
already-fused scale/shift pair, here `x * bn_weight[c] + bn_beta[c]`, and the
rectifier `max(y, 0)`.  The result is the data written to the output buffer of
sizes `output_dim`. -/
def ConcatBnReluKernelImpl_ChannelsLast (a : List Tensor) (bn_weight : Option (List ℚ))
    (bn_beta : List ℚ) (output_dim : List Nat) : List ℚ :=
  match cat_dim a 1 with
  | none => []
  | some x =>
    let inner := (output_dim.drop 2).prod
    let channels := output_dim.getD 1 0
    x.data.enum.map (fun (p : Nat × ℚ) =>
      let c := (p.1 / inner) % channels
      let w := match bn_weight with | some w => w.getD c 0 | none => 1
      max (p.2 * w + bn_beta.getD c 0) 0)

/-- The function `ConcatBnRelu` in inference mode.  `cpu_capability_avx512` is the
compile-time switch `CPU_CAPABILITY_AVX512`; `kernel` is the vectorized kernel, which
receives `a`, `bn_weight = bn_scale`, `bn_beta` and the output buffer, of which only
the sizes carry information (`at::empty`); `sqrt` is the square root used by
`at::batch_norm`.  The result is `none` when the call throws. -/
def ConcatBnRelu (cpu_capability_avx512 : Bool)
    (kernel : List Tensor → Option (List ℚ) → List ℚ → List Nat → List ℚ) (sqrt : ℚ → ℚ)
    (a : List Tensor) (bn_beta : List ℚ) (bn_scale bn_bias bn_mean bn_var : Option (List ℚ))
    (bn_eps : ℚ) (dim : Nat) : Option Tensor :=
  match output_dim a with
  | none => none
  | some output_dim =>
    if cpu_capability_avx512 then
      some { sizes := output_dim, data := kernel a bn_scale bn_beta output_dim }
    else
      match cat_dim a dim with
      | none => none
      | some x =>
        match batch_norm sqrt x bn_scale bn_bias bn_mean bn_var bn_eps with
        | none => none
        | some bn_res => some (relu bn_res)

/-- A square root on the rationals for the evaluation of examples: exact on `0`,
`1` and `4`, the identity elsewhere. -/
def sqrtExample (x : ℚ) : ℚ := if x = 4 then 2 else x

/-- Body of the loop of `scale_back_batch_kernel` (lines 264-304) for the flat
detection index `k`, on the contiguous buffers `input_data` (`B x N x 4`),
`input_dboxes_xywh_data` (`N x 4`) and `output_data` (`B x N x 4`).  The scalars are
elements of an ordered field `K`; `exp` is the exponential function. -/
def scale_back_body {K : Type} [LinearOrderedField K] (exp : K → K)
    (input_data input_dboxes_xywh_data : List K) (scale_xy scale_wh : K)
    (boxes_per_image : Nat) (output_data : List K) (k : Nat) : List K :=
  let i := k / boxes_per_image
  let j := k % boxes_per_image
  let index := i * boxes_per_image * 4 + j * 4
  let output_data := output_data.set index (input_data.getD index 0 * scale_xy)
  let output_data := output_data.set (index + 1) (input_data.getD (index + 1) 0 * scale_xy)
  let output_data := output_data.set (index + 2) (input_data.getD (index + 2) 0 * scale_wh)
  let output_data := output_data.set (index + 3) (input_data.getD (index + 3) 0 * scale_wh)
  let index_dboxes_xywh := j * 4
  let output_data := output_data.set index
    (output_data.getD index 0 * input_dboxes_xywh_data.getD (index_dboxes_xywh + 2) 0 +
      input_dboxes_xywh_data.getD index_dboxes_xywh 0)
  let output_data := output_data.set (index + 1)
    (output_data.getD (index + 1) 0 * input_dboxes_xywh_data.getD (index_dboxes_xywh + 3) 0 +
      input_dboxes_xywh_data.getD (index_dboxes_xywh + 1) 0)
  let output_data := output_data.set (index + 2)
    (exp (output_data.getD (index + 2) 0) *
      input_dboxes_xywh_data.getD (index_dboxes_xywh + 2) 0)
  let output_data := output_data.set (index + 3)
    (exp (output_data.getD (index + 3) 0) *
      input_dboxes_xywh_data.getD (index_dboxes_xywh + 3) 0)
  let l := output_data.getD index 0 - 1 / 2 * output_data.getD (index + 2) 0
  let t := output_data.getD (index + 1) 0 - 1 / 2 * output_data.getD (index + 3) 0
  let r := output_data.getD index 0 + 1 / 2 * output_data.getD (index + 2) 0
  let b := output_data.getD (index + 1) 0 + 1 / 2 * output_data.getD (index + 3) 0
  let output_data := output_data.set index l
  let output_data := output_data.set (index + 1) t
  let output_data := output_data.set (index + 2) r
  let output_data := output_data.set (index + 3) b
  output_data

/-- The kernel `scale_back_batch_kernel(bboxes_in, dboxes_xywh, scale_xy, scale_wh)` for
an input of sizes `batch_size x boxes_per_image x 4`: the contiguous data of the
output.  The buffer of `at::empty` starts as zeros here; the loop overwrites every
entry. -/
def scale_back_batch_kernel {K : Type} [LinearOrderedField K] (exp : K → K)
    (batch_size boxes_per_image : Nat) (input_data input_dboxes_xywh_data : List K)
    (scale_xy scale_wh : K) : List K :=
  let ndets := batch_size * boxes_per_image
  (List.range ndets).foldl
    (scale_back_body exp input_data input_dboxes_xywh_data scale_xy scale_wh boxes_per_image)
    (List.replicate (batch_size * boxes_per_image * 4) 0)

/-- The decoding of one box as the specification words it: the centre
`offset * prior_wh + prior_center` with the offsets scaled by `scale_xy`, the size
`exp(offset) * prior_wh` with the offsets scaled by `scale_wh`, and the conversion of
`(cx, cy, w, h)` to `(l, t, r, b)`. -/
def decode_box {K : Type} [LinearOrderedField K] (exp : K → K) (scale_xy scale_wh : K)
    (offset prior : K × K × K × K) : K × K × K × K :=
  let cx := scale_xy * offset.1 * prior.2.2.1 + prior.1
  let cy := scale_xy * offset.2.1 * prior.2.2.2 + prior.2.1
  let w := exp (scale_wh * offset.2.2.1) * prior.2.2.1
  let h := exp (scale_wh * offset.2.2.2) * prior.2.2.2
  (cx - w / 2, cy - h / 2, cx + w / 2, cy + h / 2)

/-- The four entries of a contiguous `... x 4` buffer that start at `index`. -/
def quad {K : Type} [Zero K] (data : List K) (index : Nat) : K × K × K × K :=
  (data.getD index 0, data.getD (index + 1) 0, data.getD (index + 2) 0,
    data.getD (index + 3) 0)

/-- The slot that the first loop of `batch_score_nms_kernel` leaves at `index`, when
its iteration does not throw: `none` for an undefined tensor. -/
def slot_at (argsort : Bool → List ℚ → List Nat) (batch_dets : List (List Box))
    (batch_scores : List (List (List ℚ))) (nscore : Nat) (threshold : ℚ)
    (max_output : Int) (index : Nat) : Option (List Box × List ℚ × List Nat) :=
  (stage1 argsort batch_dets batch_scores nscore threshold max_output index).join

/-- The defined slots of the image `bs`, in class order: what `remove_empty` returns
in the second loop. -/
def image_slots (argsort : Bool → List ℚ → List Nat) (batch_dets : List (List Box))
    (batch_scores : List (List (List ℚ))) (nscore : Nat) (threshold : ℚ)
    (max_output : Int) (bs : Nat) : List (List Box × List ℚ × List Nat) :=
  (List.range' (bs * nscore) nscore).filterMap
    (slot_at argsort batch_dets batch_scores nscore threshold max_output)

/-- The tensor `scores_out_` of the second loop for the image `bs`: the scores of the
per-class survivors, concatenated. -/
def image_scores (argsort : Bool → List ℚ → List Nat) (batch_dets : List (List Box))
    (batch_scores : List (List (List ℚ))) (nscore : Nat) (threshold : ℚ)
    (max_output : Int) (bs : Nat) : List ℚ :=
  ((image_slots argsort batch_dets batch_scores nscore threshold max_output bs).map
    (fun s => s.2.1)).flatten

/-- The comparison `v < t` against a finite threshold `t`; false for NaN. -/
def FVal.lt (v : FVal) (t : ℚ) : Bool :=
  match v with
  | FVal.fin q => decide (q < t)
  | FVal.pinf => false
  | FVal.ninf => true
  | FVal.nan => false

/-! ## Lemmas on the suppression flags -/

theorem FlagsExtend.refl (s : List Bool) : FlagsExtend s s := ⟨rfl, fun _ h => h⟩

theorem FlagsExtend.trans {s t u : List Bool} (h₁ : FlagsExtend s t) (h₂ : FlagsExtend t u) :
    FlagsExtend s u :=
  ⟨h₂.1.trans h₁.1, fun k hk => h₂.2 k (h₁.2 k hk)⟩

theorem getD_set_self (s : List Bool) (j : Nat) (hj : j < s.length) :
    (s.set j true).getD j false = true := by
  simp [List.getD_eq_getElem?_getD, List.getElem?_set, hj]

theorem getD_set_of_true (s : List Bool) (j k : Nat) (hk : s.getD k false = true) :
    (s.set j true).getD k false = true := by
  by_cases hjk : j = k
  · subst hjk
    have : j < s.length := by
      by_contra hlt
      simp [List.getD_eq_getElem?_getD, List.getElem?_eq_none (not_lt.mp hlt)] at hk
    exact getD_set_self s j this
  · simpa [List.getD_eq_getElem?_getD, List.getElem?_set, hjk] using hk

theorem flagsExtend_set (s : List Bool) (j : Nat) : FlagsExtend s (s.set j true) :=
  ⟨by simp, fun k hk => getD_set_of_true s j k hk⟩

theorem foldl_flagsExtend {β : Type} (f : List Bool → β → List Bool)
    (hf : ∀ s x, FlagsExtend s (f s x)) (l : List β) (s : List Bool) :
    FlagsExtend s (l.foldl f s) := by
  induction l generalizing s with
  | nil => exact FlagsExtend.refl s
  | cons x xs ih => exact (hf s x).trans (ih (f s x))

theorem foldl_fixed {β : Type} (f : List Bool → β → List Bool) (l : List β) (s : List Bool)
    (hf : ∀ x ∈ l, f s x = s) : l.foldl f s = s := by
  induction l with
  | nil => rfl
  | cons x xs ih =>
    rw [List.foldl_cons, hf x (List.mem_cons_self x xs)]
    exact ih (fun y hy => hf y (List.mem_cons_of_mem x hy))

theorem getD_areas (dets : List Box) (bias : ℚ) (i : Nat) (hi : i < dets.length) :
    (dets.map (area bias)).getD i 0 = area bias (dets.getD i default) := by
  simp [List.getD_eq_getElem?_getD, List.getElem?_eq_getElem hi]

theorem innerBody_eq (dets : List Box) (threshold bias : ℚ) (i j : Nat)
    (hi : i < dets.length) (hj : j < dets.length) (s : List Bool) :
    innerBody dets (dets.map (area bias)) threshold bias i j s =
      if s.getD j false then s
      else if hits dets threshold bias i j then s.set j true else s := by
  simp only [innerBody, getD_areas dets bias i hi, getD_areas dets bias j hj, hits, overlap,
    divisor, inter]

theorem innerBody_flagsExtend (dets : List Box) (areas : List ℚ) (threshold bias : ℚ)
    (i j : Nat) (s : List Bool) :
    FlagsExtend s (innerBody dets areas threshold bias i j s) := by
  unfold innerBody
  split
  · exact FlagsExtend.refl s
  · dsimp only
    split
    · exact flagsExtend_set s j
    · exact FlagsExtend.refl s

theorem innerLoop_flagsExtend (dets : List Box) (areas : List ℚ) (order : List Nat)
    (threshold bias : ℚ) (ndets _i : Nat) (s : List Bool) :
    FlagsExtend s (innerLoop dets areas order threshold bias ndets _i s) :=
  foldl_flagsExtend _ (fun t _j => innerBody_flagsExtend dets areas threshold bias _ _ t) _ s

theorem outerBody_flagsExtend (dets : List Box) (areas : List ℚ) (order : List Nat)
    (threshold bias : ℚ) (ndets : Nat) (s : List Bool) (_i : Nat) :
    FlagsExtend s (outerBody dets areas order threshold bias ndets s _i) := by
  unfold outerBody
  split
  · exact FlagsExtend.refl s
  · exact innerLoop_flagsExtend dets areas order threshold bias ndets _i s

/-- A fold of flag-extending steps raises the flag `k` as soon as one of its steps
does so on every state of the right size. -/
theorem foldl_raises {β : Type} (f : List Bool → β → List Bool)
    (hf : ∀ s x, FlagsExtend s (f s x)) (n k : Nat) (x : β)
    (hx : ∀ s, s.length = n → (f s x).getD k false = true) (l : List β) (hmem : x ∈ l)
    (s : List Bool) (hs : s.length = n) : (l.foldl f s).getD k false = true := by
  induction l generalizing s with
  | nil => cases hmem
  | cons y ys ih =>
    rw [List.foldl_cons]
    rcases List.mem_cons.mp hmem with h | h
    · subst h
      exact (foldl_flagsExtend f hf ys (f s x)).2 k (hx s hs)
    · exact ih h (f s y) ((hf s y).1.trans hs)

theorem innerBody_raises (dets : List Box) (threshold bias : ℚ) (i j : Nat)
    (hi : i < dets.length) (hj : j < dets.length) (hit : hits dets threshold bias i j = true)
    (s : List Bool) (hs : s.length = dets.length) :
    (innerBody dets (dets.map (area bias)) threshold bias i j s).getD j false = true := by
  rw [innerBody_eq dets threshold bias i j hi hj]
  by_cases h : s.getD j false = true
  · rw [if_pos h]
    exact h
  · rw [if_neg h, if_pos hit]
    exact getD_set_self s j (hs ▸ hj)

/-- After the inner loop of position `p`, every later position `q` whose box
overlaps the box of `p` by the threshold or more is suppressed. -/
theorem innerLoop_raises (dets : List Box) (order : List Nat) (threshold bias : ℚ)
    (p q : Nat) (hpq : p < q) (hq : q < dets.length)
    (hi : order.getD p 0 < dets.length) (hj : order.getD q 0 < dets.length)
    (hit : hits dets threshold bias (order.getD p 0) (order.getD q 0) = true)
    (s : List Bool) (hs : s.length = dets.length) :
    (innerLoop dets (dets.map (area bias)) order threshold bias dets.length p s).getD
      (order.getD q 0) false = true := by
  unfold innerLoop
  refine foldl_raises _ (fun t _j => innerBody_flagsExtend dets _ threshold bias _ _ t)
    dets.length (order.getD q 0) q ?_ _ ?_ s hs
  · intro t ht
    exact innerBody_raises dets threshold bias _ _ hi hj hit t ht
  · rw [List.mem_range']
    exact ⟨q - (p + 1), by omega, by omega⟩

theorem sweep_length (dets : List Box) (areas : List ℚ) (order : List Nat)
    (threshold bias : ℚ) (ndets : Nat) :
    (sweep dets areas order threshold bias ndets).length = ndets := by
  unfold sweep
  have h := (foldl_flagsExtend _
    (fun s _i => outerBody_flagsExtend dets areas order threshold bias ndets s _i)
    (List.range ndets) (List.replicate ndets false)).1
  simpa using h

/-- Soundness of the sweep: if the box of position `p` is unsuppressed at the end,
every later position whose box overlaps it by the threshold or more is suppressed. -/
theorem sweep_raises (dets : List Box) (order : List Nat) (threshold bias : ℚ)
    (p q : Nat) (hpq : p < q) (hq : q < dets.length)
    (hi : order.getD p 0 < dets.length) (hj : order.getD q 0 < dets.length)
    (hit : hits dets threshold bias (order.getD p 0) (order.getD q 0) = true)
    (hkept : (sweep dets (dets.map (area bias)) order threshold bias dets.length).getD
      (order.getD p 0) false = false) :
    (sweep dets (dets.map (area bias)) order threshold bias dets.length).getD
      (order.getD q 0) false = true := by
  have hp : p ∈ List.range dets.length := List.mem_range.mpr (by omega)
  obtain ⟨l₁, l₂, hsplit⟩ := List.append_of_mem hp
  have hstep := fun s _i =>
    outerBody_flagsExtend dets (dets.map (area bias)) order threshold bias dets.length s _i
  unfold sweep at hkept ⊢
  rw [hsplit, List.foldl_append, List.foldl_cons] at hkept ⊢
  generalize hs₁ : l₁.foldl (outerBody dets (dets.map (area bias)) order threshold bias
    dets.length) (List.replicate dets.length false) = s₁ at hkept ⊢
  have hlen : s₁.length = dets.length := by
    have h := (foldl_flagsExtend _ hstep l₁ (List.replicate dets.length false)).1
    rw [hs₁] at h
    simpa using h
  have hrest := foldl_flagsExtend _ hstep l₂
    (outerBody dets (dets.map (area bias)) order threshold bias dets.length s₁ p)
  have hfst := hstep s₁ p
  have hs₁p : s₁.getD (order.getD p 0) false = false := by
    cases h : s₁.getD (order.getD p 0) false with
    | false => rfl
    | true => rw [hrest.2 _ (hfst.2 _ h)] at hkept; cases hkept
  apply hrest.2
  unfold outerBody
  rw [if_neg (by rw [hs₁p]; exact Bool.false_ne_true)]
  exact innerLoop_raises dets order threshold bias p q hpq hq hi hj hit s₁ hlen

theorem inter_comm (bias : ℚ) (a b : Box) : inter bias a b = inter bias b a := by
  simp only [inter, max_comm a.x1, max_comm a.y1, min_comm a.x2, min_comm a.y2]

theorem divisor_comm (bias : ℚ) (a b : Box) : divisor bias a b = divisor bias b a := by
  simp only [divisor, inter_comm bias a b, add_comm (area bias a)]

theorem overlap_comm (bias : ℚ) (a b : Box) : overlap bias a b = overlap bias b a := by
  simp only [overlap, inter_comm bias a b, divisor_comm bias a b]

theorem hits_comm (dets : List Box) (threshold bias : ℚ) (i j : Nat) :
    hits dets threshold bias i j = hits dets threshold bias j i := by
  simp only [hits, overlap_comm bias (dets.getD i default)]

theorem mem_nms_cpu_kernel (argsort : Bool → List ℚ → List Nat) (dets : List Box)
    (scores : List ℚ) (threshold bias : ℚ) (i : Nat) :
    i ∈ nms_cpu_kernel argsort dets scores threshold bias ↔
      i < dets.length ∧
      (sweep dets (dets.map (area bias)) (argsort true scores) threshold bias
        dets.length).getD i false = false := by
  unfold nms_cpu_kernel
  by_cases h : dets.length = 0
  · simp [h]
  · simp [h, List.mem_filter]

theorem perm_range_position (order : List Nat) (n : Nat)
    (hperm : order.Perm (List.range n)) (i : Nat) (hi : i < n) :
    ∃ p, p < n ∧ order.getD p 0 = i := by
  have hmem : i ∈ order := hperm.mem_iff.mpr (List.mem_range.mpr hi)
  obtain ⟨p, hp, hpi⟩ := List.mem_iff_getElem.mp hmem
  refine ⟨p, ?_, ?_⟩
  · simpa [hperm.length_eq] using hp
  · simp [List.getD_eq_getElem?_getD, List.getElem?_eq_getElem hp, hpi]

theorem perm_range_getD_lt (order : List Nat) (n : Nat)
    (hperm : order.Perm (List.range n)) (p : Nat) (hp : p < n) : order.getD p 0 < n := by
  have hp' : p < order.length := by simpa [hperm.length_eq] using hp
  have hmem : order.getD p 0 ∈ order := by
    simp [List.getD_eq_getElem?_getD, List.getElem?_eq_getElem hp']
  exact List.mem_range.mp (hperm.mem_iff.mp hmem)

theorem perm_range_getD_ne (order : List Nat) (n : Nat)
    (hperm : order.Perm (List.range n)) (p q : Nat) (hp : p < n) (hq : q < n) (hpq : p ≠ q) :
    order.getD p 0 ≠ order.getD q 0 := by
  have hp' : p < order.length := by simpa [hperm.length_eq] using hp
  have hq' : q < order.length := by simpa [hperm.length_eq] using hq
  have hnd : order.Nodup := hperm.nodup_iff.mpr (List.nodup_range n)
  intro h
  simp only [List.getD_eq_getElem?_getD, List.getElem?_eq_getElem hp',
    List.getElem?_eq_getElem hq', Option.getD_some] at h
  exact hpq ((List.Nodup.getElem_inj_iff hnd).mp h)

/-- Soundness of the kernel for one ordered pair of kept indices. -/
theorem nms_kept_pair (argsort : Bool → List ℚ → List Nat) (dets : List Box)
    (scores : List ℚ) (threshold bias : ℚ)
    (hperm : (argsort true scores).Perm (List.range dets.length)) (i j : Nat)
    (hi : i ∈ nms_cpu_kernel argsort dets scores threshold bias)
    (hj : j ∈ nms_cpu_kernel argsort dets scores threshold bias) (hij : i ≠ j) :
    hits dets threshold bias i j = false := by
  rw [mem_nms_cpu_kernel] at hi hj
  obtain ⟨p, hp, hpi⟩ := perm_range_position _ _ hperm i hi.1
  obtain ⟨q, hq, hqj⟩ := perm_range_position _ _ hperm j hj.1
  have hpq : p ≠ q := by
    intro h
    rw [h, hqj] at hpi
    exact hij hpi.symm
  cases hhit : hits dets threshold bias i j with
  | false => rfl
  | true =>
    rcases Nat.lt_or_gt_of_ne hpq with h | h
    · have := sweep_raises dets (argsort true scores) threshold bias p q h hq
        (by rw [hpi]; exact hi.1) (by rw [hqj]; exact hj.1) (by rw [hpi, hqj]; exact hhit)
        (by rw [hpi]; exact hi.2)
      rw [hqj, hj.2] at this
      cases this
    · have := sweep_raises dets (argsort true scores) threshold bias q p h hp
        (by rw [hqj]; exact hj.1) (by rw [hpi]; exact hi.1)
        (by rw [hpi, hqj, hits_comm]; exact hhit) (by rw [hqj]; exact hj.2)
      rw [hpi, hi.2] at this
      cases this

theorem nms_cpu_kernel_sorted (argsort : Bool → List ℚ → List Nat) (dets : List Box)
    (scores : List ℚ) (threshold bias : ℚ) :
    (nms_cpu_kernel argsort dets scores threshold bias).Pairwise (fun i j => i < j) := by
  unfold nms_cpu_kernel
  split
  · exact List.Pairwise.nil
  · exact (List.pairwise_lt_range dets.length).sublist (List.filter_sublist _)

theorem insertPos_perm (le : Nat → Nat → Bool) (i : Nat) (l : List Nat) :
    (insertPos le i l).Perm (i :: l) := by
  induction l with
  | nil => exact List.Perm.refl _
  | cons j js ih =>
    unfold insertPos
    split
    · exact List.Perm.refl _
    · exact ((List.Perm.cons j ih).trans (List.Perm.swap i j js))

theorem foldr_insertPos_perm (le : Nat → Nat → Bool) (l : List Nat) :
    (l.foldr (insertPos le) []).Perm l := by
  induction l with
  | nil => exact List.Perm.refl _
  | cons j js ih =>
    rw [List.foldr_cons]
    exact (insertPos_perm le j _).trans (List.Perm.cons j ih)

theorem insertPos_pairwise (le : Nat → Nat → Bool)
    (htotal : ∀ i j, le i j = true ∨ le j i = true)
    (htrans : ∀ i j k, le i j = true → le j k = true → le i k = true)
    (i : Nat) (l : List Nat) (hl : l.Pairwise (fun a b => le a b = true)) :
    (insertPos le i l).Pairwise (fun a b => le a b = true) := by
  induction l with
  | nil => exact List.pairwise_singleton _ i
  | cons j js ih =>
    have hjs := List.pairwise_cons.mp hl
    unfold insertPos
    split
    · rename_i hij
      refine List.pairwise_cons.mpr ⟨?_, hl⟩
      intro x hx
      rcases List.mem_cons.mp hx with h | h
      · rw [h]; exact hij
      · exact htrans i j x hij (hjs.1 x h)
    · rename_i hij
      refine List.pairwise_cons.mpr ⟨?_, ih hjs.2⟩
      intro x hx
      rcases List.mem_cons.mp ((insertPos_perm le i js).mem_iff.mp hx) with h | h
      · rw [h]
        rcases htotal i j with h' | h'
        · exact absurd h' hij
        · exact h'
      · exact hjs.1 x h

theorem foldr_insertPos_pairwise (le : Nat → Nat → Bool)
    (htotal : ∀ i j, le i j = true ∨ le j i = true)
    (htrans : ∀ i j k, le i j = true → le j k = true → le i k = true) (l : List Nat) :
    (l.foldr (insertPos le) []).Pairwise (fun a b => le a b = true) := by
  induction l with
  | nil => exact List.Pairwise.nil
  | cons j js ih =>
    rw [List.foldr_cons]
    exact insertPos_pairwise le htotal htrans j _ ih

/-- The stable argsort meets the requirements on `sort`. -/
theorem argsortStable_spec : SortSpec argsortStable := by
  intro descending xs
  refine ⟨foldr_insertPos_perm _ _, ?_⟩
  unfold argsortStable
  cases descending with
  | true =>
    have h := foldr_insertPos_pairwise
      (fun i j => if true = true then decide (xs.getD j 0 ≤ xs.getD i 0)
        else decide (xs.getD i 0 ≤ xs.getD j 0))
      (by intro i j; simpa using le_total (xs.getD j 0) (xs.getD i 0))
      (by intro i j k h₁ h₂; simp at h₁ h₂ ⊢; exact le_trans h₂ h₁)
      (List.range xs.length)
    exact h.imp (by intro a b hab; simpa using hab)
  | false =>
    have h := foldr_insertPos_pairwise
      (fun i j => if false = true then decide (xs.getD j 0 ≤ xs.getD i 0)
        else decide (xs.getD i 0 ≤ xs.getD j 0))
      (by intro i j; simpa using le_total (xs.getD i 0) (xs.getD j 0))
      (by intro i j k h₁ h₂; simp at h₁ h₂ ⊢; exact le_trans h₁ h₂)
      (List.range xs.length)
    exact h.imp (by intro a b hab; simpa using hab)

theorem getD_index_select {α : Type} [Inhabited α] (t : List α) (index : List Nat) (k : Nat)
    (hk : k < index.length) :
    (index_select t index).getD k default = t.getD (index.getD k 0) default := by
  simp [index_select, List.getD_eq_getElem?_getD, List.getElem?_eq_getElem hk]

theorem length_index_select {α : Type} [Inhabited α] (t : List α) (index : List Nat) :
    (index_select t index).length = index.length := by
  simp [index_select]

/-- A sweep in which no compared pair reaches the threshold suppresses nothing. -/
theorem sweep_fixed (dets : List Box) (order : List Nat) (threshold bias : ℚ)
    (hlt : ∀ p, p < dets.length → order.getD p 0 < dets.length)
    (hno : ∀ p q, p < q → q < dets.length →
      hits dets threshold bias (order.getD p 0) (order.getD q 0) = false) :
    sweep dets (dets.map (area bias)) order threshold bias dets.length =
      List.replicate dets.length false := by
  unfold sweep
  apply foldl_fixed
  intro p hp
  have hp' : p < dets.length := List.mem_range.mp hp
  unfold outerBody
  split
  · rfl
  · unfold innerLoop
    apply foldl_fixed
    intro q hq
    obtain ⟨k, hk, rfl⟩ := List.mem_range'.mp hq
    have hq' : p + 1 + 1 * k < dets.length := by omega
    rw [innerBody_eq dets threshold bias _ _ (hlt p hp') (hlt _ hq'),
      hno p _ (by omega) hq']
    simp

theorem getD_mem_of_lt (l : List Nat) (k : Nat) (hk : k < l.length) : l.getD k 0 ∈ l := by
  simp [List.getD_eq_getElem?_getD, List.getElem?_eq_getElem hk]

theorem getD_ne_of_nodup (l : List Nat) (hl : l.Nodup) (p q : Nat) (hp : p < l.length)
    (hq : q < l.length) (hpq : p ≠ q) : l.getD p 0 ≠ l.getD q 0 := by
  intro h
  simp only [List.getD_eq_getElem?_getD, List.getElem?_eq_getElem hp,
    List.getElem?_eq_getElem hq, Option.getD_some] at h
  exact hpq ((List.Nodup.getElem_inj_iff hl).mp h)

/-- A kernel run on boxes of which no two reach the threshold keeps every index. -/
theorem nms_cpu_kernel_keeps_all (argsort : Bool → List ℚ → List Nat) (dets : List Box)
    (scores : List ℚ) (threshold bias : ℚ)
    (hperm : (argsort true scores).Perm (List.range dets.length))
    (hno : ∀ i j, i < dets.length → j < dets.length → i ≠ j →
      hits dets threshold bias i j = false) :
    nms_cpu_kernel argsort dets scores threshold bias = List.range dets.length := by
  unfold nms_cpu_kernel
  by_cases h0 : dets.length = 0
  · simp [h0]
  · rw [if_neg h0]
    dsimp only
    rw [sweep_fixed dets (argsort true scores) threshold bias
      (fun p hp => perm_range_getD_lt _ _ hperm p hp)
      (fun p q hpq hq => hno _ _ (perm_range_getD_lt _ _ hperm p (by omega))
        (perm_range_getD_lt _ _ hperm q hq)
        (perm_range_getD_ne _ _ hperm p q (by omega) hq (by omega)))]
    apply List.filter_eq_self.mpr
    intro i hi
    have hi' : i < dets.length := List.mem_range.mp hi
    simp [List.getD_eq_getElem?_getD, hi']

theorem nms_rerun (argsort : Bool → List ℚ → List Nat) (hsort : SortSpec argsort)
    (dets : List Box) (scores : List ℚ) (hlen : scores.length = dets.length)
    (threshold bias : ℚ) :
    nms_cpu_kernel argsort
        (index_select dets (nms_cpu_kernel argsort dets scores threshold bias))
        (index_select scores (nms_cpu_kernel argsort dets scores threshold bias))
        threshold bias =
      List.range (nms_cpu_kernel argsort dets scores threshold bias).length := by
  have hperm : (argsort true scores).Perm (List.range dets.length) := by
    rw [← hlen]; exact (hsort true scores).1
  have hpair := nms_kept_pair argsort dets scores threshold bias hperm
  have hnd : (nms_cpu_kernel argsort dets scores threshold bias).Nodup :=
    (nms_cpu_kernel_sorted argsort dets scores threshold bias).imp (fun h => Nat.ne_of_lt h)
  generalize nms_cpu_kernel argsort dets scores threshold bias = keep at hpair hnd ⊢
  have hperm' : (argsort true (index_select scores keep)).Perm
      (List.range (index_select dets keep).length) := by
    have h := (hsort true (index_select scores keep)).1
    rwa [length_index_select, ← length_index_select dets keep] at h
  rw [nms_cpu_kernel_keeps_all argsort _ _ threshold bias hperm', length_index_select]
  intro i j hi hj hij
  rw [length_index_select] at hi hj
  unfold hits
  rw [getD_index_select dets keep i hi, getD_index_select dets keep j hj]
  exact hpair _ _ (getD_mem_of_lt keep i hi) (getD_mem_of_lt keep j hj)
    (getD_ne_of_nodup keep hnd i j hi hj hij)

/-! ## Geometry of the overlap -/

theorem area_nonneg (bias : ℚ) (hbias : 0 ≤ bias) (a : Box) (ha : a.WellFormed) :
    0 ≤ area bias a := by
  unfold area
  exact mul_nonneg (by linarith [ha.1]) (by linarith [ha.2])

theorem inter_nonneg (bias : ℚ) (a b : Box) : 0 ≤ inter bias a b := by
  unfold inter
  exact mul_nonneg (le_max_left _ _) (le_max_left _ _)

theorem inter_le_area_left (bias : ℚ) (hbias : 0 ≤ bias) (a b : Box) (ha : a.WellFormed) :
    inter bias a b ≤ area bias a := by
  unfold inter area
  apply mul_le_mul
  · apply max_le
    · linarith [ha.1]
    · linarith [min_le_left a.x2 b.x2, le_max_left a.x1 b.x1]
  · apply max_le
    · linarith [ha.2]
    · linarith [min_le_left a.y2 b.y2, le_max_left a.y1 b.y1]
  · exact le_max_left _ _
  · linarith [ha.1]

theorem inter_le_area_right (bias : ℚ) (hbias : 0 ≤ bias) (a b : Box) (hb : b.WellFormed) :
    inter bias a b ≤ area bias b := by
  rw [inter_comm]
  exact inter_le_area_left bias hbias b a hb

theorem divisor_eq_zero_iff (bias : ℚ) (hbias : 0 ≤ bias) (a b : Box) (ha : a.WellFormed)
    (hb : b.WellFormed) :
    divisor bias a b = 0 ↔ area bias a = 0 ∧ area bias b = 0 := by
  have h₁ := inter_le_area_left bias hbias a b ha
  have h₂ := inter_le_area_right bias hbias a b hb
  have h₃ := inter_nonneg bias a b
  have h₄ := area_nonneg bias hbias a ha
  have h₅ := area_nonneg bias hbias b hb
  unfold divisor
  constructor
  · intro h
    constructor <;> linarith
  · rintro ⟨h, h'⟩
    linarith

theorem area_pos_of_bias_one (a : Box) (ha : a.WellFormed) : 0 < area 1 a := by
  unfold area
  exact mul_pos (by linarith [ha.1]) (by linarith [ha.2])

theorem argsort_two_desc (argsort : Bool → List ℚ → List Nat) (hsort : SortSpec argsort)
    (x y : ℚ) (hxy : y < x) : argsort true [x, y] = [0, 1] := by
  have hp := (hsort true [x, y]).1
  have hs := (hsort true [x, y]).2
  generalize argsort true [x, y] = l at hp hs
  obtain ⟨a, b, rfl⟩ := List.length_eq_two.mp hp.length_eq
  have ha : a ∈ List.range 2 := hp.mem_iff.mp (by simp)
  have hb : b ∈ List.range 2 := hp.mem_iff.mp (by simp)
  have hnd : [a, b].Nodup := hp.nodup_iff.mpr (List.nodup_range 2)
  have hab : a ≠ b := by simpa using hnd
  have hs' : [x, y].getD b 0 ≤ [x, y].getD a 0 := by simpa using hs
  rw [List.mem_range] at ha hb
  interval_cases a <;> interval_cases b
  · exact absurd rfl hab
  · rfl
  · simp at hs'
    exact absurd hs' (not_le.mpr hxy)
  · exact absurd rfl hab

theorem nms_cpu_kernel_congr (argsort argsort' : Bool → List ℚ → List Nat) (dets : List Box)
    (scores : List ℚ) (threshold bias : ℚ) (h : argsort true scores = argsort' true scores) :
    nms_cpu_kernel argsort dets scores threshold bias =
      nms_cpu_kernel argsort' dets scores threshold bias := by
  unfold nms_cpu_kernel
  rw [h]

/-! ## Lemmas on the batched kernel -/

theorem stage2_eq_some (argsort : Bool → List ℚ → List Nat) (nscore : Nat) (max_output : Int)
    (bboxes_out : List (Option (List Box))) (scores_out : List (Option (List ℚ)))
    (labels_out : List (Option (List Nat))) (bs : Nat) (t : List Box × List Nat × List ℚ)
    (h : stage2 argsort nscore max_output bboxes_out scores_out labels_out bs = some t) :
    ∃ b l s,
      cat (remove_empty bboxes_out (bs * nscore) ((bs + 1) * nscore)) = some b ∧
      cat (remove_empty labels_out (bs * nscore) ((bs + 1) * nscore)) = some l ∧
      cat (remove_empty scores_out (bs * nscore) ((bs + 1) * nscore)) = some s ∧
      t = (index_select b (topIds argsort max_output s),
        index_select l (topIds argsort max_output s),
        index_select s (topIds argsort max_output s)) := by
  unfold stage2 at h
  dsimp only at h
  split at h
  · rename_i b l s hb hl hs
    exact ⟨b, l, s, hb, hl, hs, (Option.some.inj h).symm⟩
  · cases h

theorem forIndices_eq_some {α : Type} (f : Nat → Option α) (l : List Nat) (out : List α)
    (h : forIndices f l = some out) :
    out.length = l.length ∧ ∀ t ∈ out, ∃ bs ∈ l, f bs = some t := by
  induction l generalizing out with
  | nil =>
    simp only [forIndices, Option.some.injEq] at h
    subst h
    simp
  | cons b bs ih =>
    unfold forIndices at h
    split at h
    · cases h
    · rename_i r hr
      split at h
      · cases h
      · rename_i rs hrs
        have := Option.some.inj h
        subst this
        obtain ⟨hlen, hmem⟩ := ih rs hrs
        refine ⟨by simp [hlen], ?_⟩
        intro t ht
        rcases List.mem_cons.mp ht with h' | h'
        · exact ⟨b, List.mem_cons_self _ _, h' ▸ hr⟩
        · obtain ⟨x, hx, hfx⟩ := hmem t h'
          exact ⟨x, List.mem_cons_of_mem _ hx, hfx⟩

theorem forIndices_eq_none {α : Type} (f : Nat → Option α) (l : List Nat) (bs : Nat)
    (hmem : bs ∈ l) (h : f bs = none) : forIndices f l = none := by
  induction l with
  | nil => cases hmem
  | cons b rest ih =>
    unfold forIndices
    rcases List.mem_cons.mp hmem with h' | h'
    · subst h'
      rw [h]
    · split
      · rfl
      · rw [ih h']

theorem length_slice_le (l : List Nat) (max_output : Int) (hK : 0 ≤ max_output) :
    ((slice l (max ((l.length : Int) - max_output) 0) l.length).length : Int) ≤ max_output := by
  unfold slice
  simp only [List.length_drop, List.length_take, Int.toNat_ofNat, min_self]
  omega

theorem slice_sublist {α : Type} (l : List α) (start stop : Int) :
    (slice l start stop).Sublist l :=
  (List.drop_sublist _ _).trans (List.take_sublist _ _)

theorem topIds_length_le (argsort : Bool → List ℚ → List Nat) (max_output : Int)
    (hK : 0 ≤ max_output) (scores : List ℚ) :
    ((topIds argsort max_output scores).length : Int) ≤ max_output :=
  length_slice_le _ max_output hK

theorem topIds_lt (argsort : Bool → List ℚ → List Nat) (hsort : SortSpec argsort)
    (max_output : Int) (scores : List ℚ) (i : Nat) (hi : i ∈ topIds argsort max_output scores) :
    i < scores.length :=
  List.mem_range.mp ((hsort false scores).1.mem_iff.mp ((slice_sublist _ _ _).subset hi))

theorem topIds_ascending (argsort : Bool → List ℚ → List Nat) (hsort : SortSpec argsort)
    (max_output : Int) (scores : List ℚ) :
    (index_select scores (topIds argsort max_output scores)).Pairwise (fun x y => x ≤ y) := by
  unfold index_select
  rw [List.pairwise_map]
  have h := ((hsort false scores).2).sublist (slice_sublist (argsort false scores)
    (max (((argsort false scores).length : Int) - max_output) 0) (argsort false scores).length)
  exact h.imp (by intro a b hab; simpa using hab)

theorem forIndices_map {α : Type} (f : Nat → Option α) (l : List Nat) (out : List α)
    (h : forIndices f l = some out) : l.map f = out.map some := by
  induction l generalizing out with
  | nil =>
    simp only [forIndices, Option.some.injEq] at h
    subst h
    rfl
  | cons b bs ih =>
    unfold forIndices at h
    split at h
    · cases h
    · rename_i r hr
      split at h
      · cases h
      · rename_i rs hrs
        have := Option.some.inj h
        subst this
        simp only [List.map_cons, hr, ih rs hrs]

/-- A defined slot, after a first loop that did not throw, holds what its iteration
stored. -/
theorem forIndices_range_getD {α : Type} (f : Nat → Option (Option α)) (n : Nat)
    (slots : List (Option α)) (h : forIndices f (List.range n) = some slots) (index : Nat)
    (x : α) (hget : slots.getD index none = some x) : index < n ∧ f index = some (some x) := by
  have hmap := forIndices_map f _ slots h
  have hlen : slots.length = n := by
    have := congrArg List.length hmap
    simpa using this.symm
  have hlt : index < slots.length := by
    by_contra hlt
    rw [List.getD_eq_getElem?_getD, List.getElem?_eq_none (not_lt.mp hlt)] at hget
    cases hget
  have hidx : index < n := hlen ▸ hlt
  refine ⟨hidx, ?_⟩
  have h₁ := congrArg (fun l => l[index]?) hmap
  simp only [List.getElem?_map, List.getElem?_range hidx, List.getElem?_eq_getElem hlt,
    Option.map_some'] at h₁
  rw [List.getD_eq_getElem?_getD, List.getElem?_eq_getElem hlt, Option.getD_some] at hget
  rw [Option.some.inj h₁, hget]

/-- A successful call: the first loop filled the slots without throwing, and the
second loop produced the triples from them. -/
theorem batch_score_nms_kernel_eq_some (argsort : Bool → List ℚ → List Nat)
    (batch_dets : List (List Box)) (batch_scores : List (List (List ℚ))) (nscore : Nat)
    (threshold : ℚ) (max_output : Int) (out : List (List Box × List Nat × List ℚ))
    (h : batch_score_nms_kernel argsort batch_dets batch_scores nscore threshold max_output =
      some out) :
    ∃ slots,
      forIndices (stage1 argsort batch_dets batch_scores nscore threshold max_output)
        (List.range (batch_scores.length * nscore)) = some slots ∧
      forIndices (stage2 argsort nscore max_output (slots.map (Option.map (fun s => s.1)))
        (slots.map (Option.map (fun s => s.2.1))) (slots.map (Option.map (fun s => s.2.2))))
        (List.range batch_scores.length) = some out := by
  unfold batch_score_nms_kernel at h
  dsimp only at h
  split at h
  · cases h
  · rename_i slots hslots
    exact ⟨slots, hslots, h⟩

/-- Shape of a successful call: one triple per image, and in each triple the boxes,
labels and scores have one common length, at most `max_output`. -/
theorem batch_score_nms_kernel_shape (argsort : Bool → List ℚ → List Nat)
    (batch_dets : List (List Box)) (batch_scores : List (List (List ℚ))) (nscore : Nat)
    (threshold : ℚ) (max_output : Int) (hK : 0 < max_output)
    (out : List (List Box × List Nat × List ℚ))
    (h : batch_score_nms_kernel argsort batch_dets batch_scores nscore threshold max_output =
      some out) :
    out.length = batch_scores.length ∧
    ∀ t ∈ out, t.1.length = t.2.1.length ∧ t.2.1.length = t.2.2.length ∧
      (t.1.length : Int) ≤ max_output := by
  obtain ⟨slots, _, h₂⟩ := batch_score_nms_kernel_eq_some _ _ _ _ _ _ _ h
  obtain ⟨hlen, hmem⟩ := forIndices_eq_some _ _ _ h₂
  refine ⟨by simpa using hlen, ?_⟩
  intro t ht
  obtain ⟨bs, _, hbs⟩ := hmem t ht
  obtain ⟨b, l, s, _, _, _, rfl⟩ := stage2_eq_some _ _ _ _ _ _ _ _ hbs
  simp only [length_index_select, true_and]
  exact topIds_length_le argsort max_output (le_of_lt hK) s

theorem remove_empty_map {α β : Type} (f : α → β) (slots : List (Option α)) (start stop : Nat) :
    remove_empty (slots.map (Option.map f)) start stop =
      (remove_empty slots start stop).map f := by
  unfold remove_empty
  rw [List.map_filterMap]
  congr 1
  funext i
  simp only [List.getD_eq_getElem?_getD, List.getElem?_map]
  cases slots[i]? <;> rfl

theorem mem_remove_empty {α : Type} (slots : List (Option α)) (start stop : Nat) (x : α)
    (hx : x ∈ remove_empty slots start stop) :
    ∃ index, index < slots.length ∧ slots.getD index none = some x := by
  unfold remove_empty at hx
  obtain ⟨index, _, hget⟩ := List.mem_filterMap.mp hx
  refine ⟨index, ?_, hget⟩
  by_contra hlt
  rw [List.getD_eq_getElem?_getD, List.getElem?_eq_none (not_lt.mp hlt)] at hget
  cases hget

theorem cat_eq_some {α : Type} (tensors : List (List α)) (t : List α)
    (h : cat tensors = some t) : t = tensors.flatten := by
  unfold cat at h
  split at h
  · cases h
  · exact (Option.some.inj h).symm

theorem length_flatten_map_eq {α β γ : Type} (f : α → List β) (g : α → List γ) (l : List α)
    (h : ∀ x ∈ l, (f x).length = (g x).length) :
    (l.map f).flatten.length = (l.map g).flatten.length := by
  induction l with
  | nil => rfl
  | cons x xs ih =>
    simp only [List.map_cons, List.flatten_cons, List.length_append]
    rw [h x (List.mem_cons_self _ _), ih (fun y hy => h y (List.mem_cons_of_mem _ hy))]

/-- What the first loop stores in a slot: as many scores as labels, and every label
is the class `index % nscore` of the slot, which is not the background class. -/
theorem stage1_eq_some (argsort : Bool → List ℚ → List Nat) (batch_dets : List (List Box))
    (batch_scores : List (List (List ℚ))) (nscore : Nat) (threshold : ℚ) (max_output : Int)
    (index : Nat) (x : List Box × List ℚ × List Nat)
    (h : stage1 argsort batch_dets batch_scores nscore threshold max_output index =
      some (some x)) :
    index % nscore ≠ 0 ∧ x.2.1.length = x.2.2.length ∧ x.1.length = x.2.1.length ∧
      ∀ l ∈ x.2.2, l = index % nscore := by
  unfold stage1 at h
  dsimp only at h
  split at h
  · cases h
  · rename_i hi
    split at h
    · cases h
    · split at h
      · cases h
      · have := Option.some.inj (Option.some.inj h)
        subst this
        refine ⟨hi, by simp [length_index_select], by simp [length_index_select], ?_⟩
        intro l hl
        exact (List.mem_replicate.mp hl).2

/-- The mask `score > 0.05` selects nothing when every score is at or below the
cutoff. -/
theorem mask_index_eq_nil (batch_scores : List (List (List ℚ))) (bs i : Nat)
    (hlow : ∀ img ∈ batch_scores, ∀ row ∈ img, ∀ x ∈ row, x ≤ (1 : ℚ) / 20) :
    (List.range ((batch_scores.getD bs []).map (fun row => row.getD i (0 : ℚ))).length).filter
      (fun n => decide ((1 : ℚ) / 20 <
        ((batch_scores.getD bs []).map (fun row => row.getD i (0 : ℚ))).getD n 0)) = [] := by
  rw [List.filter_eq_nil_iff]
  intro n _
  simp only [decide_eq_true_eq, not_lt]
  rw [List.getD_eq_getElem?_getD]
  cases hn : ((batch_scores.getD bs []).map (fun row => row.getD i (0 : ℚ)))[n]? with
  | none => simp
  | some v =>
    simp only [Option.getD_some]
    have hv := List.getElem?_mem hn
    obtain ⟨row, hrow, rfl⟩ := List.mem_map.mp hv
    have himg : batch_scores.getD bs [] ∈ batch_scores := by
      rw [List.getD_eq_getElem?_getD] at hrow ⊢
      cases hb : batch_scores[bs]? with
      | none => rw [hb] at hrow; simp at hrow
      | some img => simpa using List.getElem?_mem hb
    rw [List.getD_eq_getElem?_getD]
    cases hr : row[i]? with
    | none => simp
    | some w =>
      simp only [Option.getD_some]
      exact hlow _ himg row hrow w (List.getElem?_mem hr)

/-- A slot whose class scores are all at or below the cutoff is never filled. -/
theorem stage1_ne_some (argsort : Bool → List ℚ → List Nat) (batch_dets : List (List Box))
    (batch_scores : List (List (List ℚ))) (nscore : Nat) (threshold : ℚ) (max_output : Int)
    (index : Nat)
    (hlow : ∀ img ∈ batch_scores, ∀ row ∈ img, ∀ x ∈ row, x ≤ (1 : ℚ) / 20)
    (x : List Box × List ℚ × List Nat) :
    stage1 argsort batch_dets batch_scores nscore threshold max_output index ≠
      some (some x) := by
  have hmask := mask_index_eq_nil batch_scores (index / nscore) (index % nscore) hlow
  intro h
  unfold stage1 at h
  dsimp only at h
  rw [hmask] at h
  split at h
  · cases h
  · split at h
    · cases h
    · simp [index_select] at h

theorem remove_empty_eq_nil {α : Type} (slots : List (Option α)) (start stop : Nat)
    (h : ∀ index, slots.getD index none = none) : remove_empty slots start stop = [] := by
  unfold remove_empty
  rw [List.filterMap_eq_nil_iff]
  intro index _
  exact h index

/-- Every triple of a successful call is the result of the second loop body for
one image, run on the slots filled by the first loop. -/
theorem batch_score_nms_kernel_mem (argsort : Bool → List ℚ → List Nat)
    (batch_dets : List (List Box)) (batch_scores : List (List (List ℚ))) (nscore : Nat)
    (threshold : ℚ) (max_output : Int) (out : List (List Box × List Nat × List ℚ))
    (h : batch_score_nms_kernel argsort batch_dets batch_scores nscore threshold max_output =
      some out) (t : List Box × List Nat × List ℚ) (ht : t ∈ out) :
    ∃ slots bs,
      forIndices (stage1 argsort batch_dets batch_scores nscore threshold max_output)
        (List.range (batch_scores.length * nscore)) = some slots ∧
      bs < batch_scores.length ∧
      stage2 argsort nscore max_output (slots.map (Option.map (fun s => s.1)))
        (slots.map (Option.map (fun s => s.2.1))) (slots.map (Option.map (fun s => s.2.2)))
        bs = some t := by
  obtain ⟨slots, h₁, h₂⟩ := batch_score_nms_kernel_eq_some _ _ _ _ _ _ _ h
  obtain ⟨_, hmem⟩ := forIndices_eq_some _ _ _ h₂
  obtain ⟨bs, hbs, hst⟩ := hmem t ht
  exact ⟨slots, bs, h₁, List.mem_range.mp hbs, hst⟩

theorem batch_labels_mem (argsort : Bool → List ℚ → List Nat) (hsort : SortSpec argsort)
    (batch_dets : List (List Box)) (batch_scores : List (List (List ℚ))) (nscore : Nat)
    (threshold : ℚ) (max_output : Int) (out : List (List Box × List Nat × List ℚ))
    (h : batch_score_nms_kernel argsort batch_dets batch_scores nscore threshold max_output =
      some out) (t : List Box × List Nat × List ℚ) (ht : t ∈ out) (lab : Nat)
    (hlab : lab ∈ t.2.1) : 1 ≤ lab ∧ lab < nscore := by
  obtain ⟨slots, bs, hslots, _, hst⟩ := batch_score_nms_kernel_mem _ _ _ _ _ _ _ h t ht
  obtain ⟨b, l, s, _, hl, hs, rfl⟩ := stage2_eq_some _ _ _ _ _ _ _ _ hst
  rw [remove_empty_map] at hl hs
  have hl' := cat_eq_some _ _ hl
  have hs' := cat_eq_some _ _ hs
  have hslot : ∀ x ∈ remove_empty slots (bs * nscore) ((bs + 1) * nscore),
      x.2.1.length = x.2.2.length ∧ ∀ c ∈ x.2.2, 1 ≤ c ∧ c < nscore := by
    intro x hx
    obtain ⟨index, _, hget⟩ := mem_remove_empty _ _ _ x hx
    obtain ⟨hlt, hst1⟩ := forIndices_range_getD _ _ _ hslots index x hget
    obtain ⟨hne, hlen, _, hall⟩ := stage1_eq_some _ _ _ _ _ _ _ _ hst1
    refine ⟨hlen, ?_⟩
    intro c hc
    rw [hall c hc]
    have hpos : 0 < nscore := by
      rcases Nat.eq_zero_or_pos nscore with h0 | h0
      · rw [h0] at hlt; simp at hlt
      · exact h0
    exact ⟨Nat.one_le_iff_ne_zero.mpr hne, Nat.mod_lt _ hpos⟩
  have hlen : l.length = s.length := by
    rw [hl', hs']
    exact (length_flatten_map_eq _ _ _ (fun x hx => (hslot x hx).1)).symm
  simp only [index_select, List.mem_map] at hlab
  obtain ⟨i, hi, rfl⟩ := hlab
  have hilt : i < l.length := by rw [hlen]; exact topIds_lt argsort hsort max_output s i hi
  have hmem : l.getD i default ∈ l := by
    simp [List.getD_eq_getElem?_getD, List.getElem?_eq_getElem hilt]
  rw [hl'] at hmem
  obtain ⟨labels, hlabels, hc⟩ := List.mem_flatten.mp hmem
  obtain ⟨x, hx, rfl⟩ := List.mem_map.mp hlabels
  rw [← hl'] at hc
  exact (hslot x hx).2 _ hc

theorem batch_scores_ascending (argsort : Bool → List ℚ → List Nat) (hsort : SortSpec argsort)
    (batch_dets : List (List Box)) (batch_scores : List (List (List ℚ))) (nscore : Nat)
    (threshold : ℚ) (max_output : Int) (out : List (List Box × List Nat × List ℚ))
    (h : batch_score_nms_kernel argsort batch_dets batch_scores nscore threshold max_output =
      some out) (t : List Box × List Nat × List ℚ) (ht : t ∈ out) :
    t.2.2.Pairwise (fun x y => x ≤ y) := by
  obtain ⟨slots, bs, _, _, hst⟩ := batch_score_nms_kernel_mem _ _ _ _ _ _ _ h t ht
  obtain ⟨b, l, s, _, _, _, rfl⟩ := stage2_eq_some _ _ _ _ _ _ _ _ hst
  exact topIds_ascending argsort hsort max_output s

theorem batch_all_low (argsort : Bool → List ℚ → List Nat)
    (batch_dets : List (List Box)) (batch_scores : List (List (List ℚ))) (nscore : Nat)
    (threshold : ℚ) (max_output : Int) (hB : batch_scores ≠ [])
    (hlow : ∀ img ∈ batch_scores, ∀ row ∈ img, ∀ x ∈ row, x ≤ (1 : ℚ) / 20) :
    batch_score_nms_kernel argsort batch_dets batch_scores nscore threshold max_output =
      none := by
  unfold batch_score_nms_kernel
  dsimp only
  split
  · rfl
  · rename_i slots hslots
    apply forIndices_eq_none _ _ 0 (List.mem_range.mpr (List.length_pos.mpr hB))
    unfold stage2
    dsimp only
    rw [remove_empty_map, remove_empty_eq_nil]
    · rfl
    · intro index
      cases hget : slots.getD index none with
      | none => rfl
      | some x =>
        exact absurd (forIndices_range_getD _ _ _ hslots index x hget).2
          (stage1_ne_some argsort batch_dets batch_scores nscore threshold max_output index
            hlow x)

/-! ## The claims on `nms_cpu_kernel` -/

/-- C1: for every input of `N` boxes and `N` scores, every threshold and every bias,
no two distinct indices returned by `nms_cpu_kernel` have an overlap (the IoU the
kernel computes) that compares `>=` to the threshold. -/
theorem nms_no_overlapping_pair (argsort : Bool → List ℚ → List Nat)
    (hsort : SortSpec argsort) (dets : List Box) (scores : List ℚ)
    (hlen : scores.length = dets.length) (threshold bias : ℚ) (i j : Nat)
    (hi : i ∈ nms_cpu_kernel argsort dets scores threshold bias)
    (hj : j ∈ nms_cpu_kernel argsort dets scores threshold bias) (hij : i ≠ j) :
    (overlap bias (dets.getD i default) (dets.getD j default)).ge threshold = false :=
  nms_kept_pair argsort dets scores threshold bias
    (by rw [← hlen]; exact (hsort true scores).1) i j hi hj hij

/-- Witness of C1: three boxes, of which the kernel keeps the first and the third. -/
theorem nms_no_overlapping_pair_witness :
    SortSpec argsortStable ∧
    nms_cpu_kernel argsortStable [⟨0, 0, 10, 10⟩, ⟨1, 1, 11, 11⟩, ⟨20, 20, 30, 30⟩]
      [9 / 10, 8 / 10, 7 / 10] (1 / 2) 0 = [0, 2] ∧
    (overlap 0
      (([⟨0, 0, 10, 10⟩, ⟨1, 1, 11, 11⟩, ⟨20, 20, 30, 30⟩] : List Box).getD 0 default)
      (([⟨0, 0, 10, 10⟩, ⟨1, 1, 11, 11⟩, ⟨20, 20, 30, 30⟩] : List Box).getD 2 default)).ge
        (1 / 2) = false :=
  ⟨argsortStable_spec, by decide!,
    nms_no_overlapping_pair argsortStable argsortStable_spec
      [⟨0, 0, 10, 10⟩, ⟨1, 1, 11, 11⟩, ⟨20, 20, 30, 30⟩] [9 / 10, 8 / 10, 7 / 10] rfl
      (1 / 2) 0 0 2 (by decide!) (by decide!) (by decide)⟩

/-- C2: the list returned by `nms_cpu_kernel` contains only original indices in
`[0, N)`, contains no index twice, and is in strictly increasing index order. -/
theorem nms_output_indices (argsort : Bool → List ℚ → List Nat) (dets : List Box)
    (scores : List ℚ) (threshold bias : ℚ) :
    (∀ i ∈ nms_cpu_kernel argsort dets scores threshold bias, i < dets.length) ∧
    (nms_cpu_kernel argsort dets scores threshold bias).Nodup ∧
    (nms_cpu_kernel argsort dets scores threshold bias).Pairwise (fun i j => i < j) :=
  ⟨fun i hi => ((mem_nms_cpu_kernel argsort dets scores threshold bias i).mp hi).1,
    (nms_cpu_kernel_sorted argsort dets scores threshold bias).imp (fun h => Nat.ne_of_lt h),
    nms_cpu_kernel_sorted argsort dets scores threshold bias⟩

/-- C3: idempotence of `nms_cpu_kernel`: running the kernel again on the boxes and
scores gathered at the returned index list, with the same threshold and bias,
returns all the indices `0, ..., |keep| - 1`. -/
theorem nms_idempotent (argsort : Bool → List ℚ → List Nat) (hsort : SortSpec argsort)
    (dets : List Box) (scores : List ℚ) (hlen : scores.length = dets.length)
    (threshold bias : ℚ) :
    nms_cpu_kernel argsort
        (index_select dets (nms_cpu_kernel argsort dets scores threshold bias))
        (index_select scores (nms_cpu_kernel argsort dets scores threshold bias))
        threshold bias =
      List.range (nms_cpu_kernel argsort dets scores threshold bias).length :=
  nms_rerun argsort hsort dets scores hlen threshold bias

/-- Witness of C3: three boxes, of which the first run keeps two. -/
theorem nms_idempotent_witness :
    SortSpec argsortStable ∧
    nms_cpu_kernel argsortStable [⟨0, 0, 10, 10⟩, ⟨1, 1, 11, 11⟩, ⟨20, 20, 30, 30⟩]
      [9 / 10, 8 / 10, 7 / 10] (1 / 2) 0 = [0, 2] ∧
    nms_cpu_kernel argsortStable
        (index_select [⟨0, 0, 10, 10⟩, ⟨1, 1, 11, 11⟩, ⟨20, 20, 30, 30⟩]
          (nms_cpu_kernel argsortStable [⟨0, 0, 10, 10⟩, ⟨1, 1, 11, 11⟩, ⟨20, 20, 30, 30⟩]
            [9 / 10, 8 / 10, 7 / 10] (1 / 2) 0))
        (index_select [9 / 10, 8 / 10, 7 / 10]
          (nms_cpu_kernel argsortStable [⟨0, 0, 10, 10⟩, ⟨1, 1, 11, 11⟩, ⟨20, 20, 30, 30⟩]
            [9 / 10, 8 / 10, 7 / 10] (1 / 2) 0))
        (1 / 2) 0 =
      List.range (nms_cpu_kernel argsortStable
        [⟨0, 0, 10, 10⟩, ⟨1, 1, 11, 11⟩, ⟨20, 20, 30, 30⟩] [9 / 10, 8 / 10, 7 / 10]
        (1 / 2) 0).length :=
  ⟨argsortStable_spec, by decide!,
    nms_idempotent argsortStable argsortStable_spec
      [⟨0, 0, 10, 10⟩, ⟨1, 1, 11, 11⟩, ⟨20, 20, 30, 30⟩] [9 / 10, 8 / 10, 7 / 10] rfl
      (1 / 2) 0⟩

/-- C4: called with zero boxes, `nms_cpu_kernel` returns the empty index list, for
every threshold and bias. -/
theorem nms_empty_input (argsort : Bool → List ℚ → List Nat) (scores : List ℚ)
    (threshold bias : ℚ) : nms_cpu_kernel argsort [] scores threshold bias = [] := by
  simp [nms_cpu_kernel]

/-- C5: for the boxes `[0,0,10,10]` and `[5,5,15,15]` with scores `[0.9, 0.8]` and
bias `0`, the computed overlap is `25/175`; with threshold `0.3` the kernel returns
`[0, 1]` and with threshold `0.1` it returns `[0]`. -/
theorem nms_two_box_scenario (argsort : Bool → List ℚ → List Nat)
    (hsort : SortSpec argsort) :
    overlap 0 ⟨0, 0, 10, 10⟩ ⟨5, 5, 15, 15⟩ = FVal.fin (25 / 175) ∧
    nms_cpu_kernel argsort [⟨0, 0, 10, 10⟩, ⟨5, 5, 15, 15⟩] [9 / 10, 8 / 10] (3 / 10) 0 =
      [0, 1] ∧
    nms_cpu_kernel argsort [⟨0, 0, 10, 10⟩, ⟨5, 5, 15, 15⟩] [9 / 10, 8 / 10] (1 / 10) 0 =
      [0] := by
  have hord : argsort true [9 / 10, 8 / 10] = argsortStable true [9 / 10, 8 / 10] := by
    rw [argsort_two_desc argsort hsort _ _ (by norm_num),
      argsort_two_desc argsortStable argsortStable_spec _ _ (by norm_num)]
  refine ⟨by decide!, ?_, ?_⟩
  · rw [nms_cpu_kernel_congr argsort argsortStable _ _ _ _ hord]
    decide!
  · rw [nms_cpu_kernel_congr argsort argsortStable _ _ _ _ hord]
    decide!

/-- Witness of C5: the scenario with the stable argsort. -/
theorem nms_two_box_scenario_witness :
    SortSpec argsortStable ∧
    nms_cpu_kernel argsortStable [⟨0, 0, 10, 10⟩, ⟨5, 5, 15, 15⟩] [9 / 10, 8 / 10]
      (1 / 10) 0 = [0] :=
  ⟨argsortStable_spec, (nms_two_box_scenario argsortStable argsortStable_spec).2.2⟩

/-! ## The claims on `batch_score_nms_kernel` -/

/-- C6, on the code: for a batch of at least one image in which every score is at
or below the `0.05` cutoff, no slot is filled, `at::cat` is called on an empty
vector, and the call fails instead of returning empty triples. -/
theorem batch_all_scores_low_fails (argsort : Bool → List ℚ → List Nat)
    (batch_dets : List (List Box)) (batch_scores : List (List (List ℚ))) (nscore : Nat)
    (threshold : ℚ) (max_output : Int) (hB : batch_scores ≠ [])
    (hlow : ∀ img ∈ batch_scores, ∀ row ∈ img, ∀ x ∈ row, x ≤ (1 : ℚ) / 20) :
    batch_score_nms_kernel argsort batch_dets batch_scores nscore threshold max_output =
      none :=
  batch_all_low argsort batch_dets batch_scores nscore threshold max_output hB hlow

/-- Witness of C6: one image, two boxes, the background class and one class, every
score at or below the cutoff. -/
theorem batch_all_scores_low_fails_witness :
    ([[[0, 1 / 100], [0, 1 / 20]]] : List (List (List ℚ))) ≠ [] ∧
    (∀ img ∈ ([[[0, 1 / 100], [0, 1 / 20]]] : List (List (List ℚ))), ∀ row ∈ img, ∀ x ∈ row,
      x ≤ (1 : ℚ) / 20) ∧
    batch_score_nms_kernel argsortStable [[⟨0, 0, 10, 10⟩, ⟨20, 20, 30, 30⟩]]
      [[[0, 1 / 100], [0, 1 / 20]]] 2 (1 / 2) 200 = none :=
  ⟨by decide, by decide!,
    batch_all_scores_low_fails argsortStable [[⟨0, 0, 10, 10⟩, ⟨20, 20, 30, 30⟩]]
      [[[0, 1 / 100], [0, 1 / 20]]] 2 (1 / 2) 200 (by decide) (by decide!)⟩

/-- C7, on the code: for a batch of two images with `max_output = 200`, of which
the second has no score above the cutoff, the call fails: it returns no triple at
all, where two are expected.  The first image alone is processed. -/
theorem batch_no_triples_example :
    batch_score_nms_kernel argsortStable [[⟨0, 0, 10, 10⟩, ⟨20, 20, 30, 30⟩]]
      [[[0, 9 / 10], [0, 8 / 10]]] 2 (1 / 2) 200 =
      some [([⟨20, 20, 30, 30⟩, ⟨0, 0, 10, 10⟩], [1, 1], [8 / 10, 9 / 10])] ∧
    batch_score_nms_kernel argsortStable
      [[⟨0, 0, 10, 10⟩, ⟨20, 20, 30, 30⟩], [⟨0, 0, 10, 10⟩, ⟨20, 20, 30, 30⟩]]
      [[[0, 9 / 10], [0, 8 / 10]], [[0, 1 / 100], [0, 1 / 50]]] 2 (1 / 2) 200 = none :=
  ⟨by decide!, by decide!⟩

/-- C8, as stated, fails: for one image with two disjoint boxes of one class, with
scores `0.9` and `0.8`, the triple lists the scores as `[0.8, 0.9]`, which is not in
descending order. -/
theorem batch_scores_not_descending :
    batch_score_nms_kernel argsortStable [[⟨0, 0, 10, 10⟩, ⟨20, 20, 30, 30⟩]]
      [[[0, 9 / 10], [0, 8 / 10]]] 2 (1 / 2) 200 =
      some [([⟨20, 20, 30, 30⟩, ⟨0, 0, 10, 10⟩], [1, 1], [8 / 10, 9 / 10])] ∧
    ¬ ([8 / 10, 9 / 10] : List ℚ).Pairwise (fun x y => x ≥ y) := by
  decide!

/-- C8, amended: within each triple returned by `batch_score_nms_kernel` the scores
are sorted in ascending order: each score is `<=` every score that follows it. -/
theorem batch_scores_sorted_ascending (argsort : Bool → List ℚ → List Nat)
    (hsort : SortSpec argsort) (batch_dets : List (List Box))
    (batch_scores : List (List (List ℚ))) (nscore : Nat) (threshold : ℚ) (max_output : Int)
    (out : List (List Box × List Nat × List ℚ))
    (h : batch_score_nms_kernel argsort batch_dets batch_scores nscore threshold max_output =
      some out) (t : List Box × List Nat × List ℚ) (ht : t ∈ out) :
    t.2.2.Pairwise (fun x y => x ≤ y) :=
  batch_scores_ascending argsort hsort batch_dets batch_scores nscore threshold max_output
    out h t ht

/-- Witness of C8, amended: one image, three boxes, two classes besides the
background, and `max_output = 3`. -/
theorem batch_scores_sorted_ascending_witness :
    SortSpec argsortStable ∧
    batch_score_nms_kernel argsortStable
      [[⟨0, 0, 10, 10⟩, ⟨5, 5, 15, 15⟩, ⟨0, 0, 10, 10⟩]]
      [[[1, 9 / 10, 1 / 2], [1, 8 / 10, 7 / 10], [1, 0, 6 / 10]]] 3 (1 / 2) 3 =
      some [([⟨5, 5, 15, 15⟩, ⟨5, 5, 15, 15⟩, ⟨0, 0, 10, 10⟩], [2, 1, 1],
        [7 / 10, 8 / 10, 9 / 10])] ∧
    ([7 / 10, 8 / 10, 9 / 10] : List ℚ).Pairwise (fun x y => x ≤ y) :=
  ⟨argsortStable_spec, by decide!,
    batch_scores_sorted_ascending argsortStable argsortStable_spec
      [[⟨0, 0, 10, 10⟩, ⟨5, 5, 15, 15⟩, ⟨0, 0, 10, 10⟩]]
      [[[1, 9 / 10, 1 / 2], [1, 8 / 10, 7 / 10], [1, 0, 6 / 10]]] 3 (1 / 2) 3
      [([⟨5, 5, 15, 15⟩, ⟨5, 5, 15, 15⟩, ⟨0, 0, 10, 10⟩], [2, 1, 1],
        [7 / 10, 8 / 10, 9 / 10])]
      (by decide!)
      ([⟨5, 5, 15, 15⟩, ⟨5, 5, 15, 15⟩, ⟨0, 0, 10, 10⟩], [2, 1, 1], [7 / 10, 8 / 10, 9 / 10])
      (List.mem_singleton.mpr rfl)⟩

/-- C9: for every input with `C = nscore` classes, every label in every triple
returned by `batch_score_nms_kernel` is a class index in `[1, C)`; the background
class `0` never appears as a label. -/
theorem batch_labels_in_range (argsort : Bool → List ℚ → List Nat)
    (hsort : SortSpec argsort) (batch_dets : List (List Box))
    (batch_scores : List (List (List ℚ))) (nscore : Nat) (threshold : ℚ) (max_output : Int)
    (out : List (List Box × List Nat × List ℚ))
    (h : batch_score_nms_kernel argsort batch_dets batch_scores nscore threshold max_output =
      some out) (t : List Box × List Nat × List ℚ) (ht : t ∈ out) (lab : Nat)
    (hlab : lab ∈ t.2.1) : 1 ≤ lab ∧ lab < nscore :=
  batch_labels_mem argsort hsort batch_dets batch_scores nscore threshold max_output out h
    t ht lab hlab

/-- Witness of C9: the background class has the highest score of every box, and
still only the labels `1` and `2` are returned. -/
theorem batch_labels_in_range_witness :
    SortSpec argsortStable ∧
    batch_score_nms_kernel argsortStable
      [[⟨0, 0, 10, 10⟩, ⟨5, 5, 15, 15⟩, ⟨0, 0, 10, 10⟩]]
      [[[1, 9 / 10, 1 / 2], [1, 8 / 10, 7 / 10], [1, 0, 6 / 10]]] 3 (1 / 2) 200 =
      some [([⟨0, 0, 10, 10⟩, ⟨5, 5, 15, 15⟩, ⟨5, 5, 15, 15⟩, ⟨0, 0, 10, 10⟩], [2, 2, 1, 1],
        [6 / 10, 7 / 10, 8 / 10, 9 / 10])] ∧
    (1 ≤ 2 ∧ 2 < 3) :=
  ⟨argsortStable_spec, by decide!,
    batch_labels_in_range argsortStable argsortStable_spec
      [[⟨0, 0, 10, 10⟩, ⟨5, 5, 15, 15⟩, ⟨0, 0, 10, 10⟩]]
      [[[1, 9 / 10, 1 / 2], [1, 8 / 10, 7 / 10], [1, 0, 6 / 10]]] 3 (1 / 2) 200
      [([⟨0, 0, 10, 10⟩, ⟨5, 5, 15, 15⟩, ⟨5, 5, 15, 15⟩, ⟨0, 0, 10, 10⟩], [2, 2, 1, 1],
        [6 / 10, 7 / 10, 8 / 10, 9 / 10])]
      (by decide!)
      ([⟨0, 0, 10, 10⟩, ⟨5, 5, 15, 15⟩, ⟨5, 5, 15, 15⟩, ⟨0, 0, 10, 10⟩], [2, 2, 1, 1],
        [6 / 10, 7 / 10, 8 / 10, 9 / 10])
      (List.mem_singleton.mpr rfl) 2 (by decide)⟩

/-! ## The claim on the divisor of the overlap -/

/-- C10, as stated, fails: two well-formed boxes of zero area give, with bias `0`,
the divisor `0`, and the overlap is the NaN of `0/0`. -/
theorem divisor_zero_counterexample :
    (⟨0, 0, 0, 0⟩ : Box).WellFormed ∧ (⟨3, 4, 3, 4⟩ : Box).WellFormed ∧
    divisor 0 ⟨0, 0, 0, 0⟩ ⟨3, 4, 3, 4⟩ = 0 ∧
    overlap 0 ⟨0, 0, 0, 0⟩ ⟨3, 4, 3, 4⟩ = FVal.nan := by
  decide!

/-- C10, amended: for well-formed boxes and a bias in `{0, 1}`, the divisor
`area(a) + area(b) - intersection` is non-zero whenever the bias is `1` or one of
the two boxes has a non-zero area; it is zero only when both areas are zero. -/
theorem divisor_ne_zero (bias : ℚ) (a b : Box) (ha : a.WellFormed) (hb : b.WellFormed)
    (hbias : bias = 0 ∨ bias = 1)
    (harea : bias = 1 ∨ area bias a ≠ 0 ∨ area bias b ≠ 0) :
    divisor bias a b ≠ 0 := by
  have h0 : 0 ≤ bias := by rcases hbias with h | h <;> simp [h]
  intro hd
  have hzero := (divisor_eq_zero_iff bias h0 a b ha hb).mp hd
  rcases harea with h1 | h | h
  · subst h1
    exact absurd hzero.1 (ne_of_gt (area_pos_of_bias_one a ha))
  · exact h hzero.1
  · exact h hzero.2

/-- Witness of C10, amended: with bias `1`, the two boxes of zero extent of the
counterexample have the divisor `2`. -/
theorem divisor_ne_zero_witness :
    (⟨0, 0, 0, 0⟩ : Box).WellFormed ∧ (⟨3, 4, 3, 4⟩ : Box).WellFormed ∧
    divisor 1 ⟨0, 0, 0, 0⟩ ⟨3, 4, 3, 4⟩ = 2 ∧ divisor 1 ⟨0, 0, 0, 0⟩ ⟨3, 4, 3, 4⟩ ≠ 0 :=
  ⟨by decide!, by decide!, by decide!,
    divisor_ne_zero 1 ⟨0, 0, 0, 0⟩ ⟨3, 4, 3, 4⟩ (by decide!) (by decide!) (Or.inr rfl)
      (Or.inl rfl)⟩

/-! ## Greedy characterisation of the sweep, and the claims that follow from it -/

theorem sweepPrefix_full (dets : List Box) (areas : List ℚ) (order : List Nat)
    (threshold bias : ℚ) (ndets : Nat) :
    sweepPrefix dets areas order threshold bias ndets ndets =
      sweep dets areas order threshold bias ndets := rfl

theorem sweepPrefix_succ (dets : List Box) (areas : List ℚ) (order : List Nat)
    (threshold bias : ℚ) (ndets t : Nat) :
    sweepPrefix dets areas order threshold bias ndets (t + 1) =
      outerBody dets areas order threshold bias ndets
        (sweepPrefix dets areas order threshold bias ndets t) t := by
  unfold sweepPrefix
  rw [List.range_succ, List.foldl_append]
  rfl

theorem sweepPrefix_length (dets : List Box) (areas : List ℚ) (order : List Nat)
    (threshold bias : ℚ) (ndets t : Nat) :
    (sweepPrefix dets areas order threshold bias ndets t).length = ndets := by
  unfold sweepPrefix
  have h := (foldl_flagsExtend _
    (fun s _i => outerBody_flagsExtend dets areas order threshold bias ndets s _i)
    (List.range t) (List.replicate ndets false)).1
  simpa using h

theorem getD_set_ne (s : List Bool) (j m : Nat) (hm : m ≠ j) :
    (s.set j true).getD m false = s.getD m false := by
  simp [List.getD_eq_getElem?_getD, List.getElem?_set, Ne.symm hm]

theorem innerBody_getD_ne (dets : List Box) (areas : List ℚ) (threshold bias : ℚ)
    (i j m : Nat) (hm : m ≠ j) (s : List Bool) :
    (innerBody dets areas threshold bias i j s).getD m false = s.getD m false := by
  unfold innerBody
  split
  · rfl
  · dsimp only
    split
    · exact getD_set_ne s j m hm
    · rfl

theorem foldl_getD_untouched {β : Type} (f : List Bool → β → List Bool) (m : Nat)
    (l : List β) (hf : ∀ x ∈ l, ∀ s, (f s x).getD m false = s.getD m false) (s : List Bool) :
    (l.foldl f s).getD m false = s.getD m false := by
  induction l generalizing s with
  | nil => rfl
  | cons x xs ih =>
    rw [List.foldl_cons, ih (fun y hy => hf y (List.mem_cons_of_mem x hy)),
      hf x (List.mem_cons_self x xs)]

/-- The iteration `p` of the sweep leaves alone every flag that does not belong to
a later position. -/
theorem outerBody_getD_untouched (dets : List Box) (areas : List ℚ) (order : List Nat)
    (threshold bias : ℚ) (ndets p m : Nat)
    (hm : ∀ q, p < q → q < ndets → order.getD q 0 ≠ m) (s : List Bool) :
    (outerBody dets areas order threshold bias ndets s p).getD m false = s.getD m false := by
  unfold outerBody
  split
  · rfl
  · unfold innerLoop
    apply foldl_getD_untouched
    intro q hq t
    obtain ⟨k, hk, rfl⟩ := List.mem_range'.mp hq
    exact innerBody_getD_ne dets areas threshold bias _ _ m
      (Ne.symm (hm _ (by omega) (by omega))) t

theorem foldl_first_raise {β : Type} (f : List Bool → β → List Bool) (m : Nat)
    (l : List β) (s : List Bool) (hend : (l.foldl f s).getD m false = true)
    (hstart : s.getD m false = false) :
    ∃ x ∈ l, ∃ t, (f t x).getD m false = true ∧ t.getD m false = false := by
  induction l generalizing s with
  | nil => rw [List.foldl_nil, hstart] at hend; cases hend
  | cons x xs ih =>
    rw [List.foldl_cons] at hend
    cases h : (f s x).getD m false with
    | true => exact ⟨x, List.mem_cons_self x xs, s, h, hstart⟩
    | false =>
      obtain ⟨y, hy, t, ht⟩ := ih (f s x) hend h
      exact ⟨y, List.mem_cons_of_mem x hy, t, ht⟩

theorem innerBody_raised (dets : List Box) (threshold bias : ℚ) (i j m : Nat)
    (hi : i < dets.length) (hj : j < dets.length) (s : List Bool)
    (hend : (innerBody dets (dets.map (area bias)) threshold bias i j s).getD m false = true)
    (hstart : s.getD m false = false) : j = m ∧ hits dets threshold bias i j = true := by
  rw [innerBody_eq dets threshold bias i j hi hj] at hend
  by_cases h : s.getD j false = true
  · rw [if_pos h, hstart] at hend; cases hend
  · rw [if_neg h] at hend
    by_cases hh : hits dets threshold bias i j = true
    · rw [if_pos hh] at hend
      refine ⟨?_, hh⟩
      by_contra hne
      rw [getD_set_ne s j m (Ne.symm hne), hstart] at hend
      cases hend
    · rw [if_neg hh, hstart] at hend; cases hend

/-- A flag raised by the iteration `p` of the sweep belongs to a later position
whose box overlaps the unsuppressed box of `p` by the threshold or more. -/
theorem outerBody_raised (dets : List Box) (order : List Nat) (threshold bias : ℚ)
    (hlt : ∀ q, q < dets.length → order.getD q 0 < dets.length) (p m : Nat)
    (hp : p < dets.length) (s : List Bool)
    (hend : (outerBody dets (dets.map (area bias)) order threshold bias dets.length s p).getD
      m false = true)
    (hstart : s.getD m false = false) :
    s.getD (order.getD p 0) false = false ∧
      ∃ q, p < q ∧ q < dets.length ∧ order.getD q 0 = m ∧
        hits dets threshold bias (order.getD p 0) m = true := by
  unfold outerBody at hend
  split at hend
  · rw [hstart] at hend; cases hend
  · rename_i hsp
    refine ⟨by simpa using hsp, ?_⟩
    unfold innerLoop at hend
    obtain ⟨q, hq, t, ht, ht'⟩ := foldl_first_raise _ m _ s hend hstart
    obtain ⟨k, hk, rfl⟩ := List.mem_range'.mp hq
    have hq' : p + 1 + 1 * k < dets.length := by omega
    obtain ⟨hjm, hh⟩ := innerBody_raised dets threshold bias _ _ m (hlt p hp) (hlt _ hq') t
      ht ht'
    exact ⟨p + 1 + 1 * k, by omega, hq', hjm, hjm ▸ hh⟩
theorem sweepPrefix_first_raise (dets : List Box) (areas : List ℚ) (order : List Nat)
    (threshold bias : ℚ) (ndets m t : Nat)
    (h : (sweepPrefix dets areas order threshold bias ndets t).getD m false = true) :
    ∃ p, p < t ∧ (sweepPrefix dets areas order threshold bias ndets p).getD m false = false ∧
      (sweepPrefix dets areas order threshold bias ndets (p + 1)).getD m false = true := by
  induction t with
  | zero =>
    simp only [sweepPrefix, List.range_zero, List.foldl_nil, List.getD_eq_getElem?_getD,
      List.getElem?_replicate] at h
    split at h <;> simp at h
  | succ t ih =>
    cases hp : (sweepPrefix dets areas order threshold bias ndets t).getD m false with
    | true =>
      obtain ⟨p, hpt, h₁, h₂⟩ := ih hp
      exact ⟨p, by omega, h₁, h₂⟩
    | false => exact ⟨t, by omega, hp, h⟩

/-- The flag of position `k` is final once the sweep has reached `k`. -/
theorem sweepPrefix_stable (dets : List Box) (areas : List ℚ) (order : List Nat)
    (threshold bias : ℚ) (ndets : Nat) (hperm : order.Perm (List.range ndets)) (k : Nat)
    (hk : k < ndets) (d : Nat) (hd : k + d ≤ ndets) :
    (sweepPrefix dets areas order threshold bias ndets (k + d)).getD (order.getD k 0) false =
      (sweepPrefix dets areas order threshold bias ndets k).getD (order.getD k 0) false := by
  induction d with
  | zero => rfl
  | succ d ih =>
    rw [← Nat.add_assoc, sweepPrefix_succ, outerBody_getD_untouched, ih (by omega)]
    intro q hq hqn
    exact perm_range_getD_ne order ndets hperm q k hqn hk (by omega)

theorem sweep_getD_at_step (dets : List Box) (areas : List ℚ) (order : List Nat)
    (threshold bias : ℚ) (ndets : Nat) (hperm : order.Perm (List.range ndets)) (k : Nat)
    (hk : k < ndets) :
    (sweep dets areas order threshold bias ndets).getD (order.getD k 0) false =
      (sweepPrefix dets areas order threshold bias ndets k).getD (order.getD k 0) false := by
  have h := sweepPrefix_stable dets areas order threshold bias ndets hperm k hk (ndets - k)
    (by omega)
  rw [show k + (ndets - k) = ndets by omega] at h
  exact h

theorem perm_range_getD_inj (order : List Nat) (n : Nat)
    (hperm : order.Perm (List.range n)) (p q : Nat) (hp : p < n) (hq : q < n)
    (h : order.getD p 0 = order.getD q 0) : p = q := by
  by_contra hne
  exact perm_range_getD_ne order n hperm p q hp hq hne h

/-- Greedy characterisation of the sweep: the box of position `k` is suppressed
exactly when an earlier position holds an unsuppressed box that overlaps it by the
threshold or more. -/
theorem sweep_greedy (dets : List Box) (order : List Nat) (threshold bias : ℚ)
    (hperm : order.Perm (List.range dets.length)) (k : Nat) (hk : k < dets.length) :
    (sweep dets (dets.map (area bias)) order threshold bias dets.length).getD
        (order.getD k 0) false = true ↔
      ∃ p, p < k ∧
        (sweep dets (dets.map (area bias)) order threshold bias dets.length).getD
          (order.getD p 0) false = false ∧
        hits dets threshold bias (order.getD p 0) (order.getD k 0) = true := by
  have hlt := fun q hq => perm_range_getD_lt order dets.length hperm q hq
  constructor
  · intro h
    rw [← sweepPrefix_full] at h
    obtain ⟨p, hp, h₁, h₂⟩ := sweepPrefix_first_raise _ _ _ _ _ _ _ _ h
    rw [sweepPrefix_succ] at h₂
    obtain ⟨hsp, q, hpq, hq, hqm, hh⟩ :=
      outerBody_raised dets order threshold bias hlt p _ hp _ h₂ h₁
    have hqk : q = k := perm_range_getD_inj order _ hperm q k hq hk hqm
    subst hqk
    refine ⟨p, hpq, ?_, hh⟩
    rw [sweep_getD_at_step _ _ _ _ _ _ hperm p hp]
    exact hsp
  · rintro ⟨p, hpk, hkept, hh⟩
    exact sweep_raises dets order threshold bias p k hpk hk (hlt p (by omega)) (hlt k hk)
      hh hkept

/-- The box of the first position of the order is never suppressed. -/
theorem sweep_first_kept (dets : List Box) (order : List Nat) (threshold bias : ℚ)
    (hperm : order.Perm (List.range dets.length)) (h0 : 0 < dets.length) :
    (sweep dets (dets.map (area bias)) order threshold bias dets.length).getD
      (order.getD 0 0) false = false := by
  cases h : (sweep dets (dets.map (area bias)) order threshold bias dets.length).getD
      (order.getD 0 0) false with
  | false => rfl
  | true =>
    obtain ⟨p, hp, _⟩ := (sweep_greedy dets order threshold bias hperm 0 h0).mp h
    omega
theorem pairwise_getD {R : Nat → Nat → Prop} (l : List Nat) (h : l.Pairwise R) (p q : Nat)
    (hpq : p < q) (hq : q < l.length) : R (l.getD p 0) (l.getD q 0) := by
  have hp : p < l.length := by omega
  rw [List.getD_eq_getElem _ _ hp, List.getD_eq_getElem _ _ hq]
  exact List.pairwise_iff_getElem.mp h p q hp hq hpq

theorem mem_nms_order (argsort : Bool → List ℚ → List Nat) (dets : List Box)
    (scores : List ℚ) (threshold bias : ℚ)
    (hperm : (argsort true scores).Perm (List.range dets.length)) (k : Nat)
    (hk : k < dets.length) :
    (argsort true scores).getD k 0 ∈ nms_cpu_kernel argsort dets scores threshold bias ↔
      (sweep dets (dets.map (area bias)) (argsort true scores) threshold bias
        dets.length).getD ((argsort true scores).getD k 0) false = false := by
  rw [mem_nms_cpu_kernel]
  exact ⟨fun h => h.2, fun h => ⟨perm_range_getD_lt _ _ hperm k hk, h⟩⟩

theorem nms_greedy (argsort : Bool → List ℚ → List Nat) (dets : List Box)
    (scores : List ℚ) (threshold bias : ℚ)
    (hperm : (argsort true scores).Perm (List.range dets.length)) (k : Nat)
    (hk : k < dets.length) :
    (argsort true scores).getD k 0 ∈ nms_cpu_kernel argsort dets scores threshold bias ↔
      ¬ ∃ k', k' < k ∧
        (argsort true scores).getD k' 0 ∈ nms_cpu_kernel argsort dets scores threshold bias ∧
        hits dets threshold bias ((argsort true scores).getD k' 0)
          ((argsort true scores).getD k 0) = true := by
  rw [mem_nms_order argsort dets scores threshold bias hperm k hk]
  have hg := sweep_greedy dets (argsort true scores) threshold bias hperm k hk
  constructor
  · rintro h ⟨p, hp, hmem, hh⟩
    have := hg.mpr ⟨p, hp,
      (mem_nms_order argsort dets scores threshold bias hperm p (by omega)).mp hmem, hh⟩
    rw [h] at this
    cases this
  · intro h
    cases hs : (sweep dets (dets.map (area bias)) (argsort true scores) threshold bias
        dets.length).getD ((argsort true scores).getD k 0) false with
    | false => rfl
    | true =>
      obtain ⟨p, hp, hkept, hh⟩ := hg.mp hs
      exact absurd ⟨p, hp,
        (mem_nms_order argsort dets scores threshold bias hperm p (by omega)).mpr hkept, hh⟩ h

theorem nms_first_kept (argsort : Bool → List ℚ → List Nat) (dets : List Box)
    (scores : List ℚ) (threshold bias : ℚ)
    (hperm : (argsort true scores).Perm (List.range dets.length)) (h0 : 0 < dets.length) :
    (argsort true scores).getD 0 0 ∈ nms_cpu_kernel argsort dets scores threshold bias :=
  (mem_nms_order argsort dets scores threshold bias hperm 0 h0).mpr
    (sweep_first_kept dets (argsort true scores) threshold bias hperm h0)

theorem overlap_eq_zero (bias : ℚ) (hbias : 0 ≤ bias) (a b : Box) (ha : a.WellFormed)
    (hb : b.WellFormed) (hzero : area bias a = 0 ∨ area bias b = 0)
    (hpos : area bias a ≠ 0 ∨ area bias b ≠ 0) : overlap bias a b = FVal.fin 0 := by
  have h₁ := inter_le_area_left bias hbias a b ha
  have h₂ := inter_le_area_right bias hbias a b hb
  have h₃ := inter_nonneg bias a b
  have hi : inter bias a b = 0 := by
    rcases hzero with h | h
    · rw [h] at h₁; exact le_antisymm h₁ h₃
    · rw [h] at h₂; exact le_antisymm h₂ h₃
  have hd : divisor bias a b ≠ 0 := by
    intro hd
    have := (divisor_eq_zero_iff bias hbias a b ha hb).mp hd
    rcases hpos with h | h
    · exact h this.1
    · exact h this.2
  unfold overlap fdiv
  rw [if_neg hd, hi, zero_div]

/-- C15: greedy characterisation of `nms_cpu_kernel`.  With `order` the
score-descending ordering of the indices, `order[k]` is in the output if and only if
there is no `k' < k` such that `order[k']` is in the output and
`overlap(order[k'], order[k]) >= tau`; the comparison is inclusive: a finite overlap
`q` suppresses exactly when `tau <= q`. -/
theorem nms_greedy_characterisation (argsort : Bool → List ℚ → List Nat)
    (hsort : SortSpec argsort) (dets : List Box) (scores : List ℚ)
    (hlen : scores.length = dets.length) (threshold bias : ℚ) (k : Nat)
    (hk : k < dets.length) :
    ((argsort true scores).getD k 0 ∈ nms_cpu_kernel argsort dets scores threshold bias ↔
      ¬ ∃ k', k' < k ∧
        (argsort true scores).getD k' 0 ∈ nms_cpu_kernel argsort dets scores threshold bias ∧
        (overlap bias (dets.getD ((argsort true scores).getD k' 0) default)
          (dets.getD ((argsort true scores).getD k 0) default)).ge threshold = true) ∧
    (∀ q : ℚ, (FVal.fin q).ge threshold = true ↔ threshold ≤ q) :=
  ⟨nms_greedy argsort dets scores threshold bias (by rw [← hlen]; exact (hsort true scores).1)
      k hk,
    fun q => by simp [FVal.ge]⟩

/-- Witness of C15: of three boxes in score order, the second overlaps the first by
more than the threshold and is not in the output. -/
theorem nms_greedy_characterisation_witness :
    SortSpec argsortStable ∧
    ((argsortStable true [9 / 10, 8 / 10, 7 / 10]).getD 1 0 ∈
        nms_cpu_kernel argsortStable [⟨0, 0, 10, 10⟩, ⟨1, 1, 11, 11⟩, ⟨20, 20, 30, 30⟩]
          [9 / 10, 8 / 10, 7 / 10] (1 / 2) 0 ↔
      ¬ ∃ k', k' < 1 ∧
        (argsortStable true [9 / 10, 8 / 10, 7 / 10]).getD k' 0 ∈
          nms_cpu_kernel argsortStable [⟨0, 0, 10, 10⟩, ⟨1, 1, 11, 11⟩, ⟨20, 20, 30, 30⟩]
            [9 / 10, 8 / 10, 7 / 10] (1 / 2) 0 ∧
        (overlap 0
          (([⟨0, 0, 10, 10⟩, ⟨1, 1, 11, 11⟩, ⟨20, 20, 30, 30⟩] : List Box).getD
            ((argsortStable true [9 / 10, 8 / 10, 7 / 10]).getD k' 0) default)
          (([⟨0, 0, 10, 10⟩, ⟨1, 1, 11, 11⟩, ⟨20, 20, 30, 30⟩] : List Box).getD
            ((argsortStable true [9 / 10, 8 / 10, 7 / 10]).getD 1 0) default)).ge
              (1 / 2) = true) ∧
    (argsortStable true [9 / 10, 8 / 10, 7 / 10]).getD 1 0 ∉
      nms_cpu_kernel argsortStable [⟨0, 0, 10, 10⟩, ⟨1, 1, 11, 11⟩, ⟨20, 20, 30, 30⟩]
        [9 / 10, 8 / 10, 7 / 10] (1 / 2) 0 :=
  ⟨argsortStable_spec,
    (nms_greedy_characterisation argsortStable argsortStable_spec
      [⟨0, 0, 10, 10⟩, ⟨1, 1, 11, 11⟩, ⟨20, 20, 30, 30⟩] [9 / 10, 8 / 10, 7 / 10] rfl
      (1 / 2) 0 1 (by decide)).1,
    by decide!⟩

/-- C16, as stated, fails: with bias `0`, two well-formed boxes of zero area have
the overlap `0/0`, a NaN, and not `0`. -/
theorem overlap_zero_area_counterexample :
    (⟨0, 0, 0, 5⟩ : Box).WellFormed ∧ (⟨0, 0, 7, 0⟩ : Box).WellFormed ∧
    area 0 ⟨0, 0, 0, 5⟩ = 0 ∧ area 0 ⟨0, 0, 7, 0⟩ = 0 ∧
    overlap 0 ⟨0, 0, 0, 5⟩ ⟨0, 0, 7, 0⟩ = FVal.nan ∧
    overlap 0 ⟨0, 0, 0, 5⟩ ⟨0, 0, 7, 0⟩ ≠ FVal.fin 0 := by
  decide!

/-- C16, amended: for well-formed boxes and a bias in `{0, 1}`, the intersection
satisfies `0 <= intersection <= min(area(a), area(b))`, and whenever one of the two
boxes has zero area and the other has not, the computed overlap is `0`. -/
theorem inter_bounds (bias : ℚ) (a b : Box) (ha : a.WellFormed) (hb : b.WellFormed)
    (hbias : bias = 0 ∨ bias = 1) :
    0 ≤ inter bias a b ∧ inter bias a b ≤ min (area bias a) (area bias b) ∧
    (area bias a = 0 ∨ area bias b = 0 → area bias a ≠ 0 ∨ area bias b ≠ 0 →
      overlap bias a b = FVal.fin 0) := by
  have h0 : 0 ≤ bias := by rcases hbias with h | h <;> simp [h]
  exact ⟨inter_nonneg bias a b,
    le_min (inter_le_area_left bias h0 a b ha) (inter_le_area_right bias h0 a b hb),
    overlap_eq_zero bias h0 a b ha hb⟩

/-- Witness of C16, amended: a box of area `100` and a box of zero area inside it. -/
theorem inter_bounds_witness :
    (⟨0, 0, 10, 10⟩ : Box).WellFormed ∧ (⟨3, 4, 3, 4⟩ : Box).WellFormed ∧
    area 0 ⟨3, 4, 3, 4⟩ = 0 ∧ overlap 0 ⟨0, 0, 10, 10⟩ ⟨3, 4, 3, 4⟩ = FVal.fin 0 :=
  ⟨by decide!, by decide!, by decide!,
    (inter_bounds 0 ⟨0, 0, 10, 10⟩ ⟨3, 4, 3, 4⟩ (by decide!) (by decide!) (Or.inl rfl)).2.2
      (Or.inr (by decide!)) (Or.inl (by decide!))⟩

/-- C19: for every non-empty input, every threshold and every bias, the index that
comes first in the score-descending order, a highest-scoring box, is in the output
of `nms_cpu_kernel`; the output is not empty. -/
theorem nms_top_score_kept (argsort : Bool → List ℚ → List Nat) (hsort : SortSpec argsort)
    (dets : List Box) (scores : List ℚ) (hlen : scores.length = dets.length)
    (threshold bias : ℚ) (hne : dets ≠ []) :
    (argsort true scores).getD 0 0 ∈ nms_cpu_kernel argsort dets scores threshold bias ∧
    (∀ i, i < dets.length →
      scores.getD i 0 ≤ scores.getD ((argsort true scores).getD 0 0) 0) ∧
    nms_cpu_kernel argsort dets scores threshold bias ≠ [] := by
  have hperm : (argsort true scores).Perm (List.range dets.length) := by
    rw [← hlen]; exact (hsort true scores).1
  have h0 : 0 < dets.length := List.length_pos.mpr hne
  have hmem := nms_first_kept argsort dets scores threshold bias hperm h0
  refine ⟨hmem, ?_, List.ne_nil_of_mem hmem⟩
  intro i hi
  obtain ⟨q, hq, hqi⟩ := perm_range_position _ _ hperm i hi
  rcases Nat.eq_zero_or_pos q with h | h
  · rw [← hqi, h]
  · have := pairwise_getD _ (hsort true scores).2 0 q h (by rw [hperm.length_eq]; simpa using hq)
    rw [← hqi]
    simpa using this

/-- Witness of C19: with a negative threshold only the highest-scoring box, here
the second of three, is kept. -/
theorem nms_top_score_kept_witness :
    SortSpec argsortStable ∧
    (argsortStable true [7 / 10, 9 / 10, 8 / 10]).getD 0 0 = 1 ∧
    nms_cpu_kernel argsortStable [⟨0, 0, 10, 10⟩, ⟨1, 1, 11, 11⟩, ⟨20, 20, 30, 30⟩]
      [7 / 10, 9 / 10, 8 / 10] (-1) 0 = [1] ∧
    (argsortStable true [7 / 10, 9 / 10, 8 / 10]).getD 0 0 ∈
      nms_cpu_kernel argsortStable [⟨0, 0, 10, 10⟩, ⟨1, 1, 11, 11⟩, ⟨20, 20, 30, 30⟩]
        [7 / 10, 9 / 10, 8 / 10] (-1) 0 :=
  ⟨argsortStable_spec, by decide!, by decide!,
    (nms_top_score_kept argsortStable argsortStable_spec
      [⟨0, 0, 10, 10⟩, ⟨1, 1, 11, 11⟩, ⟨20, 20, 30, 30⟩] [7 / 10, 9 / 10, 8 / 10] rfl
      (-1) 0 (by decide)).1⟩

/-! ## The entry points and their parameters -/

theorem getD_mem_box (dets : List Box) (i : Nat) (hi : i < dets.length) :
    dets.getD i default ∈ dets := by
  rw [List.getD_eq_getElem _ _ hi]
  exact List.getElem_mem hi

theorem overlap_ge_of_neg_threshold (a b : Box) (ha : a.WellFormed) (hb : b.WellFormed)
    (threshold : ℚ) (hthr : threshold < 0) : (overlap 1 a b).ge threshold = true := by
  have h₁ := inter_le_area_left 1 zero_le_one a b ha
  have h₃ := inter_nonneg 1 a b
  have h₅ := area_pos_of_bias_one b hb
  have hd : 0 < divisor 1 a b := by unfold divisor; linarith
  unfold overlap fdiv
  rw [if_neg (ne_of_gt hd)]
  simp only [FVal.ge, decide_eq_true_eq]
  exact le_trans (le_of_lt hthr) (div_nonneg h₃ (le_of_lt hd))

/-- With bias `1`, well-formed boxes and a negative threshold every pair of boxes
passes the test `ovr >= threshold`. -/
theorem hits_of_neg_threshold (dets : List Box) (hwf : ∀ b ∈ dets, b.WellFormed)
    (threshold : ℚ) (hthr : threshold < 0) (i j : Nat) (hi : i < dets.length)
    (hj : j < dets.length) : hits dets threshold 1 i j = true :=
  overlap_ge_of_neg_threshold _ _ (hwf _ (getD_mem_box dets i hi))
    (hwf _ (getD_mem_box dets j hj)) threshold hthr

theorem eq_singleton_of_nodup (l : List Nat) (a : Nat) (hnd : l.Nodup) (ha : a ∈ l)
    (hall : ∀ x ∈ l, x = a) : l = [a] := by
  match l, hnd, ha, hall with
  | [], _, ha, _ => cases ha
  | [x], _, _, hall => rw [hall x (List.mem_singleton.mpr rfl)]
  | x :: y :: rest, hnd, _, hall =>
    have hx := hall x (List.mem_cons_self _ _)
    have hy := hall y (List.mem_cons_of_mem _ (List.mem_cons_self _ _))
    have hne : x ≠ y := by
      intro h
      have := (List.nodup_cons.mp hnd).1
      exact this (h ▸ List.mem_cons_self _ _)
    exact absurd (hx.trans hy.symm) hne

/-- Over exact arithmetic, for well-formed boxes: with a negative threshold `nms_cpu`
keeps the top-scoring box and nothing else. -/
theorem nms_cpu_neg_threshold (argsort : Bool → List ℚ → List Nat) (hsort : SortSpec argsort)
    (dets : List Box) (scores : List ℚ) (hlen : scores.length = dets.length)
    (hne : dets ≠ []) (hwf : ∀ b ∈ dets, b.WellFormed) (threshold : ℚ) (hthr : threshold < 0) :
    nms_cpu argsort dets scores threshold = [(argsort true scores).getD 0 0] := by
  have hperm : (argsort true scores).Perm (List.range dets.length) := by
    rw [← hlen]; exact (hsort true scores).1
  have h0 : 0 < dets.length := List.length_pos.mpr hne
  have hfirst := nms_first_kept argsort dets scores threshold 1 hperm h0
  unfold nms_cpu
  apply eq_singleton_of_nodup _ _
    ((nms_cpu_kernel_sorted argsort dets scores threshold 1).imp (fun h => Nat.ne_of_lt h)) hfirst
  intro x hx
  have hxlt := ((mem_nms_cpu_kernel argsort dets scores threshold 1 x).mp hx).1
  obtain ⟨k, hk, hkx⟩ := perm_range_position _ _ hperm x hxlt
  rcases Nat.eq_zero_or_pos k with hk0 | hk0
  · rw [← hkx, hk0]
  · rw [← hkx] at hx
    have := (nms_greedy argsort dets scores threshold 1 hperm k hk).mp hx
    exact absurd ⟨0, hk0, hfirst, hits_of_neg_threshold dets hwf threshold hthr _ _
      (perm_range_getD_lt _ _ hperm 0 h0) (perm_range_getD_lt _ _ hperm k hk)⟩ this

theorem topIds_nonpos (argsort : Bool → List ℚ → List Nat) (max_output : Int)
    (hK : max_output ≤ 0) (scores : List ℚ) : topIds argsort max_output scores = [] := by
  unfold topIds slice
  apply List.drop_eq_nil_of_le
  simp only [List.length_take, Int.toNat_ofNat, min_self]
  omega

/-- With a non-positive `max_output` every triple of a successful call is empty. -/
theorem batch_nonpos_max_output (argsort : Bool → List ℚ → List Nat)
    (batch_dets : List (List Box)) (batch_scores : List (List (List ℚ))) (nscore : Nat)
    (threshold : ℚ) (max_output : Int) (hK : max_output ≤ 0)
    (out : List (List Box × List Nat × List ℚ))
    (h : batch_score_nms_kernel argsort batch_dets batch_scores nscore threshold max_output =
      some out) :
    out.length = batch_scores.length ∧ ∀ t ∈ out, t = ([], [], []) := by
  obtain ⟨slots, _, h₂⟩ := batch_score_nms_kernel_eq_some _ _ _ _ _ _ _ h
  obtain ⟨hlen, hmem⟩ := forIndices_eq_some _ _ _ h₂
  refine ⟨by simpa using hlen, ?_⟩
  intro t ht
  obtain ⟨bs, _, hbs⟩ := hmem t ht
  obtain ⟨b, l, s, _, _, _, rfl⟩ := stage2_eq_some _ _ _ _ _ _ _ _ hbs
  rw [topIds_nonpos argsort max_output hK s]
  rfl
theorem forIndices_map_congr {α β γ : Type} (f : Nat → Option α) (g : Nat → Option β)
    (φ : α → γ) (ψ : β → γ) (l : List Nat) (h : ∀ x ∈ l, (f x).map φ = (g x).map ψ) :
    (forIndices f l).map (List.map φ) = (forIndices g l).map (List.map ψ) := by
  induction l with
  | nil => rfl
  | cons x xs ih =>
    have hx := h x (List.mem_cons_self _ _)
    have ih' := ih (fun y hy => h y (List.mem_cons_of_mem _ hy))
    unfold forIndices
    cases hf : f x with
    | none =>
      cases hg : g x with
      | none => rfl
      | some r' => rw [hf, hg] at hx; cases hx
    | some r =>
      cases hg : g x with
      | none => rw [hf, hg] at hx; cases hx
      | some r' =>
        rw [hf, hg] at hx
        have hr : φ r = ψ r' := Option.some.inj hx
        cases hfs : forIndices f xs with
        | none =>
          cases hgs : forIndices g xs with
          | none => rfl
          | some rs' => rw [hfs, hgs] at ih'; cases ih'
        | some rs =>
          cases hgs : forIndices g xs with
          | none => rw [hfs, hgs] at ih'; cases ih'
          | some rs' =>
            rw [hfs, hgs] at ih'
            have hrs : rs.map φ = rs'.map ψ := Option.some.inj ih'
            simp only [Option.map_some', List.map_cons, hr, hrs]

/-- Whether an iteration of the first loop throws, skips or fills its slot does not
depend on `threshold` or `max_output`. -/
theorem stage1_outcome (argsort : Bool → List ℚ → List Nat) (batch_dets : List (List Box))
    (batch_scores : List (List (List ℚ))) (nscore : Nat) (threshold threshold' : ℚ)
    (max_output max_output' : Int) (index : Nat) :
    (stage1 argsort batch_dets batch_scores nscore threshold max_output index).map
        (Option.map (fun _ => ())) =
      (stage1 argsort batch_dets batch_scores nscore threshold' max_output' index).map
        (Option.map (fun _ => ())) := by
  unfold stage1
  dsimp only
  split
  · rfl
  · split
    · rfl
    · split <;> rfl

/-- Whether the second loop throws for an image depends only on which slots are
defined. -/
theorem stage2_outcome (argsort : Bool → List ℚ → List Nat) (nscore : Nat)
    (max_output max_output' : Int) (slots slots' : List (Option (List Box × List ℚ × List Nat)))
    (hslots : slots.map (Option.map (fun _ => ())) = slots'.map (Option.map (fun _ => ())))
    (bs : Nat) :
    (stage2 argsort nscore max_output (slots.map (Option.map (fun s => s.1)))
        (slots.map (Option.map (fun s => s.2.1))) (slots.map (Option.map (fun s => s.2.2)))
        bs).map (fun _ => ()) =
      (stage2 argsort nscore max_output' (slots'.map (Option.map (fun s => s.1)))
        (slots'.map (Option.map (fun s => s.2.1))) (slots'.map (Option.map (fun s => s.2.2)))
        bs).map (fun _ => ()) := by
  have hV : (remove_empty slots (bs * nscore) ((bs + 1) * nscore)).map (fun _ => ()) =
      (remove_empty slots' (bs * nscore) ((bs + 1) * nscore)).map (fun _ => ()) := by
    rw [← remove_empty_map, ← remove_empty_map, hslots]
  unfold stage2
  dsimp only
  simp only [remove_empty_map]
  cases hv : remove_empty slots (bs * nscore) ((bs + 1) * nscore) with
  | nil =>
    cases hv' : remove_empty slots' (bs * nscore) ((bs + 1) * nscore) with
    | nil => rfl
    | cons x' xs' => rw [hv, hv'] at hV; cases hV
  | cons x xs =>
    cases hv' : remove_empty slots' (bs * nscore) ((bs + 1) * nscore) with
    | nil => rw [hv, hv'] at hV; cases hV
    | cons x' xs' => rfl

/-- Whether a call throws, and how many triples it returns, does not depend on
`threshold` or `max_output`: neither parameter is checked. -/
theorem batch_score_nms_kernel_outcome (argsort : Bool → List ℚ → List Nat)
    (batch_dets : List (List Box)) (batch_scores : List (List (List ℚ))) (nscore : Nat)
    (threshold threshold' : ℚ) (max_output max_output' : Int) :
    (batch_score_nms_kernel argsort batch_dets batch_scores nscore threshold max_output).map
        (List.map (fun _ => ())) =
      (batch_score_nms_kernel argsort batch_dets batch_scores nscore threshold'
        max_output').map (List.map (fun _ => ())) := by
  have h₁ := forIndices_map_congr
    (stage1 argsort batch_dets batch_scores nscore threshold max_output)
    (stage1 argsort batch_dets batch_scores nscore threshold' max_output')
    (Option.map (fun _ => ())) (Option.map (fun _ => ()))
    (List.range (batch_scores.length * nscore))
    (fun index _ => stage1_outcome argsort batch_dets batch_scores nscore threshold threshold'
      max_output max_output' index)
  unfold batch_score_nms_kernel
  dsimp only
  cases hs : forIndices (stage1 argsort batch_dets batch_scores nscore threshold max_output)
      (List.range (batch_scores.length * nscore)) with
  | none =>
    cases hs' : forIndices
        (stage1 argsort batch_dets batch_scores nscore threshold' max_output')
        (List.range (batch_scores.length * nscore)) with
    | none => rfl
    | some slots' => rw [hs, hs'] at h₁; cases h₁
  | some slots =>
    cases hs' : forIndices
        (stage1 argsort batch_dets batch_scores nscore threshold' max_output')
        (List.range (batch_scores.length * nscore)) with
    | none => rw [hs, hs'] at h₁; cases h₁
    | some slots' =>
      rw [hs, hs'] at h₁
      exact forIndices_map_congr _ _ _ _ _
        (fun bs _ => stage2_outcome argsort nscore max_output max_output' slots slots'
          (Option.some.inj h₁) bs)

/-- A call with a non-positive `max_output` behaves as the call with any other
`max_output'`, with every triple emptied. -/
theorem batch_nonpos_eq (argsort : Bool → List ℚ → List Nat)
    (batch_dets : List (List Box)) (batch_scores : List (List (List ℚ))) (nscore : Nat)
    (threshold : ℚ) (max_output max_output' : Int) (hK : max_output ≤ 0) :
    batch_score_nms_kernel argsort batch_dets batch_scores nscore threshold max_output =
      (batch_score_nms_kernel argsort batch_dets batch_scores nscore threshold
        max_output').map (List.map (fun _ => ([], [], []))) := by
  have h := batch_score_nms_kernel_outcome argsort batch_dets batch_scores nscore threshold
    threshold max_output max_output'
  cases ho : batch_score_nms_kernel argsort batch_dets batch_scores nscore threshold
      max_output with
  | none =>
    cases ho' : batch_score_nms_kernel argsort batch_dets batch_scores nscore threshold
        max_output' with
    | none => rfl
    | some out' => rw [ho, ho'] at h; cases h
  | some out =>
    cases ho' : batch_score_nms_kernel argsort batch_dets batch_scores nscore threshold
        max_output' with
    | none => rw [ho, ho'] at h; cases h
    | some out' =>
      rw [ho, ho'] at h
      have hlen : out.length = out'.length := by
        have := congrArg List.length (Option.some.inj h)
        simpa using this
      have hall := (batch_nonpos_max_output argsort batch_dets batch_scores nscore threshold
        max_output hK out ho).2
      simp only [Option.map_some', Option.some.injEq]
      rw [List.map_const', ← hlen]
      exact List.eq_replicate_iff.mpr ⟨rfl, hall⟩

/-- C11, as stated, fails: a negative threshold and a non-positive `max_output` are
accepted.  `nms_cpu` with threshold `-1` returns `[0]`; `batch_score_nms_cpu` with
threshold `-1` returns a triple, and with `max_output` `0` or `-3` an empty triple. -/
theorem out_of_range_accepted :
    nms_cpu argsortStable [⟨0, 0, 10, 10⟩, ⟨1, 1, 11, 11⟩, ⟨20, 20, 30, 30⟩]
      [9 / 10, 8 / 10, 7 / 10] (-1) = [0] ∧
    batch_score_nms_cpu argsortStable [[⟨0, 0, 10, 10⟩, ⟨20, 20, 30, 30⟩]]
      [[[0, 9 / 10], [0, 8 / 10]]] 2 (-1) 200 =
      some [([⟨0, 0, 10, 10⟩], [1], [9 / 10])] ∧
    batch_score_nms_cpu argsortStable [[⟨0, 0, 10, 10⟩, ⟨20, 20, 30, 30⟩]]
      [[[0, 9 / 10], [0, 8 / 10]]] 2 (1 / 2) 0 = some [([], [], [])] ∧
    batch_score_nms_cpu argsortStable [[⟨0, 0, 10, 10⟩, ⟨20, 20, 30, 30⟩]]
      [[[0, 9 / 10], [0, 8 / 10]]] 2 (1 / 2) (-3) = some [([], [], [])] :=
  ⟨by decide!, by decide!, by decide!, by decide!⟩

/-- C11, amended: the parameters are not checked.  `nms_cpu` hands every threshold,
a negative one included, to the kernel.  Whether `batch_score_nms_cpu` throws, and
how many triples it returns, does not depend on the threshold or on `max_output`;
with a non-positive `max_output` it returns what it returns for any other
`max_output'`, every triple emptied. -/
theorem out_of_range_not_checked (argsort : Bool → List ℚ → List Nat)
    (dets : List Box) (scores : List ℚ) (threshold : ℚ)
    (batch_dets : List (List Box)) (batch_scores : List (List (List ℚ))) (nscore : Nat)
    (threshold' : ℚ) (max_output max_output' : Int) (hK : max_output ≤ 0) :
    nms_cpu argsort dets scores threshold =
      nms_cpu_kernel argsort dets scores threshold 1 ∧
    (batch_score_nms_cpu argsort batch_dets batch_scores nscore threshold max_output').map
        (List.map (fun _ => ())) =
      (batch_score_nms_cpu argsort batch_dets batch_scores nscore threshold'
        max_output').map (List.map (fun _ => ())) ∧
    batch_score_nms_cpu argsort batch_dets batch_scores nscore threshold' max_output =
      (batch_score_nms_cpu argsort batch_dets batch_scores nscore threshold'
        max_output').map (List.map (fun _ => ([], [], []))) :=
  ⟨rfl,
    batch_score_nms_kernel_outcome argsort batch_dets batch_scores nscore threshold threshold'
      max_output' max_output',
    batch_nonpos_eq argsort batch_dets batch_scores nscore threshold' max_output max_output' hK⟩

/-- Witness of C11, amended: three boxes with threshold `-1`, and a batch of one
image with `max_output = 0` against `max_output' = 200`. -/
theorem out_of_range_not_checked_witness :
    (0 : Int) ≤ 0 ∧
    (batch_score_nms_cpu argsortStable [[⟨0, 0, 10, 10⟩, ⟨20, 20, 30, 30⟩]]
        [[[0, 9 / 10], [0, 8 / 10]]] 2 (-1) 200).map (List.map (fun _ => ())) =
      (batch_score_nms_cpu argsortStable [[⟨0, 0, 10, 10⟩, ⟨20, 20, 30, 30⟩]]
        [[[0, 9 / 10], [0, 8 / 10]]] 2 (1 / 2) 200).map (List.map (fun _ => ())) ∧
    batch_score_nms_cpu argsortStable [[⟨0, 0, 10, 10⟩, ⟨20, 20, 30, 30⟩]]
      [[[0, 9 / 10], [0, 8 / 10]]] 2 (1 / 2) 0 =
      (batch_score_nms_cpu argsortStable [[⟨0, 0, 10, 10⟩, ⟨20, 20, 30, 30⟩]]
        [[[0, 9 / 10], [0, 8 / 10]]] 2 (1 / 2) 200).map (List.map (fun _ => ([], [], []))) :=
  ⟨by decide,
    (out_of_range_not_checked argsortStable
      [⟨0, 0, 10, 10⟩, ⟨1, 1, 11, 11⟩, ⟨20, 20, 30, 30⟩] [9 / 10, 8 / 10, 7 / 10] (-1)
      [[⟨0, 0, 10, 10⟩, ⟨20, 20, 30, 30⟩]] [[[0, 9 / 10], [0, 8 / 10]]] 2 (1 / 2) 0 200
      (by decide)).2⟩

/-! ## The fused concatenation, batch norm and rectifier -/

theorem getD_set_eq' {α : Type} (l : List α) (i : Nat) (v d : α) (hi : i < l.length) :
    (l.set i v).getD i d = v := by
  simp [List.getD_eq_getElem?_getD, List.getElem?_set, hi]

theorem getD_set_ne' {α : Type} (l : List α) (i j : Nat) (v d : α) (hij : i ≠ j) :
    (l.set j v).getD i d = l.getD i d := by
  simp [List.getD_eq_getElem?_getD, List.getElem?_set, Ne.symm hij]

/-- C14, on the code: whatever the vectorized kernel computes from the arguments it
is given (`a`, `bn_scale`, `bn_beta`, the output buffer), the two paths cannot agree
on all inputs.  The generic path reads `bn_bias`, which the vectorized path never
receives: of two calls that differ in `bn_bias` only (one element `0`, scale `1`,
mean `0`, variance `1`, epsilon `0`, and `bn_bias` `1` or `2`), the generic path
returns `1` and `2`, the vectorized path one and the same tensor. -/
theorem concat_bn_relu_paths_differ
    (kernel : List Tensor → Option (List ℚ) → List ℚ → List Nat → List ℚ) (sqrt : ℚ → ℚ)
    (hsqrt : sqrt 1 = 1) :
    ConcatBnRelu false kernel sqrt [⟨[1, 1, 1, 1], [0]⟩] [0] (some [1]) (some [1]) (some [0])
        (some [1]) 0 1 = some ⟨[1, 1, 1, 1], [1]⟩ ∧
    ConcatBnRelu false kernel sqrt [⟨[1, 1, 1, 1], [0]⟩] [0] (some [1]) (some [2]) (some [0])
        (some [1]) 0 1 = some ⟨[1, 1, 1, 1], [2]⟩ ∧
    (ConcatBnRelu true kernel sqrt [⟨[1, 1, 1, 1], [0]⟩] [0] (some [1]) (some [1]) (some [0])
        (some [1]) 0 1 ≠
      ConcatBnRelu false kernel sqrt [⟨[1, 1, 1, 1], [0]⟩] [0] (some [1]) (some [1]) (some [0])
        (some [1]) 0 1 ∨
    ConcatBnRelu true kernel sqrt [⟨[1, 1, 1, 1], [0]⟩] [0] (some [1]) (some [2]) (some [0])
        (some [1]) 0 1 ≠
      ConcatBnRelu false kernel sqrt [⟨[1, 1, 1, 1], [0]⟩] [0] (some [1]) (some [2]) (some [0])
        (some [1]) 0 1) := by
  have h₁ : ConcatBnRelu false kernel sqrt [⟨[1, 1, 1, 1], [0]⟩] [0] (some [1]) (some [1])
      (some [0]) (some [1]) 0 1 = some ⟨[1, 1, 1, 1], [1]⟩ := by
    simp [ConcatBnRelu, output_dim, cat_dim, batch_norm, relu, hsqrt, List.enum, List.enumFrom,
      List.range, List.range.loop]
  have h₂ : ConcatBnRelu false kernel sqrt [⟨[1, 1, 1, 1], [0]⟩] [0] (some [1]) (some [2])
      (some [0]) (some [1]) 0 1 = some ⟨[1, 1, 1, 1], [2]⟩ := by
    simp [ConcatBnRelu, output_dim, cat_dim, batch_norm, relu, hsqrt, List.enum, List.enumFrom,
      List.range, List.range.loop]
  have h₃ : ConcatBnRelu true kernel sqrt [⟨[1, 1, 1, 1], [0]⟩] [0] (some [1]) (some [1])
      (some [0]) (some [1]) 0 1 =
      ConcatBnRelu true kernel sqrt [⟨[1, 1, 1, 1], [0]⟩] [0] (some [1]) (some [2])
      (some [0]) (some [1]) 0 1 := rfl
  refine ⟨h₁, h₂, ?_⟩
  by_contra hcon
  push_neg at hcon
  have := hcon.1.symm.trans (h₃.trans hcon.2)
  rw [h₁, h₂] at this
  simp at this

/-- Witness of C14: the kernel modelled from the spec and the example square
root. -/
theorem concat_bn_relu_paths_differ_witness :
    sqrtExample 1 = 1 ∧
    ConcatBnRelu true ConcatBnReluKernelImpl_ChannelsLast sqrtExample [⟨[1, 1, 1, 1], [0]⟩] [0]
        (some [1]) (some [1]) (some [0]) (some [1]) 0 1 = some ⟨[1, 1, 1, 1], [0]⟩ ∧
    ConcatBnRelu false ConcatBnReluKernelImpl_ChannelsLast sqrtExample [⟨[1, 1, 1, 1], [0]⟩] [0]
        (some [1]) (some [1]) (some [0]) (some [1]) 0 1 = some ⟨[1, 1, 1, 1], [1]⟩ :=
  ⟨by decide!, by decide!,
    (concat_bn_relu_paths_differ ConcatBnReluKernelImpl_ChannelsLast sqrtExample
      (by decide!)).1⟩

/-- The two paths on arguments folded from one batch norm (weight `2`, bias `0`,
mean `0`, variance `3`, epsilon `1`, hence scale `2 / sqrt 4 = 1` and shift `0`):
for the element `1` the vectorized path modelled from the spec returns `1`, the
value of the batch norm, and the generic path, which normalises by `sqrt 4` once
more, returns `1/2`. -/
theorem concat_bn_relu_folded_example :
    ConcatBnRelu true ConcatBnReluKernelImpl_ChannelsLast sqrtExample [⟨[1, 1, 1, 1], [1]⟩] [0]
        (some [1]) (some [0]) (some [0]) (some [3]) 1 1 = some ⟨[1, 1, 1, 1], [1]⟩ ∧
    ConcatBnRelu false ConcatBnReluKernelImpl_ChannelsLast sqrtExample [⟨[1, 1, 1, 1], [1]⟩] [0]
        (some [1]) (some [0]) (some [0]) (some [3]) 1 1 = some ⟨[1, 1, 1, 1], [1 / 2]⟩ :=
  ⟨by decide!, by decide!⟩

/-! ## The box decoder -/

theorem getD_set_ite {α : Type} (l : List α) (i j : Nat) (v d : α) :
    (l.set j v).getD i d = if i = j ∧ j < l.length then v else l.getD i d := by
  by_cases hij : i = j
  · subst hij
    by_cases hi : i < l.length
    · rw [if_pos ⟨rfl, hi⟩, getD_set_eq' l i v d hi]
    · rw [if_neg (fun h => hi h.2), List.getD_eq_default _ _ (by simpa using hi),
        List.getD_eq_default _ _ (by simpa using hi)]
  · rw [if_neg (fun h => hij h.1), getD_set_ne' l i j v d hij]

theorem scale_back_body_length {K : Type} [LinearOrderedField K] (exp : K → K)
    (input_data input_dboxes_xywh_data : List K) (scale_xy scale_wh : K)
    (boxes_per_image : Nat) (output_data : List K) (k : Nat) :
    (scale_back_body exp input_data input_dboxes_xywh_data scale_xy scale_wh boxes_per_image
      output_data k).length = output_data.length := by
  simp [scale_back_body]

theorem flat_index (boxes_per_image k : Nat) :
    k / boxes_per_image * boxes_per_image * 4 + k % boxes_per_image * 4 = 4 * k := by
  have := Nat.div_add_mod k boxes_per_image
  have h2 : k / boxes_per_image * boxes_per_image = boxes_per_image * (k / boxes_per_image) :=
    Nat.mul_comm _ _
  omega

/-- The iteration `k` writes the decoded box to the entries `4k, ..., 4k + 3`. -/
theorem scale_back_body_quad {K : Type} [LinearOrderedField K] (exp : K → K)
    (input_data input_dboxes_xywh_data : List K) (scale_xy scale_wh : K)
    (boxes_per_image : Nat) (output_data : List K) (k : Nat)
    (hk : 4 * k + 3 < output_data.length) :
    quad (scale_back_body exp input_data input_dboxes_xywh_data scale_xy scale_wh
        boxes_per_image output_data k) (4 * k) =
      decode_box exp scale_xy scale_wh (quad input_data (4 * k))
        (quad input_dboxes_xywh_data (k % boxes_per_image * 4)) := by
  have h0 : 4 * k < output_data.length := by omega
  have h1 : 4 * k + 1 < output_data.length := by omega
  have h2 : 4 * k + 2 < output_data.length := by omega
  simp only [scale_back_body, quad, decode_box, flat_index, getD_set_ite, List.length_set]
  simp [h0, h1, h2, hk]
  refine ⟨?_, ?_, ?_, ?_⟩ <;> (rw [mul_comm scale_wh]; ring)

/-- The iteration `k` leaves the entries of the other detections alone. -/
theorem scale_back_body_other {K : Type} [LinearOrderedField K] (exp : K → K)
    (input_data input_dboxes_xywh_data : List K) (scale_xy scale_wh : K)
    (boxes_per_image : Nat) (output_data : List K) (k m : Nat)
    (hm : m < 4 * k ∨ 4 * k + 3 < m) :
    (scale_back_body exp input_data input_dboxes_xywh_data scale_xy scale_wh boxes_per_image
      output_data k).getD m 0 = output_data.getD m 0 := by
  have e0 : m ≠ 4 * k := by omega
  have e1 : m ≠ 4 * k + 1 := by omega
  have e2 : m ≠ 4 * k + 2 := by omega
  have e3 : m ≠ 4 * k + 3 := by omega
  simp only [scale_back_body, flat_index, getD_set_ite, List.length_set]
  simp [e0, e1, e2, e3]

theorem scale_back_fold {K : Type} [LinearOrderedField K] (exp : K → K)
    (input_data input_dboxes_xywh_data : List K) (scale_xy scale_wh : K)
    (boxes_per_image : Nat) (l : List Nat) (output_data : List K) :
    (l.foldl (scale_back_body exp input_data input_dboxes_xywh_data scale_xy scale_wh
        boxes_per_image) output_data).length = output_data.length := by
  induction l generalizing output_data with
  | nil => rfl
  | cons x xs ih => rw [List.foldl_cons, ih, scale_back_body_length]

theorem scale_back_fold_other {K : Type} [LinearOrderedField K] (exp : K → K)
    (input_data input_dboxes_xywh_data : List K) (scale_xy scale_wh : K)
    (boxes_per_image : Nat) (l : List Nat) (k : Nat) (hk : k ∉ l) (output_data : List K)
    (m : Nat) (hm₁ : 4 * k ≤ m) (hm₂ : m ≤ 4 * k + 3) :
    (l.foldl (scale_back_body exp input_data input_dboxes_xywh_data scale_xy scale_wh
        boxes_per_image) output_data).getD m 0 = output_data.getD m 0 := by
  induction l generalizing output_data with
  | nil => rfl
  | cons y ys ih =>
    rw [List.foldl_cons, ih (fun h => hk (List.mem_cons_of_mem _ h))]
    have hyk : y ≠ k := fun h => hk (h ▸ List.mem_cons_self _ _)
    exact scale_back_body_other exp _ _ _ _ _ output_data y m (by omega)

/-- After a loop over distinct detection indices, the entries of each of them hold
its decoded box. -/
theorem scale_back_fold_quad {K : Type} [LinearOrderedField K] (exp : K → K)
    (input_data input_dboxes_xywh_data : List K) (scale_xy scale_wh : K)
    (boxes_per_image : Nat) (l : List Nat) (hl : l.Nodup) (output_data : List K) (k : Nat)
    (hmem : k ∈ l) (hk : 4 * k + 3 < output_data.length) :
    quad (l.foldl (scale_back_body exp input_data input_dboxes_xywh_data scale_xy scale_wh
        boxes_per_image) output_data) (4 * k) =
      decode_box exp scale_xy scale_wh (quad input_data (4 * k))
        (quad input_dboxes_xywh_data (k % boxes_per_image * 4)) := by
  induction l generalizing output_data with
  | nil => cases hmem
  | cons x xs ih =>
    rw [List.foldl_cons]
    have hnd := List.nodup_cons.mp hl
    rcases List.mem_cons.mp hmem with h | h
    · subst h
      have hrest := scale_back_fold_other exp input_data input_dboxes_xywh_data scale_xy
        scale_wh boxes_per_image xs k hnd.1
        (scale_back_body exp input_data input_dboxes_xywh_data scale_xy scale_wh
          boxes_per_image output_data k)
      have := scale_back_body_quad exp input_data input_dboxes_xywh_data scale_xy scale_wh
        boxes_per_image output_data k hk
      unfold quad at this ⊢
      rw [hrest _ (by omega) (by omega), hrest _ (by omega) (by omega),
        hrest _ (by omega) (by omega), hrest _ (by omega) (by omega)]
      exact this
    · exact ih hnd.2 _ h (by rw [scale_back_body_length]; exact hk)

/-- C12: for every image `b` and detection slot `j`, `scale_back_batch_kernel` writes
at `(b, j)` the box `(cx - w/2, cy - h/2, cx + w/2, cy + h/2)` with
`cx = scale_xy * in[b][j][0] * prior[j][2] + prior[j][0]`,
`cy = scale_xy * in[b][j][1] * prior[j][3] + prior[j][1]`,
`w = exp(scale_wh * in[b][j][2]) * prior[j][2]` and
`h = exp(scale_wh * in[b][j][3]) * prior[j][3]`: the four output entries of `(b, j)`
are `decode_box` of the four input entries of `(b, j)` and the four entries of the
prior `j`, and of nothing else. -/
theorem scale_back_decodes {K : Type} [LinearOrderedField K] (exp : K → K)
    (batch_size boxes_per_image : Nat) (input_data input_dboxes_xywh_data : List K)
    (scale_xy scale_wh : K) (b j : Nat) (hb : b < batch_size) (hj : j < boxes_per_image) :
    quad (scale_back_batch_kernel exp batch_size boxes_per_image input_data
        input_dboxes_xywh_data scale_xy scale_wh) (b * boxes_per_image * 4 + j * 4) =
      decode_box exp scale_xy scale_wh (quad input_data (b * boxes_per_image * 4 + j * 4))
        (quad input_dboxes_xywh_data (j * 4)) := by
  have hlt : b * boxes_per_image + j < batch_size * boxes_per_image := by
    calc b * boxes_per_image + j < b * boxes_per_image + boxes_per_image := by omega
      _ = (b + 1) * boxes_per_image := by ring
      _ ≤ batch_size * boxes_per_image := Nat.mul_le_mul_right _ hb
  have hidx : b * boxes_per_image * 4 + j * 4 = 4 * (b * boxes_per_image + j) := by ring
  have hmod : (b * boxes_per_image + j) % boxes_per_image = j := by
    rw [Nat.mul_comm, Nat.mul_add_mod, Nat.mod_eq_of_lt hj]
  have := scale_back_fold_quad exp input_data input_dboxes_xywh_data scale_xy scale_wh
    boxes_per_image (List.range (batch_size * boxes_per_image))
    (List.nodup_range _) (List.replicate (batch_size * boxes_per_image * 4) 0)
    (b * boxes_per_image + j) (List.mem_range.mpr hlt) (by simp; omega)
  rw [hmod] at this
  rw [hidx]
  exact this

/-- Witness of C12: over the reals with the real exponential, one image with one box,
offsets `(1, 2, 0, 0)`, prior `(10, 20, 4, 6)`, `scale_xy = 1/10`, `scale_wh = 1/5`. -/
theorem scale_back_decodes_witness :
    quad (scale_back_batch_kernel Real.exp 1 1 [1, 2, 0, 0] [10, 20, 4, 6] (1 / 10) (1 / 5))
        (0 * 1 * 4 + 0 * 4) =
      decode_box Real.exp (1 / 10) (1 / 5) (quad [1, 2, 0, 0] (0 * 1 * 4 + 0 * 4))
        (quad [10, 20, 4, 6] (0 * 4)) ∧
    decode_box Real.exp (1 / 10) (1 / 5) (quad [1, 2, 0, 0] (0 * 1 * 4 + 0 * 4))
        (quad [10, 20, 4, 6] (0 * 4)) = (42 / 5, 91 / 5, 62 / 5, 121 / 5) :=
  ⟨scale_back_decodes Real.exp 1 1 [1, 2, 0, 0] [10, 20, 4, 6] (1 / 10) (1 / 5) 0 0
      (by decide) (by decide),
    by
      simp only [decode_box, quad, List.getD_eq_getElem?_getD]
      norm_num⟩

/-! ## Provenance of the batch records -/

theorem index_select_comp {α : Type} [Inhabited α] (t : List α) (idx keep : List Nat)
    (h : ∀ k ∈ keep, k < idx.length) :
    index_select t (index_select idx keep) = index_select (index_select t idx) keep := by
  unfold index_select
  rw [List.map_map]
  apply List.map_congr_left
  intro k hk
  have hk' := h k hk
  simp [List.getD_eq_getElem?_getD, List.getElem?_eq_getElem hk']

theorem forIndices_range_get {α : Type} (f : Nat → Option α) (n : Nat) (out : List α)
    (h : forIndices f (List.range n) = some out) (index : Nat) (hi : index < n) :
    out.length = n ∧ f index = out[index]? := by
  have hmap := forIndices_map f _ out h
  have hlen : out.length = n := by
    have := congrArg List.length hmap
    simpa using this.symm
  refine ⟨hlen, ?_⟩
  have h₁ := congrArg (fun l => l[index]?) hmap
  simp only [List.getElem?_map, List.getElem?_range hi, Option.map_some'] at h₁
  have hlt : index < out.length := hlen ▸ hi
  rw [List.getElem?_eq_getElem hlt] at h₁ ⊢
  simpa using h₁

/-- After a first loop that did not throw, `remove_empty` returns the defined slots
of the image. -/
theorem remove_empty_slots (argsort : Bool → List ℚ → List Nat)
    (batch_dets : List (List Box)) (batch_scores : List (List (List ℚ))) (nscore : Nat)
    (threshold : ℚ) (max_output : Int) (slots : List (Option (List Box × List ℚ × List Nat)))
    (h : forIndices (stage1 argsort batch_dets batch_scores nscore threshold max_output)
      (List.range (batch_scores.length * nscore)) = some slots) (bs : Nat)
    (hbs : bs < batch_scores.length) :
    remove_empty slots (bs * nscore) ((bs + 1) * nscore) =
      image_slots argsort batch_dets batch_scores nscore threshold max_output bs := by
  unfold remove_empty image_slots
  have hsub : (bs + 1) * nscore - bs * nscore = nscore := by
    rw [Nat.succ_mul]; omega
  rw [hsub]
  apply List.filterMap_congr
  intro index hidx
  obtain ⟨k, hk, rfl⟩ := List.mem_range'.mp hidx
  have hlt : bs * nscore + 1 * k < batch_scores.length * nscore := by
    calc bs * nscore + 1 * k < bs * nscore + nscore := by omega
      _ = (bs + 1) * nscore := by rw [Nat.succ_mul]
      _ ≤ batch_scores.length * nscore := Nat.mul_le_mul_right _ hbs
  obtain ⟨hlen, hget⟩ := forIndices_range_get _ _ _ h _ hlt
  unfold slot_at
  rw [hget, List.getD_eq_getElem?_getD]
  cases slots[bs * nscore + 1 * k]? <;> rfl

/-- The triple of image `b` in the result of a successful call, in terms of the
defined slots of the image. -/
theorem batch_triple_eq (argsort : Bool → List ℚ → List Nat)
    (batch_dets : List (List Box)) (batch_scores : List (List (List ℚ))) (nscore : Nat)
    (threshold : ℚ) (max_output : Int) (out : List (List Box × List Nat × List ℚ))
    (h : batch_score_nms_kernel argsort batch_dets batch_scores nscore threshold max_output =
      some out) (b : Nat) (t : List Box × List Nat × List ℚ) (ht : out[b]? = some t) :
    b < batch_scores.length ∧
    image_slots argsort batch_dets batch_scores nscore threshold max_output b ≠ [] ∧
    t = (index_select
          ((image_slots argsort batch_dets batch_scores nscore threshold max_output b).map
            (fun s => s.1)).flatten
          (topIds argsort max_output
            (image_scores argsort batch_dets batch_scores nscore threshold max_output b)),
        index_select
          ((image_slots argsort batch_dets batch_scores nscore threshold max_output b).map
            (fun s => s.2.2)).flatten
          (topIds argsort max_output
            (image_scores argsort batch_dets batch_scores nscore threshold max_output b)),
        index_select
          (image_scores argsort batch_dets batch_scores nscore threshold max_output b)
          (topIds argsort max_output
            (image_scores argsort batch_dets batch_scores nscore threshold max_output b))) := by
  obtain ⟨slots, h₁, h₂⟩ := batch_score_nms_kernel_eq_some _ _ _ _ _ _ _ h
  have hb : b < batch_scores.length := by
    have hlen := (forIndices_eq_some _ _ _ h₂).1
    have : b < out.length := by
      by_contra hcon
      rw [List.getElem?_eq_none (not_lt.mp hcon)] at ht
      cases ht
    simpa [hlen] using this
  have hst := (forIndices_range_get _ _ _ h₂ b hb).2
  rw [ht] at hst
  obtain ⟨bx, l, s, hbx, hl, hs, rfl⟩ := stage2_eq_some _ _ _ _ _ _ _ _ hst
  rw [remove_empty_map, remove_empty_slots argsort batch_dets batch_scores nscore threshold
    max_output slots h₁ b hb] at hbx hl hs
  have hne : image_slots argsort batch_dets batch_scores nscore threshold max_output b ≠ [] := by
    intro hnil
    rw [hnil] at hs
    cases hs
  rw [cat_eq_some _ _ hbx, cat_eq_some _ _ hl, cat_eq_some _ _ hs]
  exact ⟨hb, hne, rfl⟩

/-- Position `p` of the concatenation of the defined slots lies in one slot `x`, the
one of the `k`-th index of `l`, at a local position `u`; the three concatenated
tensors agree on that. -/
theorem flatten_locate (g : Nat → Option (List Box × List ℚ × List Nat)) (l : List Nat)
    (halign : ∀ i ∈ l, ∀ x, g i = some x →
      x.1.length = x.2.1.length ∧ x.2.2.length = x.2.1.length)
    (p : Nat) (hp : p < (((l.filterMap g).map (fun s => s.2.1)).flatten).length) :
    ∃ k x u, k < l.length ∧ g (l.getD k 0) = some x ∧ u < x.2.1.length ∧
      p = (((l.take k).filterMap g).map (fun s => s.2.1)).flatten.length + u ∧
      (((l.filterMap g).map (fun s => s.1)).flatten).getD p default = x.1.getD u default ∧
      (((l.filterMap g).map (fun s => s.2.1)).flatten).getD p 0 = x.2.1.getD u 0 ∧
      (((l.filterMap g).map (fun s => s.2.2)).flatten).getD p 0 = x.2.2.getD u 0 := by
  induction l generalizing p with
  | nil => simp at hp
  | cons a l ih =>
    have halign' : ∀ i ∈ l, ∀ x, g i = some x →
        x.1.length = x.2.1.length ∧ x.2.2.length = x.2.1.length :=
      fun i hi => halign i (List.mem_cons_of_mem _ hi)
    cases hg : g a with
    | none =>
      rw [List.filterMap_cons_none hg] at hp ⊢
      obtain ⟨k, x, u, hk, hgx, hu, hpu, e₁, e₂, e₃⟩ := ih halign' p hp
      refine ⟨k + 1, x, u, by simpa using hk, by simpa using hgx, hu, ?_, e₁, e₂, e₃⟩
      rw [List.take_succ_cons, List.filterMap_cons_none hg]
      exact hpu
    | some y =>
      obtain ⟨hy₁, hy₂⟩ := halign a (List.mem_cons_self _ _) y hg
      rw [List.filterMap_cons_some hg] at hp ⊢
      simp only [List.map_cons, List.flatten_cons, List.length_append] at hp ⊢
      by_cases hlt : p < y.2.1.length
      · refine ⟨0, y, p, by simp, by simpa using hg, hlt, by simp, ?_, ?_, ?_⟩
        · exact List.getD_append _ _ _ _ (by omega)
        · exact List.getD_append _ _ _ _ hlt
        · exact List.getD_append _ _ _ _ (by omega)
      · obtain ⟨k, x, u, hk, hgx, hu, hpu, e₁, e₂, e₃⟩ :=
          ih halign' (p - y.2.1.length) (by omega)
        refine ⟨k + 1, x, u, by simpa using hk, by simpa using hgx, hu, ?_, ?_, ?_, ?_⟩
        · rw [List.take_succ_cons, List.filterMap_cons_some hg]
          simp only [List.map_cons, List.flatten_cons, List.length_append]
          omega
        · rw [List.getD_append_right _ _ _ _ (by omega), hy₁]
          exact e₁
        · rw [List.getD_append_right _ _ _ _ (by omega)]
          exact e₂
        · rw [List.getD_append_right _ _ _ _ (by omega), hy₂]
          exact e₃

theorem topIds_nodup (argsort : Bool → List ℚ → List Nat) (hsort : SortSpec argsort)
    (max_output : Int) (scores : List ℚ) : (topIds argsort max_output scores).Nodup :=
  ((hsort false scores).1.nodup_iff.mpr (List.nodup_range _)).sublist (slice_sublist _ _ _)

theorem topIds_length (argsort : Bool → List ℚ → List Nat) (hsort : SortSpec argsort)
    (max_output : Int) (hK : 0 ≤ max_output) (scores : List ℚ) :
    (topIds argsort max_output scores).length = min scores.length max_output.toNat := by
  have hlen : (argsort false scores).length = scores.length := by
    simpa using (hsort false scores).1.length_eq
  unfold topIds slice
  simp only [List.length_drop, List.length_take, Int.toNat_ofNat, min_self, hlen]
  omega

/-- The gathered positions are the last ones of the ascending order: every position
that is not gathered has a score at most that of every gathered one. -/
theorem topIds_top (argsort : Bool → List ℚ → List Nat) (hsort : SortSpec argsort)
    (max_output : Int) (scores : List ℚ) (p : Nat) (hp : p < scores.length)
    (hnot : p ∉ topIds argsort max_output scores) (q : Nat)
    (hq : q ∈ topIds argsort max_output scores) : scores.getD p 0 ≤ scores.getD q 0 := by
  have hperm := (hsort false scores).1
  have hsorted := (hsort false scores).2
  have hpmem : p ∈ argsort false scores := hperm.mem_iff.mpr (List.mem_range.mpr hp)
  unfold topIds slice at hnot hq
  simp only [Int.toNat_ofNat, List.take_length] at hnot hq
  generalize hn : (max (((argsort false scores).length : Int) - max_output) 0).toNat = n
    at hnot hq
  have hsplit := List.take_append_drop n (argsort false scores)
  rw [← hsplit] at hpmem hsorted
  rcases List.mem_append.mp hpmem with h | h
  · have := (List.pairwise_append.mp hsorted).2.2 p h q hq
    simpa using this
  · exact absurd h hnot

/-- What a filled slot holds, in terms of the run of `nms_cpu_kernel` of its class:
the boxes are the boxes `dets'` given to the kernel, gathered at the kept indices. -/
theorem stage1_slot_nms (argsort : Bool → List ℚ → List Nat) (batch_dets : List (List Box))
    (batch_scores : List (List (List ℚ))) (nscore : Nat) (threshold : ℚ) (max_output : Int)
    (index : Nat) (x : List Box × List ℚ × List Nat)
    (h : stage1 argsort batch_dets batch_scores nscore threshold max_output index =
      some (some x)) :
    ∃ (dets' : List Box) (scores' : List ℚ), scores'.length = dets'.length ∧
      x.1 = index_select dets' (nms_cpu_kernel argsort dets' scores' threshold 0) ∧
      x.2.1.length = (nms_cpu_kernel argsort dets' scores' threshold 0).length := by
  unfold stage1 at h
  dsimp only at h
  split at h
  · cases h
  · split at h
    · cases h
    · split at h
      · cases h
      · have hx := Option.some.inj (Option.some.inj h)
        subst hx
        generalize batch_scores.getD (index / nscore) [] = rows
        generalize batch_dets.getD (index / nscore) [] = dets
        generalize rows.map (fun row => row.getD (index % nscore) 0) = score0
        generalize (List.range score0.length).filter
          (fun n => decide ((1 : ℚ) / 20 < score0.getD n 0)) = mask_index
        generalize slice (argsort false (index_select score0 mask_index))
          (max (((index_select score0 mask_index).length : Int) - max_output) 0)
          (index_select score0 mask_index).length = sis
        refine ⟨index_select (index_select dets mask_index) sis,
          index_select (index_select score0 mask_index) sis, ?_, ?_, ?_⟩
        · simp [length_index_select]
        · exact index_select_comp _ _ _ (fun k hk => by
            have := ((mem_nms_cpu_kernel _ _ _ _ _ k).mp hk).1
            simpa [length_index_select] using this)
        · simp [length_index_select]

theorem default_rat : (default : ℚ) = 0 := rfl

/-- The gathers of the first loop, record by record: the box and the score of the
record `u` are those of the row `n` that the mask, the sorted slice and the kept
index select in turn. -/
theorem slot_row_core (dets : List Box) (rows : List (List ℚ)) (i : Nat)
    (mask_index sis keep : List Nat)
    (hmask : mask_index = (List.range (rows.map (fun row => row.getD i 0)).length).filter
      (fun n => decide ((1 : ℚ) / 20 < (rows.map (fun row => row.getD i 0)).getD n 0)))
    (hsis : ∀ c ∈ sis, c < mask_index.length) (hkeep : ∀ k ∈ keep, k < sis.length)
    (u : Nat) (hu : u < keep.length) :
    ∃ n, n < rows.length ∧
      (index_select (index_select dets mask_index) (index_select sis keep)).getD u default =
        dets.getD n default ∧
      (index_select (index_select (rows.map (fun row => row.getD i 0)) mask_index)
          (index_select sis keep)).getD u 0 = (rows.getD n []).getD i 0 ∧
      (1 : ℚ) / 20 < (index_select (index_select (rows.map (fun row => row.getD i 0))
          mask_index) (index_select sis keep)).getD u 0 ∧
      (List.replicate (index_select sis keep).length i).getD u 0 = i := by
  have hklt : keep.getD u 0 < sis.length := hkeep _ (getD_mem_of_lt keep u hu)
  have hcandlt : sis.getD (keep.getD u 0) 0 < mask_index.length :=
    hsis _ (getD_mem_of_lt sis _ hklt)
  have hn : mask_index.getD (sis.getD (keep.getD u 0) 0) 0 ∈ mask_index :=
    getD_mem_of_lt mask_index _ hcandlt
  have hlen₁ : u < (index_select sis keep).length := by
    simpa [length_index_select] using hu
  have hsel : (index_select sis keep).getD u 0 = sis.getD (keep.getD u 0) 0 :=
    getD_index_select sis keep u hu
  have hbox : (index_select (index_select dets mask_index) (index_select sis keep)).getD u
      default = dets.getD (mask_index.getD (sis.getD (keep.getD u 0) 0) 0) default := by
    rw [getD_index_select _ _ u hlen₁, hsel, getD_index_select _ _ _ hcandlt]
  have hscore : (index_select (index_select (rows.map (fun row => row.getD i 0))
      mask_index) (index_select sis keep)).getD u 0 =
      (rows.map (fun row => row.getD i 0)).getD
        (mask_index.getD (sis.getD (keep.getD u 0) 0) 0) 0 := by
    rw [← default_rat, getD_index_select _ _ u hlen₁, hsel, getD_index_select _ _ _ hcandlt]
  have hlab : (List.replicate (index_select sis keep).length i).getD u 0 = i := by
    rw [List.getD_eq_getElem _ _ (by simpa using hlen₁)]
    simp
  rw [hbox, hscore]
  generalize mask_index.getD (sis.getD (keep.getD u 0) 0) 0 = n at hn ⊢
  rw [hmask, List.mem_filter, List.mem_range] at hn
  obtain ⟨hnlt, hncut⟩ := hn
  have hnrows : n < rows.length := by simpa using hnlt
  have hcut := of_decide_eq_true hncut
  have hs0 : (rows.map (fun row => row.getD i 0)).getD n 0 = (rows.getD n []).getD i 0 := by
    simp [List.getD_eq_getElem?_getD, List.getElem?_eq_getElem hnrows]
  exact ⟨n, hnrows, rfl, hs0, hcut, hlab⟩

/-- Every record of a filled slot comes from one row `n` of the image: its box is
`batch_dets[bs][n]`, its score is `batch_scores[bs][n][i]` and exceeds the cutoff,
and its label is the class `i` of the slot. -/
theorem stage1_slot_row (argsort : Bool → List ℚ → List Nat) (hsort : SortSpec argsort)
    (batch_dets : List (List Box)) (batch_scores : List (List (List ℚ))) (nscore : Nat)
    (threshold : ℚ) (max_output : Int) (index : Nat) (x : List Box × List ℚ × List Nat)
    (h : stage1 argsort batch_dets batch_scores nscore threshold max_output index =
      some (some x)) (u : Nat) (hu : u < x.2.1.length) :
    ∃ n, n < (batch_scores.getD (index / nscore) []).length ∧
      x.1.getD u default = (batch_dets.getD (index / nscore) []).getD n default ∧
      x.2.1.getD u 0 =
        ((batch_scores.getD (index / nscore) []).getD n []).getD (index % nscore) 0 ∧
      (1 : ℚ) / 20 < x.2.1.getD u 0 ∧ x.2.2.getD u 0 = index % nscore := by
  unfold stage1 at h
  dsimp only at h
  split at h
  · cases h
  · split at h
    · cases h
    · split at h
      · cases h
      · have hx := Option.some.inj (Option.some.inj h)
        subst hx
        dsimp only at hu ⊢
        refine slot_row_core _ _ _ _ _ _ rfl ?_ ?_ u
          (Nat.lt_of_lt_of_eq hu (by simp only [length_index_select]))
        · intro c hc
          have h₁ := (slice_sublist _ _ _).subset hc
          have h₂ := (hsort false _).1.mem_iff.mp h₁
          simpa [length_index_select] using h₂
        · intro k hk
          have := ((mem_nms_cpu_kernel _ _ _ _ _ k).mp hk).1
          simpa [length_index_select] using this

theorem default_nat : (default : Nat) = 0 := rfl

theorem slot_at_eq_some (argsort : Bool → List ℚ → List Nat) (batch_dets : List (List Box))
    (batch_scores : List (List (List ℚ))) (nscore : Nat) (threshold : ℚ) (max_output : Int)
    (index : Nat) (x : List Box × List ℚ × List Nat)
    (h : slot_at argsort batch_dets batch_scores nscore threshold max_output index = some x) :
    stage1 argsort batch_dets batch_scores nscore threshold max_output index =
      some (some x) := by
  unfold slot_at at h
  cases hs : stage1 argsort batch_dets batch_scores nscore threshold max_output index with
  | none => rw [hs] at h; cases h
  | some v =>
    rw [hs] at h
    cases v with
    | none => cases h
    | some y => rw [Option.some.inj h]

theorem getD_range' (s n k : Nat) (hk : k < n) : (List.range' s n).getD k 0 = s + k := by
  rw [List.getD_eq_getElem _ _ (by simpa using hk)]
  simp

/-- Provenance of a record: the record `r` of the triple of image `b` is the record
`u` of the slot `x` of one class `k` of that image; the position gathered for `r` is
the offset of the class in the concatenation plus `u`. -/
theorem record_locate (argsort : Bool → List ℚ → List Nat) (hsort : SortSpec argsort)
    (batch_dets : List (List Box)) (batch_scores : List (List (List ℚ))) (nscore : Nat)
    (threshold : ℚ) (max_output : Int) (out : List (List Box × List Nat × List ℚ))
    (h : batch_score_nms_kernel argsort batch_dets batch_scores nscore threshold max_output =
      some out) (b : Nat) (t : List Box × List Nat × List ℚ) (ht : out[b]? = some t)
    (r : Nat) (hr : r < t.2.2.length) :
    ∃ k x u, k < nscore ∧
      stage1 argsort batch_dets batch_scores nscore threshold max_output (b * nscore + k) =
        some (some x) ∧
      u < x.2.1.length ∧
      (topIds argsort max_output
          (image_scores argsort batch_dets batch_scores nscore threshold max_output b)).getD
        r 0 =
        ((((List.range' (b * nscore) nscore).take k).filterMap
          (slot_at argsort batch_dets batch_scores nscore threshold max_output)).map
            (fun s => s.2.1)).flatten.length + u ∧
      t.1.getD r default = x.1.getD u default ∧
      t.2.1.getD r 0 = x.2.2.getD u 0 ∧
      t.2.2.getD r 0 = x.2.1.getD u 0 := by
  obtain ⟨_, _, rfl⟩ := batch_triple_eq argsort batch_dets batch_scores nscore threshold
    max_output out h b t ht
  dsimp only at hr ⊢
  rw [length_index_select] at hr
  have hid := topIds_lt argsort hsort max_output _ _ (getD_mem_of_lt _ r hr)
  have halign : ∀ i ∈ List.range' (b * nscore) nscore, ∀ x,
      slot_at argsort batch_dets batch_scores nscore threshold max_output i = some x →
      x.1.length = x.2.1.length ∧ x.2.2.length = x.2.1.length := by
    intro i _ x hx
    obtain ⟨_, h₁, h₂, _⟩ := stage1_eq_some _ _ _ _ _ _ _ _ (slot_at_eq_some _ _ _ _ _ _ _ _ hx)
    exact ⟨h₂, h₁.symm⟩
  obtain ⟨k, x, u, hk, hgx, hu, hpu, e₁, e₂, e₃⟩ := flatten_locate
    (slot_at argsort batch_dets batch_scores nscore threshold max_output)
    (List.range' (b * nscore) nscore) halign _ hid
  have hk' : k < nscore := by simpa using hk
  rw [getD_range' _ _ _ hk'] at hgx
  refine ⟨k, x, u, hk', slot_at_eq_some _ _ _ _ _ _ _ _ hgx, hu, hpu, ?_, ?_, ?_⟩
  · rw [getD_index_select _ _ r hr]
    exact e₁
  · rw [← default_nat, getD_index_select _ _ r hr, default_nat]
    exact e₃
  · rw [← default_rat, getD_index_select _ _ r hr, default_rat]
    exact e₂

theorem slot_index_div (b nscore k : Nat) (hk : k < nscore) : (b * nscore + k) / nscore = b := by
  rw [Nat.mul_comm b nscore, Nat.mul_add_div (by omega), Nat.div_eq_of_lt hk, Nat.add_zero]

theorem slot_index_mod (b nscore k : Nat) (hk : k < nscore) : (b * nscore + k) % nscore = k := by
  rw [Nat.mul_comm b nscore, Nat.mul_add_mod, Nat.mod_eq_of_lt hk]

theorem batch_record_row (argsort : Bool → List ℚ → List Nat) (hsort : SortSpec argsort)
    (batch_dets : List (List Box)) (batch_scores : List (List (List ℚ))) (nscore : Nat)
    (threshold : ℚ) (max_output : Int) (out : List (List Box × List Nat × List ℚ))
    (h : batch_score_nms_kernel argsort batch_dets batch_scores nscore threshold max_output =
      some out) (b : Nat) (t : List Box × List Nat × List ℚ) (ht : out[b]? = some t)
    (r : Nat) (hr : r < t.2.2.length) :
    (t.1.length = t.2.2.length ∧ t.2.1.length = t.2.2.length) ∧
    ∃ n, n < (batch_scores.getD b []).length ∧
      t.1.getD r default = (batch_dets.getD b []).getD n default ∧
      t.2.2.getD r 0 = ((batch_scores.getD b []).getD n []).getD (t.2.1.getD r 0) 0 ∧
      (1 : ℚ) / 20 < t.2.2.getD r 0 := by
  obtain ⟨k, x, u, hk, hst, hu, _, e₁, e₂, e₃⟩ := record_locate argsort hsort batch_dets
    batch_scores nscore threshold max_output out h b t ht r hr
  obtain ⟨n, hn, r₁, r₂, r₃, r₄⟩ := stage1_slot_row argsort hsort batch_dets batch_scores nscore
    threshold max_output _ x hst u hu
  rw [slot_index_div b nscore k hk] at hn r₁ r₂
  rw [slot_index_mod b nscore k hk] at r₂ r₄
  refine ⟨?_, n, hn, by rw [e₁, r₁], by rw [e₃, e₂, r₄, r₂], by rw [e₃]; exact r₃⟩
  obtain ⟨_, _, rfl⟩ := batch_triple_eq argsort batch_dets batch_scores nscore threshold
    max_output out h b t ht
  simp [length_index_select]

theorem mem_index_select {α : Type} [Inhabited α] (t : List α) (index : List Nat) (s : α)
    (hs : s ∈ index_select t index) : ∃ q ∈ index, s = t.getD q default := by
  unfold index_select at hs
  obtain ⟨q, hq, rfl⟩ := List.mem_map.mp hs
  exact ⟨q, hq, rfl⟩

theorem batch_top_scores (argsort : Bool → List ℚ → List Nat) (hsort : SortSpec argsort)
    (batch_dets : List (List Box)) (batch_scores : List (List (List ℚ))) (nscore : Nat)
    (threshold : ℚ) (max_output : Int) (hK : 0 ≤ max_output)
    (out : List (List Box × List Nat × List ℚ))
    (h : batch_score_nms_kernel argsort batch_dets batch_scores nscore threshold max_output =
      some out) (b : Nat) (t : List Box × List Nat × List ℚ) (ht : out[b]? = some t) :
    t.2.2 = index_select
      (image_scores argsort batch_dets batch_scores nscore threshold max_output b)
      (topIds argsort max_output
        (image_scores argsort batch_dets batch_scores nscore threshold max_output b)) ∧
    (t.2.2.length : Int) = min
      ((image_scores argsort batch_dets batch_scores nscore threshold max_output b).length : Int)
      max_output ∧
    (t.1.length = t.2.2.length ∧ t.2.1.length = t.2.2.length) ∧
    (topIds argsort max_output
      (image_scores argsort batch_dets batch_scores nscore threshold max_output b)).Nodup ∧
    ∀ p, p < (image_scores argsort batch_dets batch_scores nscore threshold max_output
        b).length →
      p ∉ topIds argsort max_output
        (image_scores argsort batch_dets batch_scores nscore threshold max_output b) →
      ∀ s ∈ t.2.2,
        (image_scores argsort batch_dets batch_scores nscore threshold max_output b).getD p 0
          ≤ s := by
  obtain ⟨_, _, rfl⟩ := batch_triple_eq argsort batch_dets batch_scores nscore threshold
    max_output out h b t ht
  dsimp only
  refine ⟨rfl, ?_, by simp [length_index_select], topIds_nodup argsort hsort max_output _, ?_⟩
  · rw [length_index_select, topIds_length argsort hsort max_output hK]
    omega
  · intro p hp hnot s hs
    obtain ⟨q, hq, rfl⟩ := mem_index_select _ _ s hs
    exact topIds_top argsort hsort max_output _ p hp hnot q hq

theorem overlap_not_ge (bias : ℚ) (a b : Box) (threshold : ℚ)
    (h : (overlap bias a b).ge threshold = false) :
    (overlap bias a b).lt threshold = true ∨ overlap bias a b = FVal.nan := by
  have hi := inter_nonneg bias a b
  unfold overlap fdiv at h ⊢
  by_cases hd : divisor bias a b = 0
  · rw [if_pos hd] at h ⊢
    by_cases h0 : inter bias a b = 0
    · right; rw [if_pos h0]
    · rw [if_neg h0, if_pos (lt_of_le_of_ne hi (Ne.symm h0))] at h
      simp [FVal.ge] at h
  · rw [if_neg hd] at h ⊢
    left
    simp only [FVal.ge, decide_eq_false_iff_not, not_le] at h
    simp only [FVal.lt, decide_eq_true_eq]
    exact h

theorem batch_same_label (argsort : Bool → List ℚ → List Nat) (hsort : SortSpec argsort)
    (batch_dets : List (List Box)) (batch_scores : List (List (List ℚ))) (nscore : Nat)
    (threshold : ℚ) (max_output : Int) (out : List (List Box × List Nat × List ℚ))
    (h : batch_score_nms_kernel argsort batch_dets batch_scores nscore threshold max_output =
      some out) (t : List Box × List Nat × List ℚ) (ht : t ∈ out) (r r' : Nat)
    (hr : r < t.2.2.length) (hr' : r' < t.2.2.length) (hne : r ≠ r')
    (hlab : t.2.1.getD r 0 = t.2.1.getD r' 0) :
    (overlap 0 (t.1.getD r default) (t.1.getD r' default)).ge threshold = false := by
  obtain ⟨b, hb⟩ := List.mem_iff_getElem?.mp ht
  obtain ⟨k, x, u, hk, hst, hu, hp, e₁, e₂, _⟩ := record_locate argsort hsort batch_dets
    batch_scores nscore threshold max_output out h b t hb r hr
  obtain ⟨k', x', u', hk', hst', hu', hp', e₁', e₂', _⟩ := record_locate argsort hsort
    batch_dets batch_scores nscore threshold max_output out h b t hb r' hr'
  obtain ⟨_, hlen, _, hall⟩ := stage1_eq_some _ _ _ _ _ _ _ _ hst
  obtain ⟨_, hlen', _, hall'⟩ := stage1_eq_some _ _ _ _ _ _ _ _ hst'
  have hl : x.2.2.getD u 0 = k := by
    have hmem : x.2.2.getD u 0 ∈ x.2.2 := getD_mem_of_lt _ u (hlen ▸ hu)
    rw [hall _ hmem, slot_index_mod b nscore k hk]
  have hl' : x'.2.2.getD u' 0 = k' := by
    have hmem : x'.2.2.getD u' 0 ∈ x'.2.2 := getD_mem_of_lt _ u' (hlen' ▸ hu')
    rw [hall' _ hmem, slot_index_mod b nscore k' hk']
  have hkk : k = k' := by rw [← hl, ← hl', ← e₂, ← e₂', hlab]
  subst hkk
  have hxx : x = x' := Option.some.inj (Option.some.inj (hst.symm.trans hst'))
  subst hxx
  have hids : (topIds argsort max_output
      (image_scores argsort batch_dets batch_scores nscore threshold max_output b)).getD r 0 ≠
      (topIds argsort max_output
      (image_scores argsort batch_dets batch_scores nscore threshold max_output b)).getD r' 0 := by
    obtain ⟨_, _, rfl⟩ := batch_triple_eq argsort batch_dets batch_scores nscore threshold
      max_output out h b t hb
    dsimp only at hr hr'
    rw [length_index_select] at hr hr'
    exact getD_ne_of_nodup _ (topIds_nodup argsort hsort max_output _) r r' hr hr' hne
  have huu : u ≠ u' := by
    intro huu
    rw [hp, hp', huu] at hids
    exact hids rfl
  obtain ⟨dets', scores', hlen₂, hbox, hklen⟩ := stage1_slot_nms _ _ _ _ _ _ _ _ hst
  have hperm : (argsort true scores').Perm (List.range dets'.length) := by
    rw [← hlen₂]; exact (hsort true scores').1
  have hnd : (nms_cpu_kernel argsort dets' scores' threshold 0).Nodup :=
    (nms_cpu_kernel_sorted argsort dets' scores' threshold 0).imp (fun h => Nat.ne_of_lt h)
  rw [hklen] at hu hu'
  rw [e₁, e₁', hbox, getD_index_select _ _ u hu, getD_index_select _ _ u' hu']
  exact nms_kept_pair argsort dets' scores' threshold 0 hperm _ _
    (getD_mem_of_lt _ u hu) (getD_mem_of_lt _ u' hu') (getD_ne_of_nodup _ hnd u u' hu hu' huu)

/-- C17: every record `r` of the triple `t` that `batch_score_nms_kernel` returns for
image `b` comes from one original detection `n` of that image: its box is
`batch_dets[b][n]`, its score is `batch_scores[b][n][c]` for the record's own label
`c`, and the score is above the `0.05` cutoff; the three tensors of the triple have
one common length, so position `r` names one record in all of them. -/
theorem batch_record_provenance (argsort : Bool → List ℚ → List Nat)
    (hsort : SortSpec argsort) (batch_dets : List (List Box))
    (batch_scores : List (List (List ℚ))) (nscore : Nat) (threshold : ℚ) (max_output : Int)
    (out : List (List Box × List Nat × List ℚ))
    (h : batch_score_nms_kernel argsort batch_dets batch_scores nscore threshold max_output =
      some out) (b : Nat) (t : List Box × List Nat × List ℚ) (ht : out[b]? = some t)
    (r : Nat) (hr : r < t.2.2.length) :
    (t.1.length = t.2.2.length ∧ t.2.1.length = t.2.2.length) ∧
    ∃ n, n < (batch_scores.getD b []).length ∧
      t.1.getD r default = (batch_dets.getD b []).getD n default ∧
      t.2.2.getD r 0 = ((batch_scores.getD b []).getD n []).getD (t.2.1.getD r 0) 0 ∧
      (1 : ℚ) / 20 < t.2.2.getD r 0 :=
  batch_record_row argsort hsort batch_dets batch_scores nscore threshold max_output out h b t
    ht r hr

/-- Witness of C17: one image, three boxes, two classes besides the background; the
first record of the triple, `(box 1, label 2, score 0.3)`, is detection `n = 1`. -/
theorem batch_record_provenance_witness :
    SortSpec argsortStable ∧
    batch_score_nms_kernel argsortStable
      [[⟨0, 0, 10, 10⟩, ⟨1, 1, 11, 11⟩, ⟨20, 20, 30, 30⟩]]
      [[[0, 9 / 10, 1 / 10], [0, 8 / 10, 3 / 10], [0, 1 / 100, 7 / 10]]] 3 (1 / 2) 200 =
      some [([⟨1, 1, 11, 11⟩, ⟨20, 20, 30, 30⟩, ⟨0, 0, 10, 10⟩], [2, 2, 1],
        [3 / 10, 7 / 10, 9 / 10])] ∧
    ∃ n, n < 3 ∧
      (⟨1, 1, 11, 11⟩ : Box) =
        ([⟨0, 0, 10, 10⟩, ⟨1, 1, 11, 11⟩, ⟨20, 20, 30, 30⟩] : List Box).getD n default ∧
      (3 / 10 : ℚ) =
        (([[0, 9 / 10, 1 / 10], [0, 8 / 10, 3 / 10], [0, 1 / 100, 7 / 10]] :
          List (List ℚ)).getD n []).getD 2 0 ∧
      (1 : ℚ) / 20 < 3 / 10 :=
  ⟨argsortStable_spec, by decide!,
    (batch_record_provenance argsortStable argsortStable_spec
      [[⟨0, 0, 10, 10⟩, ⟨1, 1, 11, 11⟩, ⟨20, 20, 30, 30⟩]]
      [[[0, 9 / 10, 1 / 10], [0, 8 / 10, 3 / 10], [0, 1 / 100, 7 / 10]]] 3 (1 / 2) 200
      [([⟨1, 1, 11, 11⟩, ⟨20, 20, 30, 30⟩, ⟨0, 0, 10, 10⟩], [2, 2, 1],
        [3 / 10, 7 / 10, 9 / 10])]
      (by decide!) 0
      ([⟨1, 1, 11, 11⟩, ⟨20, 20, 30, 30⟩, ⟨0, 0, 10, 10⟩], [2, 2, 1], [3 / 10, 7 / 10, 9 / 10])
      rfl 0 (by decide)).2⟩

/-- Supporting the top-K claim where the call returns: for `0 <= max_output = K` and
every image `b` of a successful call, with
`S` the concatenated scores of the image's non-empty per-class results (`M` of them),
the scores of the triple are `S` gathered at the duplicate-free positions `topIds`,
the triple has exactly `min(M, K)` records, and every survivor whose position is
not selected has a score `<=` every score in the output. -/
theorem batch_keeps_top_k (argsort : Bool → List ℚ → List Nat) (hsort : SortSpec argsort)
    (batch_dets : List (List Box)) (batch_scores : List (List (List ℚ))) (nscore : Nat)
    (threshold : ℚ) (max_output : Int) (hK : 0 ≤ max_output)
    (out : List (List Box × List Nat × List ℚ))
    (h : batch_score_nms_kernel argsort batch_dets batch_scores nscore threshold max_output =
      some out) (b : Nat) (t : List Box × List Nat × List ℚ) (ht : out[b]? = some t) :
    t.2.2 = index_select
      (image_scores argsort batch_dets batch_scores nscore threshold max_output b)
      (topIds argsort max_output
        (image_scores argsort batch_dets batch_scores nscore threshold max_output b)) ∧
    (t.2.2.length : Int) = min
      ((image_scores argsort batch_dets batch_scores nscore threshold max_output b).length : Int)
      max_output ∧
    (t.1.length = t.2.2.length ∧ t.2.1.length = t.2.2.length) ∧
    (topIds argsort max_output
      (image_scores argsort batch_dets batch_scores nscore threshold max_output b)).Nodup ∧
    ∀ p, p < (image_scores argsort batch_dets batch_scores nscore threshold max_output
        b).length →
      p ∉ topIds argsort max_output
        (image_scores argsort batch_dets batch_scores nscore threshold max_output b) →
      ∀ s ∈ t.2.2,
        (image_scores argsort batch_dets batch_scores nscore threshold max_output b).getD p 0
          ≤ s :=
  batch_top_scores argsort hsort batch_dets batch_scores nscore threshold max_output hK out h
    b t ht

/-- An instance of `batch_keeps_top_k`: three survivors `[0.9, 0.3, 0.7]` and `K = 2`:
the triple has `min(3, 2) = 2` records, with the scores `0.7` and `0.9`. -/
theorem batch_keeps_top_k_witness :
    SortSpec argsortStable ∧ (0 : Int) ≤ 2 ∧
    batch_score_nms_kernel argsortStable
      [[⟨0, 0, 10, 10⟩, ⟨1, 1, 11, 11⟩, ⟨20, 20, 30, 30⟩]]
      [[[0, 9 / 10, 1 / 10], [0, 8 / 10, 3 / 10], [0, 1 / 100, 7 / 10]]] 3 (1 / 2) 2 =
      some [([⟨20, 20, 30, 30⟩, ⟨0, 0, 10, 10⟩], [2, 1], [7 / 10, 9 / 10])] ∧
    image_scores argsortStable [[⟨0, 0, 10, 10⟩, ⟨1, 1, 11, 11⟩, ⟨20, 20, 30, 30⟩]]
      [[[0, 9 / 10, 1 / 10], [0, 8 / 10, 3 / 10], [0, 1 / 100, 7 / 10]]] 3 (1 / 2) 2 0 =
      [9 / 10, 3 / 10, 7 / 10] ∧
    ((([7 / 10, 9 / 10] : List ℚ).length : Nat) : Int) = min
      ((image_scores argsortStable [[⟨0, 0, 10, 10⟩, ⟨1, 1, 11, 11⟩, ⟨20, 20, 30, 30⟩]]
        [[[0, 9 / 10, 1 / 10], [0, 8 / 10, 3 / 10], [0, 1 / 100, 7 / 10]]] 3 (1 / 2) 2
        0).length : Int) 2 :=
  ⟨argsortStable_spec, by decide, by decide!, by decide!,
    (batch_keeps_top_k argsortStable argsortStable_spec
      [[⟨0, 0, 10, 10⟩, ⟨1, 1, 11, 11⟩, ⟨20, 20, 30, 30⟩]]
      [[[0, 9 / 10, 1 / 10], [0, 8 / 10, 3 / 10], [0, 1 / 100, 7 / 10]]] 3 (1 / 2) 2
      (by decide)
      [([⟨20, 20, 30, 30⟩, ⟨0, 0, 10, 10⟩], [2, 1], [7 / 10, 9 / 10])]
      (by decide!) 0
      ([⟨20, 20, 30, 30⟩, ⟨0, 0, 10, 10⟩], [2, 1], [7 / 10, 9 / 10]) rfl).2.1⟩

/-- An image without a filled slot makes the whole call throw: `remove_empty` returns
empty vectors for it and `at::cat` is called on an empty list. -/
theorem batch_empty_image_throws (argsort : Bool → List ℚ → List Nat)
    (batch_dets : List (List Box)) (batch_scores : List (List (List ℚ))) (nscore : Nat)
    (threshold : ℚ) (max_output : Int) (b : Nat) (hb : b < batch_scores.length)
    (hM : image_slots argsort batch_dets batch_scores nscore threshold max_output b = []) :
    batch_score_nms_kernel argsort batch_dets batch_scores nscore threshold max_output =
      none := by
  cases h : batch_score_nms_kernel argsort batch_dets batch_scores nscore threshold
      max_output with
  | none => rfl
  | some out =>
    exfalso
    obtain ⟨slots, _, h₂⟩ := batch_score_nms_kernel_eq_some _ _ _ _ _ _ _ h
    obtain ⟨hlen, _⟩ := forIndices_range_get _ _ _ h₂ b hb
    have hlt : b < out.length := hlen ▸ hb
    exact (batch_triple_eq argsort batch_dets batch_scores nscore threshold max_output out h b
      (out.get ⟨b, hlt⟩) (List.getElem?_eq_getElem hlt)).2.1 hM

/-- C18, on the code: if one image `b` of the batch has no per-class survivor at all
(`M = 0`, no slot of the image is filled), `batch_score_nms_kernel` throws: no image
gets its `min(M, K)` records, neither image `b` its zero records nor any other image
its top `K`. -/
theorem batch_top_k_not_returned (argsort : Bool → List ℚ → List Nat)
    (batch_dets : List (List Box)) (batch_scores : List (List (List ℚ))) (nscore : Nat)
    (threshold : ℚ) (max_output : Int) (b : Nat) (hb : b < batch_scores.length)
    (hM : image_slots argsort batch_dets batch_scores nscore threshold max_output b = []) :
    batch_score_nms_kernel argsort batch_dets batch_scores nscore threshold max_output =
      none :=
  batch_empty_image_throws argsort batch_dets batch_scores nscore threshold max_output b hb hM

/-- Witness of C18, on the code: two images of three boxes, `K = 2`.  The first image
has the `M = 3` survivors `[0.9, 0.3, 0.7]`, the second image has none, and the call
throws. -/
theorem batch_top_k_not_returned_witness :
    1 < ([[[0, 9 / 10, 1 / 10], [0, 8 / 10, 3 / 10], [0, 1 / 100, 7 / 10]],
      [[0, 1 / 100, 1 / 50], [0, 1 / 50, 1 / 100], [0, 1 / 50, 1 / 25]]] :
      List (List (List ℚ))).length ∧
    image_scores argsortStable
      [[⟨0, 0, 10, 10⟩, ⟨1, 1, 11, 11⟩, ⟨20, 20, 30, 30⟩],
        [⟨0, 0, 10, 10⟩, ⟨1, 1, 11, 11⟩, ⟨20, 20, 30, 30⟩]]
      [[[0, 9 / 10, 1 / 10], [0, 8 / 10, 3 / 10], [0, 1 / 100, 7 / 10]],
        [[0, 1 / 100, 1 / 50], [0, 1 / 50, 1 / 100], [0, 1 / 50, 1 / 25]]] 3 (1 / 2) 2 0 =
      [9 / 10, 3 / 10, 7 / 10] ∧
    image_slots argsortStable
      [[⟨0, 0, 10, 10⟩, ⟨1, 1, 11, 11⟩, ⟨20, 20, 30, 30⟩],
        [⟨0, 0, 10, 10⟩, ⟨1, 1, 11, 11⟩, ⟨20, 20, 30, 30⟩]]
      [[[0, 9 / 10, 1 / 10], [0, 8 / 10, 3 / 10], [0, 1 / 100, 7 / 10]],
        [[0, 1 / 100, 1 / 50], [0, 1 / 50, 1 / 100], [0, 1 / 50, 1 / 25]]] 3 (1 / 2) 2 1 =
      [] ∧
    batch_score_nms_kernel argsortStable
      [[⟨0, 0, 10, 10⟩, ⟨1, 1, 11, 11⟩, ⟨20, 20, 30, 30⟩],
        [⟨0, 0, 10, 10⟩, ⟨1, 1, 11, 11⟩, ⟨20, 20, 30, 30⟩]]
      [[[0, 9 / 10, 1 / 10], [0, 8 / 10, 3 / 10], [0, 1 / 100, 7 / 10]],
        [[0, 1 / 100, 1 / 50], [0, 1 / 50, 1 / 100], [0, 1 / 50, 1 / 25]]] 3 (1 / 2) 2 =
      none :=
  ⟨by decide, by decide!, by decide!,
    batch_top_k_not_returned argsortStable
      [[⟨0, 0, 10, 10⟩, ⟨1, 1, 11, 11⟩, ⟨20, 20, 30, 30⟩],
        [⟨0, 0, 10, 10⟩, ⟨1, 1, 11, 11⟩, ⟨20, 20, 30, 30⟩]]
      [[[0, 9 / 10, 1 / 10], [0, 8 / 10, 3 / 10], [0, 1 / 100, 7 / 10]],
        [[0, 1 / 100, 1 / 50], [0, 1 / 50, 1 / 100], [0, 1 / 50, 1 / 25]]] 3 (1 / 2) 2 1
      (by decide) (by decide!)⟩

/-- C20, as stated, fails: for one image with two zero-area boxes of one class, with
scores `0.9` and `0.8` and threshold `0.5`, both records are returned with the label
`1`, and the overlap of their boxes at bias 0 is the NaN of `0 / 0`, which is not
strictly below the threshold. -/
theorem batch_same_label_nan_overlap :
    batch_score_nms_kernel argsortStable [[⟨0, 0, 0, 0⟩, ⟨3, 4, 3, 4⟩]]
      [[[0, 9 / 10], [0, 8 / 10]]] 2 (1 / 2) 200 =
      some [([⟨3, 4, 3, 4⟩, ⟨0, 0, 0, 0⟩], [1, 1], [8 / 10, 9 / 10])] ∧
    overlap 0 ⟨3, 4, 3, 4⟩ ⟨0, 0, 0, 0⟩ = FVal.nan ∧
    (overlap 0 ⟨3, 4, 3, 4⟩ ⟨0, 0, 0, 0⟩).lt (1 / 2) = false :=
  ⟨by decide!, by decide!, by decide!⟩

/-- C20, amended: in every triple returned by `batch_score_nms_kernel`, any two
distinct records that carry the same label have boxes whose overlap, computed with
bias 0, does not reach the threshold: the comparison `overlap >= threshold` is false,
that is, the overlap is strictly below the threshold or it is the NaN of `0 / 0`
(as for two zero-area boxes). -/
theorem batch_same_label_below_threshold (argsort : Bool → List ℚ → List Nat)
    (hsort : SortSpec argsort) (batch_dets : List (List Box))
    (batch_scores : List (List (List ℚ))) (nscore : Nat) (threshold : ℚ) (max_output : Int)
    (out : List (List Box × List Nat × List ℚ))
    (h : batch_score_nms_kernel argsort batch_dets batch_scores nscore threshold max_output =
      some out) (t : List Box × List Nat × List ℚ) (ht : t ∈ out) (r r' : Nat)
    (hr : r < t.2.2.length) (hr' : r' < t.2.2.length) (hne : r ≠ r')
    (hlab : t.2.1.getD r 0 = t.2.1.getD r' 0) :
    (overlap 0 (t.1.getD r default) (t.1.getD r' default)).ge threshold = false ∧
    ((overlap 0 (t.1.getD r default) (t.1.getD r' default)).lt threshold = true ∨
      overlap 0 (t.1.getD r default) (t.1.getD r' default) = FVal.nan) :=
  ⟨batch_same_label argsort hsort batch_dets batch_scores nscore threshold max_output out h t
      ht r r' hr hr' hne hlab,
    overlap_not_ge 0 _ _ threshold
      (batch_same_label argsort hsort batch_dets batch_scores nscore threshold max_output out h
        t ht r r' hr hr' hne hlab)⟩

/-- Witness of C20, amended: the first two records of the triple carry the label `2`
and their boxes are disjoint. -/
theorem batch_same_label_below_threshold_witness :
    SortSpec argsortStable ∧
    batch_score_nms_kernel argsortStable
      [[⟨0, 0, 10, 10⟩, ⟨1, 1, 11, 11⟩, ⟨20, 20, 30, 30⟩]]
      [[[0, 9 / 10, 1 / 10], [0, 8 / 10, 3 / 10], [0, 1 / 100, 7 / 10]]] 3 (1 / 2) 200 =
      some [([⟨1, 1, 11, 11⟩, ⟨20, 20, 30, 30⟩, ⟨0, 0, 10, 10⟩], [2, 2, 1],
        [3 / 10, 7 / 10, 9 / 10])] ∧
    (overlap 0 ⟨1, 1, 11, 11⟩ ⟨20, 20, 30, 30⟩).ge (1 / 2) = false :=
  ⟨argsortStable_spec, by decide!,
    (batch_same_label_below_threshold argsortStable argsortStable_spec
      [[⟨0, 0, 10, 10⟩, ⟨1, 1, 11, 11⟩, ⟨20, 20, 30, 30⟩]]
      [[[0, 9 / 10, 1 / 10], [0, 8 / 10, 3 / 10], [0, 1 / 100, 7 / 10]]] 3 (1 / 2) 200
      [([⟨1, 1, 11, 11⟩, ⟨20, 20, 30, 30⟩, ⟨0, 0, 10, 10⟩], [2, 2, 1],
        [3 / 10, 7 / 10, 9 / 10])]
      (by decide!)
      ([⟨1, 1, 11, 11⟩, ⟨20, 20, 30, 30⟩, ⟨0, 0, 10, 10⟩], [2, 2, 1], [3 / 10, 7 / 10, 9 / 10])
      (List.mem_singleton.mpr rfl) 0 1 (by decide) (by decide) (by decide) rfl).1⟩

/-! ## Well-formedness of the decoded boxes -/

theorem scale_back_batch_kernel_quad {K : Type} [LinearOrderedField K] (exp : K → K)
    (batch_size boxes_per_image : Nat) (input_data input_dboxes_xywh_data : List K)
    (scale_xy scale_wh : K) (b j : Nat) (hb : b < batch_size) (hj : j < boxes_per_image) :
    quad (scale_back_batch_kernel exp batch_size boxes_per_image input_data
        input_dboxes_xywh_data scale_xy scale_wh) (b * boxes_per_image * 4 + j * 4) =
      decode_box exp scale_xy scale_wh (quad input_data (b * boxes_per_image * 4 + j * 4))
        (quad input_dboxes_xywh_data (j * 4)) := by
  have hlt : b * boxes_per_image + j < batch_size * boxes_per_image := by
    calc b * boxes_per_image + j < b * boxes_per_image + boxes_per_image := by omega
      _ = (b + 1) * boxes_per_image := by ring
      _ ≤ batch_size * boxes_per_image := Nat.mul_le_mul_right _ hb
  have hidx : b * boxes_per_image * 4 + j * 4 = 4 * (b * boxes_per_image + j) := by ring
  have hmod : (b * boxes_per_image + j) % boxes_per_image = j := by
    rw [Nat.mul_comm, Nat.mul_add_mod, Nat.mod_eq_of_lt hj]
  have := scale_back_fold_quad exp input_data input_dboxes_xywh_data scale_xy scale_wh
    boxes_per_image (List.range (batch_size * boxes_per_image))
    (List.nodup_range _) (List.replicate (batch_size * boxes_per_image * 4) 0)
    (b * boxes_per_image + j) (List.mem_range.mpr hlt) (by simp; omega)
  rw [hmod] at this
  rw [hidx]
  exact this

/-- The box that `decode_box` returns for a prior of positive width and height, when
the exponential is positive everywhere: left of right, top above bottom, the sides
are the decoded width and height, and the midpoint is the decoded centre. -/
theorem decode_box_well_formed {K : Type} [LinearOrderedField K] (exp : K → K)
    (hexp : ∀ x, 0 < exp x) (scale_xy scale_wh : K) (offset prior : K × K × K × K)
    (hw : 0 < prior.2.2.1) (hh : 0 < prior.2.2.2) :
    (decode_box exp scale_xy scale_wh offset prior).1 <
      (decode_box exp scale_xy scale_wh offset prior).2.2.1 ∧
    (decode_box exp scale_xy scale_wh offset prior).2.1 <
      (decode_box exp scale_xy scale_wh offset prior).2.2.2 ∧
    (decode_box exp scale_xy scale_wh offset prior).2.2.1 -
      (decode_box exp scale_xy scale_wh offset prior).1 =
      exp (scale_wh * offset.2.2.1) * prior.2.2.1 ∧
    (decode_box exp scale_xy scale_wh offset prior).2.2.2 -
      (decode_box exp scale_xy scale_wh offset prior).2.1 =
      exp (scale_wh * offset.2.2.2) * prior.2.2.2 ∧
    ((decode_box exp scale_xy scale_wh offset prior).1 +
      (decode_box exp scale_xy scale_wh offset prior).2.2.1) / 2 =
      scale_xy * offset.1 * prior.2.2.1 + prior.1 ∧
    ((decode_box exp scale_xy scale_wh offset prior).2.1 +
      (decode_box exp scale_xy scale_wh offset prior).2.2.2) / 2 =
      scale_xy * offset.2.1 * prior.2.2.2 + prior.2.1 := by
  have pw : 0 < exp (scale_wh * offset.2.2.1) * prior.2.2.1 := mul_pos (hexp _) hw
  have ph : 0 < exp (scale_wh * offset.2.2.2) * prior.2.2.2 := mul_pos (hexp _) hh
  simp only [decode_box]
  refine ⟨by linarith, by linarith, by ring, by ring, by ring, by ring⟩

/-- C21: over the reals with the real exponential, for every image `b`, every slot
`j` and every input offset, if the prior box `j` has positive width and height then
the box `(l, t, r, b)` that `scale_back_batch_kernel` writes at `(b, j)` is
well-formed: `l < r` and `t < b`, with `r - l = exp(scale_wh * offset_w) * prior_w`
and `b - t = exp(scale_wh * offset_h) * prior_h`, and its midpoint
`((l + r) / 2, (t + b) / 2)` is the recovered centre
`(scale_xy * offset_x * prior_w + prior_cx, scale_xy * offset_y * prior_h + prior_cy)`. -/
theorem scale_back_box_well_formed (batch_size boxes_per_image : Nat)
    (input_data input_dboxes_xywh_data : List ℝ) (scale_xy scale_wh : ℝ) (b j : Nat)
    (hb : b < batch_size) (hj : j < boxes_per_image)
    (hw : 0 < input_dboxes_xywh_data.getD (j * 4 + 2) 0)
    (hh : 0 < input_dboxes_xywh_data.getD (j * 4 + 3) 0) :
    (scale_back_batch_kernel Real.exp batch_size boxes_per_image input_data
        input_dboxes_xywh_data scale_xy scale_wh).getD (b * boxes_per_image * 4 + j * 4) 0 <
      (scale_back_batch_kernel Real.exp batch_size boxes_per_image input_data
        input_dboxes_xywh_data scale_xy scale_wh).getD
        (b * boxes_per_image * 4 + j * 4 + 2) 0 ∧
    (scale_back_batch_kernel Real.exp batch_size boxes_per_image input_data
        input_dboxes_xywh_data scale_xy scale_wh).getD
        (b * boxes_per_image * 4 + j * 4 + 1) 0 <
      (scale_back_batch_kernel Real.exp batch_size boxes_per_image input_data
        input_dboxes_xywh_data scale_xy scale_wh).getD
        (b * boxes_per_image * 4 + j * 4 + 3) 0 ∧
    (scale_back_batch_kernel Real.exp batch_size boxes_per_image input_data
        input_dboxes_xywh_data scale_xy scale_wh).getD
        (b * boxes_per_image * 4 + j * 4 + 2) 0 -
      (scale_back_batch_kernel Real.exp batch_size boxes_per_image input_data
        input_dboxes_xywh_data scale_xy scale_wh).getD (b * boxes_per_image * 4 + j * 4) 0 =
      Real.exp (scale_wh * input_data.getD (b * boxes_per_image * 4 + j * 4 + 2) 0) *
        input_dboxes_xywh_data.getD (j * 4 + 2) 0 ∧
    (scale_back_batch_kernel Real.exp batch_size boxes_per_image input_data
        input_dboxes_xywh_data scale_xy scale_wh).getD
        (b * boxes_per_image * 4 + j * 4 + 3) 0 -
      (scale_back_batch_kernel Real.exp batch_size boxes_per_image input_data
        input_dboxes_xywh_data scale_xy scale_wh).getD
        (b * boxes_per_image * 4 + j * 4 + 1) 0 =
      Real.exp (scale_wh * input_data.getD (b * boxes_per_image * 4 + j * 4 + 3) 0) *
        input_dboxes_xywh_data.getD (j * 4 + 3) 0 ∧
    ((scale_back_batch_kernel Real.exp batch_size boxes_per_image input_data
        input_dboxes_xywh_data scale_xy scale_wh).getD (b * boxes_per_image * 4 + j * 4) 0 +
      (scale_back_batch_kernel Real.exp batch_size boxes_per_image input_data
        input_dboxes_xywh_data scale_xy scale_wh).getD
        (b * boxes_per_image * 4 + j * 4 + 2) 0) / 2 =
      scale_xy * input_data.getD (b * boxes_per_image * 4 + j * 4) 0 *
        input_dboxes_xywh_data.getD (j * 4 + 2) 0 + input_dboxes_xywh_data.getD (j * 4) 0 ∧
    ((scale_back_batch_kernel Real.exp batch_size boxes_per_image input_data
        input_dboxes_xywh_data scale_xy scale_wh).getD
        (b * boxes_per_image * 4 + j * 4 + 1) 0 +
      (scale_back_batch_kernel Real.exp batch_size boxes_per_image input_data
        input_dboxes_xywh_data scale_xy scale_wh).getD
        (b * boxes_per_image * 4 + j * 4 + 3) 0) / 2 =
      scale_xy * input_data.getD (b * boxes_per_image * 4 + j * 4 + 1) 0 *
        input_dboxes_xywh_data.getD (j * 4 + 3) 0 +
        input_dboxes_xywh_data.getD (j * 4 + 1) 0 := by
  have hq := scale_back_batch_kernel_quad Real.exp batch_size boxes_per_image input_data
    input_dboxes_xywh_data scale_xy scale_wh b j hb hj
  have hd := decode_box_well_formed Real.exp Real.exp_pos scale_xy scale_wh
    (quad input_data (b * boxes_per_image * 4 + j * 4)) (quad input_dboxes_xywh_data (j * 4))
    hw hh
  rw [← hq] at hd
  exact hd

/-- Witness of C21: one image with one box, offsets `(1, 2, 0, 0)`, prior
`(10, 20, 4, 6)` of width 4 and height 6, `scale_xy = 1/10`, `scale_wh = 1/5`: the
decoded box `(42/5, 91/5, 62/5, 121/5)` has `l < r` and `t < b`. -/
theorem scale_back_box_well_formed_witness :
    (0 : ℝ) < ([10, 20, 4, 6] : List ℝ).getD (0 * 4 + 2) 0 ∧
    (0 : ℝ) < ([10, 20, 4, 6] : List ℝ).getD (0 * 4 + 3) 0 ∧
    (scale_back_batch_kernel Real.exp 1 1 [1, 2, 0, 0] [10, 20, 4, 6] (1 / 10)
        (1 / 5)).getD (0 * 1 * 4 + 0 * 4) 0 <
      (scale_back_batch_kernel Real.exp 1 1 [1, 2, 0, 0] [10, 20, 4, 6] (1 / 10)
        (1 / 5)).getD (0 * 1 * 4 + 0 * 4 + 2) 0 ∧
    (scale_back_batch_kernel Real.exp 1 1 [1, 2, 0, 0] [10, 20, 4, 6] (1 / 10)
        (1 / 5)).getD (0 * 1 * 4 + 0 * 4 + 1) 0 <
      (scale_back_batch_kernel Real.exp 1 1 [1, 2, 0, 0] [10, 20, 4, 6] (1 / 10)
        (1 / 5)).getD (0 * 1 * 4 + 0 * 4 + 3) 0 :=
  ⟨by norm_num, by norm_num,
    (scale_back_box_well_formed 1 1 [1, 2, 0, 0] [10, 20, 4, 6] (1 / 10) (1 / 5) 0 0
      (by decide) (by decide) (by norm_num) (by norm_num)).1,
    (scale_back_box_well_formed 1 1 [1, 2, 0, 0] [10, 20, 4, 6] (1 / 10) (1 / 5) 0 0
      (by decide) (by decide) (by norm_num) (by norm_num)).2.1⟩

end torch_ipex
